import Mathlib

/-!
MetricsQL lexer and binary-operator table

A shallow embedding of `lexer.go` and `binary_op.go`.

* A Go `string` is a sequence of bytes: `Str := List Nat`, every byte being a
  natural number below 256.  Byte arithmetic that may wrap is written with an
  explicit `% 256`.
* A Go `int` result that may be `-1` is an `Int`.
* A `panic` is the result `none`.
* A `float64` is the rational number it denotes, or an infinity, or NaN; every
  operation rounds to the nearest value with a 53-bit mantissa, ties to even.
* Of the standard library, `strings.ToLower` is written out for ASCII and
  `strconv.ParseFloat` for plain decimal literals.
* Loops whose index does not simply walk over the list are written with an
  explicit iteration budget (`fuel`); the public function supplies a budget
  that is proved sufficient, so the budget never runs out.
-/

namespace MetricsQL

/-- A Go string: its bytes in order. -/
abbrev Str := List Nat

/-- The bytes of an ASCII literal. -/
def bytes (s : String) : Str := s.toList.map Char.toNat

/-- Go `s[i:]` for `0 ≤ i ≤ len(s)`. -/
def sliceFrom (s : Str) (i : Nat) : Str := s.drop i

/-- Go `s[:i]` for `0 ≤ i ≤ len(s)`. -/
def sliceTo (s : Str) (i : Nat) : Str := s.take i

/-- Go `strings.IndexByte(s, c)`; `none` stands for the result `-1`. -/
def indexByte (s : Str) (c : Nat) : Option Nat :=
  match s with
  | [] => none
  | x :: r => if x = c then some 0 else (indexByte r c).map (· + 1)

/-! ## Character classes (`lexer.go`) -/

/-- Go `isDecimalChar`: `ch >= '0' && ch <= '9'`. -/
def isDecimalChar (ch : Nat) : Bool := decide (48 ≤ ch) && decide (ch ≤ 57)

/-- Go `isFirstIdentChar`: a letter, `'_'` or `':'`. -/
def isFirstIdentChar (ch : Nat) : Bool :=
  if (decide (97 ≤ ch) && decide (ch ≤ 122)) || (decide (65 ≤ ch) && decide (ch ≤ 90)) then true
  else decide (ch = 95) || decide (ch = 58)

/-- Go `isIdentChar`: a first-identifier character, a decimal digit or `'.'`. -/
def isIdentChar (ch : Nat) : Bool :=
  if isFirstIdentChar ch then true
  else isDecimalChar ch || decide (ch = 46)

/-- Go `isSpaceChar`: one of `' '`, `'\t'`, `'\n'`, `'\v'`, `'\f'`, `'\r'`. -/
def isSpaceChar (ch : Nat) : Bool :=
  decide (ch = 32) || decide (ch = 9) || decide (ch = 10) || decide (ch = 11) ||
    decide (ch = 12) || decide (ch = 13)

/-! ## Identifier escaping (`lexer.go`) -/

/-- Go `fromHex`: the value of a hexadecimal digit, `-1` for any other byte. -/
def fromHex (ch : Nat) : Int :=
  if 48 ≤ ch ∧ ch ≤ 57 then ((ch - 48) % 256 : Nat)
  else if 97 ≤ ch ∧ ch ≤ 102 then (((ch - 97) % 256 + 10) % 256 : Nat)
  else if 65 ≤ ch ∧ ch ≤ 70 then (((ch - 65) % 256 + 10) % 256 : Nat)
  else -1

/-- Go `toHex`: the lower-case hexadecimal digit of a nibble (byte arithmetic). -/
def toHex (n : Nat) : Nat :=
  if n < 10 then (48 + n) % 256
  else (97 + (n - 10)) % 256

/-- Go `byte((h1<<4)|h2)` for non-negative `h1`, `h2`. -/
def hexByte (h1 h2 : Int) : Nat := ((h1.toNat <<< 4) ||| h2.toNat) % 256

/-- The body of the `for` loop of `appendEscapedIdent`, from index `i` on; the
second list is `s[i:]`. -/
def appendEscapedIdentFrom (i : Nat) (dst : Str) : Str → Str
  | [] => dst
  | ch :: rest =>
    if isIdentChar ch then
      if i = 0 ∧ isFirstIdentChar ch = false then
        appendEscapedIdentFrom (i + 1) (dst ++ [92, 120, toHex (ch >>> 4), toHex (ch &&& 15)]) rest
      else
        appendEscapedIdentFrom (i + 1) (dst ++ [ch]) rest
    else if 32 ≤ ch ∧ ch < 127 then
      appendEscapedIdentFrom (i + 1) (dst ++ [92, ch]) rest
    else
      appendEscapedIdentFrom (i + 1) (dst ++ [92, 120, toHex (ch >>> 4), toHex (ch &&& 15)]) rest

/-- Go `appendEscapedIdent(dst, s)`. -/
def appendEscapedIdent (dst : Str) (s : Str) : Str := appendEscapedIdentFrom 0 dst s

/-- The `for` loop of `unescapeIdent`, entered with `n` the index of the first
backslash of `s`.  Every iteration removes at least two bytes from `s` or
returns, so a budget of `len(s)` iterations is never used up. -/
def unescapeIdentLoop : Nat → Str → Str → Nat → Str
  | 0, dst, _, _ => dst
  | fuel + 1, dst, s, n =>
    let dst := dst ++ sliceTo s n
    let s := sliceFrom s (n + 1)
    match s with
    | [] => dst
    | s0 :: t =>
      let step : Str × Str :=
        if s0 = 120 ∧ 3 ≤ (s0 :: t).length then
          let h1 := fromHex (t.getD 0 0)
          let h2 := fromHex (t.getD 1 0)
          if 0 ≤ h1 ∧ 0 ≤ h2 then (dst ++ [hexByte h1 h2], sliceFrom (s0 :: t) 3)
          else (dst ++ [s0], sliceFrom (s0 :: t) 1)
        else (dst ++ [s0], sliceFrom (s0 :: t) 1)
      match indexByte step.2 92 with
      | none => step.1 ++ step.2
      | some n => unescapeIdentLoop fuel step.1 step.2 n

/-- Go `unescapeIdent(s)`. -/
def unescapeIdent (s : Str) : Str :=
  match indexByte s 92 with
  | none => s
  | some n => unescapeIdentLoop s.length [] s n

/-- Every element is a byte. -/
def IsBytes (s : Str) : Prop := ∀ b ∈ s, b < 256

instance (s : Str) : Decidable (IsBytes s) := by
  unfold IsBytes
  infer_instance


/-! ## Binary operators (`binary_op.go`) -/

/-- Go `strings.ToLower` on one ASCII byte. -/
def toLowerByte (c : Nat) : Nat := if 65 ≤ c ∧ c ≤ 90 then c + 32 else c

/-- Go `strings.ToLower`, on its ASCII path: the letters `A`..`Z` are lowered
and every other byte is kept. -/
def ToLower (s : Str) : Str := s.map toLowerByte

/-- A Go map with string keys: its entries in the order of the source text. -/
abbrev GoMap (V : Type) := List (Str × V)

/-- A Go map read `m[k]`: the zero value `zero` when the key is absent. -/
def GoMap.get {V : Type} (m : GoMap V) (k : Str) (zero : V) : V :=
  match m.lookup k with
  | some v => v
  | none => zero

/-- The keys of a Go map. -/
def GoMap.keys {V : Type} (m : GoMap V) : List Str := m.map Prod.fst

/-- Go `binaryOps`. -/
def binaryOps : GoMap Bool :=
  [(bytes "+", true), (bytes "-", true), (bytes "*", true), (bytes "/", true),
   (bytes "%", true), (bytes "^", true),
   (bytes "==", true), (bytes "!=", true), (bytes ">", true), (bytes "<", true),
   (bytes ">=", true), (bytes "<=", true),
   (bytes "and", true), (bytes "or", true), (bytes "unless", true),
   (bytes "if", true), (bytes "ifnot", true), (bytes "default", true)]

/-- Go `binaryOpPriorities`. -/
def binaryOpPriorities : GoMap Int :=
  [(bytes "default", -1),
   (bytes "if", 0), (bytes "ifnot", 0),
   (bytes "or", 1), (bytes "and", 2), (bytes "unless", 2),
   (bytes "==", 3), (bytes "!=", 3), (bytes "<", 3), (bytes ">", 3),
   (bytes "<=", 3), (bytes ">=", 3),
   (bytes "+", 4), (bytes "-", 4),
   (bytes "*", 5), (bytes "/", 5), (bytes "%", 5),
   (bytes "^", 6)]

/-- Go `isBinaryOp`. -/
def isBinaryOp (op : Str) : Bool :=
  let op := ToLower op
  binaryOps.get op false

/-- Go `binaryOpPriority`. -/
def binaryOpPriority (op : Str) : Int :=
  let op := ToLower op
  binaryOpPriorities.get op 0

/-- The body of the `for op := range binaryOps` loop of `scanBinaryOpPrefix`:
the new value of `n` after the operator `op` has been looked at. -/
def scanBinaryOpPrefixStep (s : Str) (n : Nat) (op : Str) : Nat :=
  if op.length > s.length then n
  else
    let ss := ToLower (sliceTo s op.length)
    if ss = op ∧ op.length > n then op.length else n

/-- The loop of `scanBinaryOpPrefix` when the map is traversed in the order
`order` (Go leaves the order of a `range` over a map unspecified). -/
def scanBinaryOpPrefixOver (order : List Str) (s : Str) : Nat :=
  order.foldl (scanBinaryOpPrefixStep s) 0

/-- Go `scanBinaryOpPrefix`, traversing the map in the order of the source text. -/
def scanBinaryOpPrefix (s : Str) : Nat := scanBinaryOpPrefixOver binaryOps.keys s

/-- Go `isRightAssociativeBinaryOp`. -/
def isRightAssociativeBinaryOp (op : Str) : Bool := decide (op = bytes "^")

/-- Go `IsBinaryOpCmp`. -/
def IsBinaryOpCmp (op : Str) : Bool :=
  decide (op = bytes "==") || decide (op = bytes "!=") || decide (op = bytes ">") ||
    decide (op = bytes "<") || decide (op = bytes ">=") || decide (op = bytes "<=")

/-- Go `isBinaryOpLogicalSet`. -/
def isBinaryOpLogicalSet (op : Str) : Bool :=
  let op := ToLower op
  decide (op = bytes "and") || decide (op = bytes "or") || decide (op = bytes "unless")

/-- What `binaryOpEval` uses and `binary_op.go` does not define: the type
`float64` with its constants `0`, `1` and `math.NaN()`, and the functions of the
package `binaryop`. -/
structure Float64Ops (F : Type) where
  zero : F
  one : F
  nan : F
  Eq : F → F → Bool
  Neq : F → F → Bool
  Gt : F → F → Bool
  Lt : F → F → Bool
  Gte : F → F → Bool
  Lte : F → F → Bool
  Plus : F → F → F
  Minus : F → F → F
  Mul : F → F → F
  Div : F → F → F
  Mod : F → F → F
  Pow : F → F → F
  Default : F → F → F
  If : F → F → F
  Ifnot : F → F → F

/-- The closure `evalCmp` of `binaryOpEval`. -/
def evalCmp {F : Type} (fo : Float64Ops F) (left right : F) (isBool : Bool)
    (cf : F → F → Bool) : F :=
  if isBool then
    if cf left right then fo.one else fo.zero
  else if cf left right then left
  else fo.nan

/-- Go `binaryOpEval`; `none` stands for a `panic`. -/
def binaryOpEval {F : Type} (fo : Float64Ops F) (op : Str) (left right : F) (isBool : Bool) :
    Option F :=
  if IsBinaryOpCmp op then
    if op = bytes "==" then some (evalCmp fo left right isBool fo.Eq)
    else if op = bytes "!=" then some (evalCmp fo left right isBool fo.Neq)
    else if op = bytes ">" then some (evalCmp fo left right isBool fo.Gt)
    else if op = bytes "<" then some (evalCmp fo left right isBool fo.Lt)
    else if op = bytes ">=" then some (evalCmp fo left right isBool fo.Gte)
    else if op = bytes "<=" then some (evalCmp fo left right isBool fo.Lte)
    else none
  else
    if op = bytes "+" then some (fo.Plus left right)
    else if op = bytes "-" then some (fo.Minus left right)
    else if op = bytes "*" then some (fo.Mul left right)
    else if op = bytes "/" then some (fo.Div left right)
    else if op = bytes "%" then some (fo.Mod left right)
    else if op = bytes "^" then some (fo.Pow left right)
    else if op = bytes "and" then some fo.zero
    else if op = bytes "or" then some fo.zero
    else if op = bytes "unless" then some fo.nan
    else if op = bytes "default" then some (fo.Default left right)
    else if op = bytes "if" then some (fo.If left right)
    else if op = bytes "ifnot" then some (fo.Ifnot left right)
    else none

/-! ## Sub-scanners (`lexer.go`) -/

/-- The errors the lexer builds with `fmt.Errorf`, one constructor for each
format string, carrying the values that are formatted. -/
inductive LexError where
  /-- Message `cannot recognize %q`. -/
  | cannotRecognize (s : Str)
  /-- Message `cannot find end of string in %q`. -/
  | cannotFindEndOfString (s : Str)
  /-- Message `cannot find closing quote %ch for the string %q`. -/
  | cannotFindClosingQuote (quote : Nat) (s : Str)
  /-- Message `number cannot be empty`. -/
  | numberCannotBeEmpty
  /-- Message `missing fractional part in %q`. -/
  | missingFractionalPart (s : Str)
  /-- Message `missing exponent part in %q`. -/
  | missingExponentPart (s : Str)
  /-- Message `cannot parse duration %q`. -/
  | cannotParseDuration (s : Str)
  /-- Message `cannot parse duration %q: %s`, the error of `strconv.ParseFloat`. -/
  | cannotParseDurationFloat (s : Str)
  /-- Message `invalid duration suffix in %q`. -/
  | invalidDurationSuffix (s : Str)
  /-- Message `duration cannot be negative; got %q`. -/
  | durationCannotBeNegative (s : Str)
  deriving DecidableEq, Repr

/-- The loop `for i < len(s) && isDecimalChar(s[i]) { i++ }`: the value of `i`
when it ends. -/
def skipDecimalChars (s : Str) (i : Nat) : Nat :=
  i + ((sliceFrom s i).takeWhile isDecimalChar).length

/-- The loop `for bs < i && s[i-bs-1] == '\\' { bs++ }`: the number of
backslashes that stand immediately before index `i`. -/
def countBackslashesBefore (s : Str) (i : Nat) : Nat :=
  ((sliceTo s i).reverse.takeWhile (fun ch => decide (ch = 92))).length

/-- The `for` loop of `scanString`.  Every iteration moves `i` forward, so a
budget of `len(s)` iterations is never used up. -/
def scanStringLoop : Nat → Str → Nat → Nat → Except LexError Str
  | 0, s, quote, _ => .error (.cannotFindClosingQuote quote s)
  | fuel + 1, s, quote, i =>
    match indexByte (sliceFrom s i) quote with
    | none => .error (.cannotFindClosingQuote quote s)
    | some n =>
      let i := i + n
      let bs := countBackslashesBefore s i
      if bs % 2 = 0 then .ok (sliceTo s (i + 1))
      else scanStringLoop fuel s quote (i + 1)

/-- Go `scanString`. -/
def scanString (s : Str) : Except LexError Str :=
  if s.length < 2 then .error (.cannotFindEndOfString s)
  else
    let quote := s.getD 0 0
    scanStringLoop s.length s quote 1

/-- The part of `scanPositiveNumber` from `if s[i] != 'e' && s[i] != 'E'` on,
entered with `i < len(s)`. -/
def scanPositiveNumberExp (s : Str) (i : Nat) : Except LexError Str :=
  if s.getD i 0 ≠ 101 ∧ s.getD i 0 ≠ 69 then .ok (sliceTo s i)
  else
    let i := i + 1
    if i = s.length then .error (.missingExponentPart s)
    else
      let i := if s.getD i 0 = 45 ∨ s.getD i 0 = 43 then i + 1 else i
      let j := skipDecimalChars s i
      if j = i then .error (.missingExponentPart s)
      else .ok (sliceTo s j)

/-- Go `scanPositiveNumber`.  Every `s[i]` of the source is read behind a test
`i < len(s)`; it is written `s.getD i 0`. -/
def scanPositiveNumber (s : Str) : Except LexError Str :=
  let i := skipDecimalChars s 0
  if i = s.length then
    if i = 0 then .error .numberCannotBeEmpty
    else .ok s
  else if s.getD i 0 ≠ 46 ∧ s.getD i 0 ≠ 101 ∧ s.getD i 0 ≠ 69 then .ok (sliceTo s i)
  else if s.getD i 0 = 46 then
    let i := i + 1
    let j := skipDecimalChars s i
    if j = i then .error (.missingFractionalPart s)
    else
      let i := j
      if i = s.length then .ok s
      else scanPositiveNumberExp s i
  else scanPositiveNumberExp s i

/-- The `for` loop of `scanIdent`, run on `s[i:]`: the number of bytes by which
`i` has grown when the loop ends.  A backslash that is the last byte makes the
loop add 2 and take 1 back. -/
def scanIdentLoop : Str → Nat
  | [] => 0
  | [c] =>
    if isIdentChar c then 1
    else if c ≠ 92 then 0
    else 1
  | c :: d :: r =>
    if isIdentChar c then 1 + scanIdentLoop (d :: r)
    else if c ≠ 92 then 0
    else 2 + scanIdentLoop r

/-- Go `scanIdent`; `none` stands for the `panic` on `i == 0`. -/
def scanIdent (s : Str) : Option Str :=
  let i := scanIdentLoop s
  if i = 0 then none
  else some (sliceTo s i)

/-- Go `scanTagFilterOpPrefix`. -/
def scanTagFilterOpPrefix (s : Str) : Int :=
  if 2 ≤ s.length ∧
      (sliceTo s 2 = bytes "=~" ∨ sliceTo s 2 = bytes "!~" ∨ sliceTo s 2 = bytes "!=") then 2
  else if 1 ≤ s.length ∧ s.getD 0 0 = 61 then 1
  else -1

/-- Go `isStringPrefix`. -/
def isStringPrefix (s : Str) : Bool :=
  match s with
  | [] => false
  | c :: _ => decide (c = 34) || decide (c = 39) || decide (c = 96)

/-- Go `isPositiveNumberPrefix`. -/
def isPositiveNumberPrefix (s : Str) : Bool :=
  if s.length = 0 then false
  else if isDecimalChar (s.getD 0 0) then true
  else if s.getD 0 0 ≠ 46 ∨ s.length < 2 then false
  else isDecimalChar (s.getD 1 0)

/-- The final `switch s[i]` of `scanDuration`. -/
def scanDurationUnit (s : Str) (i : Nat) : Int :=
  let ch := s.getD i 0
  if ch = 115 ∨ ch = 109 ∨ ch = 104 ∨ ch = 100 ∨ ch = 119 ∨ ch = 121 ∨ ch = 105 then
    ((i + 1 : Nat) : Int)
  else -1

/-- Go `scanDuration`. -/
def scanDuration (s : Str) (canBeNegative : Bool) : Int :=
  if s.length = 0 then -1
  else
    let i := if s.getD 0 0 = 45 ∧ canBeNegative = true then 1 else 0
    let i := skipDecimalChars s i
    if i = 0 ∨ i = s.length then -1
    else if s.getD i 0 = 46 then
      let j := i
      let i := i + 1
      let i := skipDecimalChars s i
      if i = j ∨ i = s.length then -1
      else scanDurationUnit s i
    else scanDurationUnit s i

/-- Go `isPositiveDuration`. -/
def isPositiveDuration (s : Str) : Bool :=
  let n := scanDuration s false
  decide (n = (s.length : Int))

/-- Go `isIdentPrefix`. -/
def isIdentPrefix (s : Str) : Bool :=
  match s with
  | [] => false
  | c :: _ => if c = 92 then true else isFirstIdentChar c

/-! ## `float64` and duration values (`lexer.go`) -/

/-- A value of Go's `float64`.  A finite value is the rational number it
denotes; the sign of a zero is not recorded (no operation used here depends on
it). -/
inductive F64 where
  | finite (q : ℚ)
  | inf (negative : Bool)
  | nan
  deriving DecidableEq

/-- Rounding of a rational number to an integer, ties to the even one. -/
def roundHalfEven (q : ℚ) : Int :=
  let f := ⌊q⌋
  let r := q - f
  if r < 1 / 2 then f
  else if 1 / 2 < r then f + 1
  else if f % 2 = 0 then f
  else f + 1

/-- The exponent of the last mantissa bit of the `float64` values around `q`:
53 bits of mantissa, and -1074 for the subnormal numbers. -/
def F64.ulpExp (q : ℚ) : Int := max (Int.log 2 |q| - 52) (-1074)

/-- The `float64` nearest to the rational number `q` (IEEE 754 rounding to
nearest, ties to even); beyond the largest finite value the result is an
infinity. -/
def F64.ofRat (q : ℚ) : F64 :=
  if q = 0 then .finite 0
  else
    let e := F64.ulpExp q
    let r : ℚ := (roundHalfEven (q / (2 : ℚ) ^ e) : ℚ) * (2 : ℚ) ^ e
    if (2 : ℚ) ^ (1024 : Nat) ≤ |r| then .inf (decide (q < 0))
    else .finite r

/-- The conversion `float64(n)` of an integer. -/
def F64.ofInt (n : Int) : F64 := F64.ofRat n

/-- The product `a * b` of two `float64` values. -/
def F64.mul : F64 → F64 → F64
  | .finite a, .finite b => F64.ofRat (a * b)
  | .finite a, .inf s => if a = 0 then .nan else .inf (xor s (decide (a < 0)))
  | .inf s, .finite b => if b = 0 then .nan else .inf (xor s (decide (b < 0)))
  | .inf s, .inf t => .inf (xor s t)
  | .nan, _ => .nan
  | _, .nan => .nan

/-- The quotient `a / b` of two `float64` values; a zero divisor counts as `+0`. -/
def F64.div : F64 → F64 → F64
  | .finite a, .finite b =>
    if b = 0 then (if a = 0 then .nan else .inf (decide (a < 0)))
    else F64.ofRat (a / b)
  | .finite _, .inf _ => .finite 0
  | .inf s, .finite b => .inf (xor s (decide (b < 0)))
  | .inf _, .inf _ => .nan
  | .nan, _ => .nan
  | _, .nan => .nan

/-- The conversion `int64(f)`: the fraction is dropped.  Go leaves the result
open when the value does not fit; it is taken as on amd64, the least `int64`. -/
def F64.toInt64 : F64 → Int
  | .finite q =>
    let t : Int := if 0 ≤ q then ⌊q⌋ else ⌈q⌉
    if -(2 : Int) ^ 63 ≤ t ∧ t < (2 : Int) ^ 63 then t else -(2 : Int) ^ 63
  | _ => -(2 : Int) ^ 63

/-- The natural number that a string of decimal digits denotes. -/
def decimalValue (ds : Str) : Nat := ds.foldl (fun acc c => 10 * acc + (c - 48)) 0

/-- The rational number denoted by `digits [ "." digits ]` with at least one
digit; `none` for any other string. -/
def parseDecimal (body : Str) : Option ℚ :=
  let ip := body.takeWhile isDecimalChar
  match body.drop ip.length with
  | [] => if ip = [] then none else some (decimalValue ip)
  | c :: fp =>
    if c = 46 ∧ fp.all isDecimalChar = true ∧ (ip ≠ [] ∨ fp ≠ []) then
      some ((decimalValue (ip ++ fp) : ℚ) / (10 : ℚ) ^ fp.length)
    else none

/-- Go `strconv.ParseFloat(s, 64)` on the strings `[sign] digits [ "." digits ]`
with at least one digit, the only ones that pass `scanDuration`: the nearest
`float64`, and an error when that is not finite.  `none` stands for an error;
every other string is answered with an error here. -/
def ParseFloat (s : Str) : Option F64 :=
  let signed : Bool × Str :=
    match s with
    | c :: r => if c = 45 then (true, r) else if c = 43 then (false, r) else (false, s)
    | [] => (false, s)
  match parseDecimal signed.2 with
  | none => none
  | some q =>
    match F64.ofRat (if signed.1 then -q else q) with
    | .finite r => some (.finite r)
    | _ => none

/-- Go `DurationValue`.  An error result stands for the return `0, err`. -/
def DurationValue (s : Str) (step : Int) : Except LexError Int :=
  let n := scanDuration s true
  if n ≠ (s.length : Int) then .error (.cannotParseDuration s)
  else
    match ParseFloat (sliceTo s (s.length - 1)) with
    | none => .error (.cannotParseDurationFloat s)
    | some f =>
      let ch := s.getD (s.length - 1) 0
      let mp : Option F64 :=
        if ch = 115 then some (.finite 1)
        else if ch = 109 then some (.finite 60)
        else if ch = 104 then some (.finite (60 * 60))
        else if ch = 100 then some (.finite (24 * 60 * 60))
        else if ch = 119 then some (.finite (7 * 24 * 60 * 60))
        else if ch = 121 then some (.finite (365 * 24 * 60 * 60))
        else if ch = 105 then some (F64.div (F64.ofInt step) (.finite 1000))
        else none
      match mp with
      | none => .error (.invalidDurationSuffix s)
      | some mp => .ok (F64.toInt64 (F64.mul (F64.mul mp f) (.finite 1000)))

/-- Go `PositiveDurationValue`.  An error result stands for the return `0, err`. -/
def PositiveDurationValue (s : Str) (step : Int) : Except LexError Int :=
  match DurationValue s step with
  | .error err => .error err
  | .ok d =>
    if d < 0 then .error (.durationCannotBeNegative s)
    else .ok d

/-! ## The lexer (`lexer.go`) -/

/-- The struct `lexer`. -/
structure Lexer where
  Token : Str
  prevTokens : List Str
  nextTokens : List Str
  sOrig : Str
  sTail : Str
  err : Option LexError
  deriving DecidableEq, Repr

/-- The zero value of the struct `lexer`. -/
def Lexer.zero : Lexer :=
  { Token := [], prevTokens := [], nextTokens := [], sOrig := [], sTail := [], err := none }

/-- Go `lexer.Context`. -/
def Lexer.Context (lex : Lexer) : Str := lex.Token ++ lex.sTail

/-- Go `lexer.Init`. -/
def Lexer.Init (lex : Lexer) (s : Str) : Lexer :=
  { lex with Token := [], prevTokens := [], nextTokens := [], err := none, sOrig := s, sTail := s }

/-- The label `tokenFoundLabel` of `lexer.next`. -/
def Lexer.tokenFound (lex : Lexer) (s token : Str) : Lexer × Str × Option LexError :=
  ({ lex with sTail := sliceFrom s token.length }, token, none)

/-- The body of `lexer.next` from the label `again` on.  The result is the
lexer after the call, the returned token and the returned error; `none` means
that the call does not return (the `panic` of `scanIdent`, or the budget of
`goto again` jumps is used up).  Every jump removes a `#` and a newline from the
tail, so a budget of `len(sTail) + 1` is never used up. -/
def Lexer.nextLoop : Nat → Lexer → Option (Lexer × Str × Option LexError)
  | 0, _ => none
  | fuel + 1, lex =>
    let s := lex.sTail
    let i := (s.takeWhile isSpaceChar).length
    let s := sliceFrom s i
    let lex := { lex with sTail := s }
    match s with
    | [] => some (lex, [], none)
    | s0 :: rest =>
      if s0 = 35 then
        match indexByte rest 10 with
        | none => some (lex, [], none)
        | some n => Lexer.nextLoop fuel { lex with sTail := sliceFrom rest (n + 1) }
      else if s0 = 123 ∨ s0 = 125 ∨ s0 = 91 ∨ s0 = 93 ∨ s0 = 40 ∨ s0 = 41 ∨ s0 = 44 then
        some (lex.tokenFound (s0 :: rest) (sliceTo (s0 :: rest) 1))
      else if isIdentPrefix (s0 :: rest) then
        match scanIdent (s0 :: rest) with
        | none => none
        | some token => some (lex.tokenFound (s0 :: rest) token)
      else if isStringPrefix (s0 :: rest) then
        match scanString (s0 :: rest) with
        | .error err => some (lex, [], some err)
        | .ok token => some (lex.tokenFound (s0 :: rest) token)
      else if 0 < scanBinaryOpPrefix (s0 :: rest) then
        some (lex.tokenFound (s0 :: rest) (sliceTo (s0 :: rest) (scanBinaryOpPrefix (s0 :: rest))))
      else if 0 < scanTagFilterOpPrefix (s0 :: rest) then
        some (lex.tokenFound (s0 :: rest)
          (sliceTo (s0 :: rest) (scanTagFilterOpPrefix (s0 :: rest)).toNat))
      else if 0 < scanDuration (s0 :: rest) false then
        some (lex.tokenFound (s0 :: rest)
          (sliceTo (s0 :: rest) (scanDuration (s0 :: rest) false).toNat))
      else if isPositiveNumberPrefix (s0 :: rest) then
        match scanPositiveNumber (s0 :: rest) with
        | .error err => some (lex, [], some err)
        | .ok token => some (lex.tokenFound (s0 :: rest) token)
      else some (lex, [], some (.cannotRecognize (s0 :: rest)))

/-- Go `lexer.next`. -/
def Lexer.next (lex : Lexer) : Option (Lexer × Str × Option LexError) :=
  Lexer.nextLoop (lex.sTail.length + 1) lex

/-- Go `lexer.Next`: the lexer after the call and the returned error; `none`
means that the call does not return. -/
def Lexer.Next (lex : Lexer) : Option (Lexer × Option LexError) :=
  match lex.err with
  | some err => some (lex, some err)
  | none =>
    let lex := { lex with prevTokens := lex.prevTokens ++ [lex.Token] }
    match lex.nextTokens.getLast? with
    | some last =>
      some ({ lex with Token := last, nextTokens := lex.nextTokens.dropLast }, none)
    | none =>
      match lex.next with
      | none => none
      | some (lex, _, some err) => some ({ lex with err := some err }, some err)
      | some (lex, token, none) => some ({ lex with Token := token }, none)

/-- Go `lexer.Prev`; `none` stands for the index-out-of-range `panic` on an empty
`prevTokens`. -/
def Lexer.Prev (lex : Lexer) : Option Lexer :=
  let lex := { lex with nextTokens := lex.nextTokens ++ [lex.Token] }
  match lex.prevTokens.getLast? with
  | none => none
  | some last => some { lex with Token := last, prevTokens := lex.prevTokens.dropLast }

/-- Go `isEOF`. -/
def isEOF (s : Str) : Bool := decide (s.length = 0)

/-! ## Auxiliary definitions for the escape round-trip -/

/-- The bytes `appendEscapedIdent` emits for the byte `ch` at index `i`. -/
def escAt (i : Nat) (ch : Nat) : Str :=
  if isIdentChar ch then
    if i = 0 ∧ isFirstIdentChar ch = false then [92, 120, toHex (ch >>> 4), toHex (ch &&& 15)]
    else [ch]
  else if 32 ≤ ch ∧ ch < 127 then [92, ch]
  else [92, 120, toHex (ch >>> 4), toHex (ch &&& 15)]

/-- The bytes `appendEscapedIdent` emits for `s[i:]`. -/
def escFrom (i : Nat) : Str → Str
  | [] => []
  | ch :: rest => escAt i ch ++ escFrom (i + 1) rest


/-! ## Auxiliary definitions for the operator scan -/

/-- The string `op` is a case-insensitive prefix of `s`. -/
def IsCaseInsensitivePrefix (op s : Str) : Prop := ToLower op <+: ToLower s

instance (op s : Str) : Decidable (IsCaseInsensitivePrefix op s) := by
  unfold IsCaseInsensitivePrefix
  infer_instance

/-- The test of the loop body of `scanBinaryOpPrefix` that lets `op` count. -/
def opMatches (s op : Str) : Prop :=
  op.length ≤ s.length ∧ ToLower (sliceTo s op.length) = op

instance (s op : Str) : Decidable (opMatches s op) := by
  unfold opMatches
  infer_instance

/-- The precedence table as the specification words it, on a name that is
already in lower case: `default` = -1; `if`, `ifnot` = 0; `or` = 1; `and`,
`unless` = 2; the comparisons = 3; `+`, `-` = 4; `*`, `/`, `%` = 5; `^` = 6;
and 0 for every other name. -/
def precedenceTable (name : Str) : Int :=
  if name = bytes "default" then -1
  else if name = bytes "if" ∨ name = bytes "ifnot" then 0
  else if name = bytes "or" then 1
  else if name = bytes "and" ∨ name = bytes "unless" then 2
  else if name = bytes "==" ∨ name = bytes "!=" ∨ name = bytes "<" ∨ name = bytes ">" ∨
      name = bytes "<=" ∨ name = bytes ">=" then 3
  else if name = bytes "+" ∨ name = bytes "-" then 4
  else if name = bytes "*" ∨ name = bytes "/" ∨ name = bytes "%" then 5
  else if name = bytes "^" then 6
  else 0

/-! ## Auxiliary definitions for sequences of lexer calls -/

/-- A call of one of the two methods that move the lexer. -/
inductive Call where
  | next
  | prev
  deriving DecidableEq, Repr

/-- One call; `none` when it does not return.  The error that `Next` returns
is dropped here, it stays in the field `err`. -/
def Lexer.call (lex : Lexer) : Call → Option Lexer
  | .next => lex.Next.map Prod.fst
  | .prev => lex.Prev

/-- A sequence of calls, from left to right; `none` when one of them does not
return. -/
def Lexer.run (lex : Lexer) : List Call → Option Lexer
  | [] => some lex
  | c :: cs => (lex.call c).bind fun lex' => lex'.run cs

/-- The lexer after `n` calls of `Next` that all return a `nil` error; `none`
when one of them returns an error or does not return. -/
def Lexer.NextN (lex : Lexer) : Nat → Option Lexer
  | 0 => some lex
  | n + 1 =>
    match lex.Next with
    | some (lex', none) => lex'.NextN n
    | _ => none

/-- The lexer after `n` calls of `Prev`; `none` when one of them panics. -/
def Lexer.PrevN (lex : Lexer) : Nat → Option Lexer
  | 0 => some lex
  | n + 1 => lex.Prev.bind fun lex' => lex'.PrevN n

/-- A call of `Next` on this lexer reaches `lex.next()`, that is, scans new
text: no error is stored and no token is waiting in `nextTokens`. -/
def Lexer.scansNewText (lex : Lexer) : Bool :=
  lex.err.isNone && lex.nextTokens.isEmpty

/-- The string consists of whitespace bytes and of comments, each comment
running from a `#` up to and including the next newline; `inComment` tells
whether the scan stands inside a comment. -/
def separatorsFrom (inComment : Bool) : Str → Bool
  | [] => !inComment
  | c :: r =>
    if inComment then separatorsFrom (decide (c ≠ 10)) r
    else if isSpaceChar c then separatorsFrom false r
    else if c = 35 then separatorsFrom true r
    else false

/-- The string consists of whitespace bytes and `#`-comments only. -/
def IsSeparators (w : Str) : Prop := separatorsFrom false w = true

instance (w : Str) : Decidable (IsSeparators w) := by
  unfold IsSeparators
  infer_instance

/-! ## Auxiliary definitions for durations -/

/-- The duration literal of the specification, whole string: one or more
decimal digits, optionally `.` and one or more decimal digits, then exactly one
unit byte from `s`, `m`, `h`, `d`, `w`, `y`, `i`. -/
def isDurationLiteral (p : Str) : Bool :=
  let isUnit : Str → Bool := fun r =>
    match r with
    | [u] => decide (u = 115 ∨ u = 109 ∨ u = 104 ∨ u = 100 ∨ u = 119 ∨ u = 121 ∨ u = 105)
    | _ => false
  let ip := p.takeWhile isDecimalChar
  !ip.isEmpty &&
    match p.drop ip.length with
    | c :: r =>
      if c = 46 then
        let fp := r.takeWhile isDecimalChar
        !fp.isEmpty && isUnit (r.drop fp.length)
      else isUnit (c :: r)
    | [] => false

/-- The multiplier in seconds that the specification gives for a unit byte:
`s` = 1, `m` = 60, `h` = 3600, `d` = 86400, `w` = 604800, `y` = 31536000. -/
def unitSeconds (u : Nat) : Option Nat :=
  if u = 115 then some 1
  else if u = 109 then some 60
  else if u = 104 then some 3600
  else if u = 100 then some 86400
  else if u = 119 then some 604800
  else if u = 121 then some 31536000
  else none

/-! ## Auxiliary definitions for quoted strings -/

/-- The byte at index `k` of `s` closes the string that the quote `s[0]` opens:
`k ≥ 1`, `s[k]` is that quote, and the run of consecutive backslashes that
stands immediately before it has even length (possibly zero). -/
def IsClosingQuote (s : Str) (k : Nat) : Prop :=
  1 ≤ k ∧ k < s.length ∧ s.getD k 0 = s.getD 0 0 ∧ countBackslashesBefore s k % 2 = 0

instance (s : Str) (k : Nat) : Decidable (IsClosingQuote s k) := by
  unfold IsClosingQuote
  infer_instance

/-- The error says that a quoted string has no end. -/
def LexError.isUnterminated : LexError → Bool
  | .cannotFindEndOfString _ => true
  | .cannotFindClosingQuote _ _ => true
  | _ => false

/-! ## Auxiliary definitions for the scan of one token -/

/-- What a caller sees of one call of `Next`: the `Token` after the call, the
returned error and the unconsumed tail; `none` when the call does not return. -/
def Lexer.NextOutcome (lex : Lexer) : Option (Str × Option LexError × Str) :=
  lex.Next.map fun r => (r.1.Token, r.2, r.1.sTail)

/-! ## Auxiliary definitions for the evaluation of comparisons -/

/-- The result that the specification gives for a comparison operator whose
comparison of `left` and `right` has the outcome `holds`: with `isBool`, 1 when
it holds and 0 when not; without, `left` when it holds and NaN when not. -/
def comparisonResult {F : Type} (fo : Float64Ops F) (holds : Bool) (left : F) (isBool : Bool) :
    F :=
  if isBool then
    if holds then fo.one else fo.zero
  else if holds then left
  else fo.nan

/-- The comparison `a == b` of two `float64` values. -/
def F64.eq : F64 → F64 → Bool
  | .finite a, .finite b => decide (a = b)
  | .inf s, .inf t => decide (s = t)
  | _, _ => false

/-- The comparison `a < b` of two `float64` values. -/
def F64.lt : F64 → F64 → Bool
  | .finite a, .finite b => decide (a < b)
  | .finite _, .inf t => !t
  | .inf s, .finite _ => s
  | .inf s, .inf t => s && !t
  | _, _ => false

/-- Modelled from the spec: the six comparison functions of the package
`binaryop`, which is not among the source files.  Each one "computes the
boolean comparison result" of its operator on two `float64` values; `zero`,
`one` and `nan` are the constants `0`, `1` and `math.NaN()`.  The arithmetic
and conditional functions, on which no statement depends, are those of
`other`. -/
def binaryopModel (other : Float64Ops F64) : Float64Ops F64 :=
  { other with
    zero := .finite 0
    one := .finite 1
    nan := .nan
    Eq := fun a b => F64.eq a b
    Neq := fun a b => !F64.eq a b
    Gt := fun a b => F64.lt b a
    Lt := fun a b => F64.lt a b
    Gte := fun a b => F64.lt b a || F64.eq a b
    Lte := fun a b => F64.lt a b || F64.eq a b }

/-! ## Auxiliary definitions for number literals -/

/-- The integer digits with which `s` begins, taken maximally. -/
def numberIntPart (s : Str) : Str := s.takeWhile isDecimalChar

/-- The integer digits of `s` are followed by `.` with no digit after it. -/
def hasDotWithoutDigit (s : Str) : Bool :=
  match s.dropWhile isDecimalChar with
  | c :: r => decide (c = 46) && (r.takeWhile isDecimalChar).isEmpty
  | [] => false

/-- The mantissa with which `s` begins: the integer digits and, when a `.`
follows them, the `.` and the digits after it, each digit run taken maximally. -/
def numberMantissa (s : Str) : Str :=
  match s.dropWhile isDecimalChar with
  | c :: r => if c = 46 then numberIntPart s ++ 46 :: r.takeWhile isDecimalChar else numberIntPart s
  | [] => numberIntPart s

/-- The exponent with which the text `r` after a mantissa begins: empty when `r`
does not begin with `e` or `E`; otherwise the marker, an optional sign and one
or more digits taken maximally, and `none` when no digit stands there. -/
def exponentPart (r : Str) : Option Str :=
  match r with
  | c :: r' =>
    if c = 101 ∨ c = 69 then
      let sign : Str :=
        match r' with
        | g :: _ => if g = 45 ∨ g = 43 then [g] else []
        | [] => []
      let ds := (r'.drop sign.length).takeWhile isDecimalChar
      if ds = [] then none else some (c :: (sign ++ ds))
    else some []
  | [] => some []

/-- The mantissa of `s` is followed by `e` or `E` that is not followed by an
optional sign and at least one digit. -/
def hasBadExponent (s : Str) : Bool :=
  !hasDotWithoutDigit s && (exponentPart (s.drop (numberMantissa s).length)).isNone

/-- The number literal with which `s` begins, in the form
`digits* ['.' digits+] [('e'|'E') ['+'|'-'] digits+]`; `none` when a digit that
the form requires is missing. -/
def numberToken (s : Str) : Option Str :=
  if hasDotWithoutDigit s then none
  else (exponentPart (s.drop (numberMantissa s).length)).map fun ex => numberMantissa s ++ ex

/-- The string consists of whitespace bytes and of comments, where the last
comment may run to the end of the string without a newline; `inComment` tells
whether the scan stands inside a comment. -/
def blankFrom (inComment : Bool) : Str → Bool
  | [] => true
  | c :: r =>
    if inComment then blankFrom (decide (c ≠ 10)) r
    else if isSpaceChar c then blankFrom false r
    else if c = 35 then blankFrom true r
    else false

/-- The string consists solely of whitespace and `#`-comments. -/
def IsBlank (s : Str) : Prop := blankFrom false s = true

instance (s : Str) : Decidable (IsBlank s) := by
  unfold IsBlank
  infer_instance

/-! # Theorems -/

/-! ## Escape round-trip -/

theorem appendEscapedIdentFrom_eq (s : Str) :
    ∀ (i : Nat) (dst : Str), appendEscapedIdentFrom i dst s = dst ++ escFrom i s := by
  induction s with
  | nil => intro i dst; simp [appendEscapedIdentFrom, escFrom]
  | cons ch rest ih =>
    intro i dst
    simp only [appendEscapedIdentFrom, escFrom, escAt]
    split_ifs <;> simp [ih]

theorem indexByte_eq_none {s : Str} {c : Nat} (h : ∀ b ∈ s, b ≠ c) : indexByte s c = none := by
  induction s with
  | nil => rfl
  | cons x r ih =>
    have hx : x ≠ c := h x (by simp)
    have hr : ∀ b ∈ r, b ≠ c := fun b hb => h b (by simp [hb])
    simp [indexByte, hx, ih hr]

theorem indexByte_append_cons {p : Str} {c : Nat} (t : Str) (h : ∀ b ∈ p, b ≠ c) :
    indexByte (p ++ c :: t) c = some p.length := by
  induction p with
  | nil => simp [indexByte]
  | cons x r ih =>
    have hx : x ≠ c := h x (by simp)
    have hr : ∀ b ∈ r, b ≠ c := fun b hb => h b (by simp [hb])
    simp [indexByte, hx, ih hr]

set_option maxRecDepth 100000 in
theorem hex_nibbles : ∀ b, b < 256 →
    hexByte (fromHex (toHex (b >>> 4))) (fromHex (toHex (b &&& 15))) = b ∧
      0 ≤ fromHex (toHex (b >>> 4)) ∧ 0 ≤ fromHex (toHex (b &&& 15)) := by
  decide

theorem isIdentChar_backslash : isIdentChar 92 = false := by decide

theorem isIdentChar_x : isIdentChar 120 = true := by decide

/-- One iteration of the loop on a two-byte escape `\c`. -/
theorem unescapeIdentLoop_plain (fuel : Nat) (dst p t : Str) (c : Nat) (hc : c ≠ 120) :
    unescapeIdentLoop (fuel + 1) dst (p ++ 92 :: c :: t) p.length =
      match indexByte t 92 with
      | none => (dst ++ p ++ [c]) ++ t
      | some n => unescapeIdentLoop fuel (dst ++ p ++ [c]) t n := by
  simp [unescapeIdentLoop, sliceTo, sliceFrom, hc]

/-- One iteration of the loop on a four-byte escape `\xHH`. -/
theorem unescapeIdentLoop_hex (fuel : Nat) (dst p t : Str) (a b : Nat)
    (ha : 0 ≤ fromHex a) (hb : 0 ≤ fromHex b) :
    unescapeIdentLoop (fuel + 1) dst (p ++ 92 :: 120 :: a :: b :: t) p.length =
      match indexByte t 92 with
      | none => (dst ++ p ++ [hexByte (fromHex a) (fromHex b)]) ++ t
      | some n => unescapeIdentLoop fuel (dst ++ p ++ [hexByte (fromHex a) (fromHex b)]) t n := by
  simp [unescapeIdentLoop, sliceTo, sliceFrom, ha, hb]

theorem unescapeIdentLoop_escFrom (s : Str) (hs : IsBytes s) :
    ∀ (i fuel : Nat) (dst p : Str), (∀ b ∈ p, b ≠ 92) →
      (p ++ escFrom i s).length ≤ fuel →
      (indexByte (p ++ escFrom i s) 92 = none → p ++ escFrom i s = p ++ s) ∧
      (∀ n, indexByte (p ++ escFrom i s) 92 = some n →
        unescapeIdentLoop fuel dst (p ++ escFrom i s) n = dst ++ p ++ s) := by
  induction s with
  | nil =>
    intro i fuel dst p hp _
    simp [escFrom, indexByte_eq_none hp]
  | cons ch rest ih =>
    intro i fuel dst p hp hfuel
    have hrest : IsBytes rest := fun b hb => hs b (by simp [hb])
    have hch : ch < 256 := hs ch (by simp)
    obtain ⟨hx1, hx2, hx3⟩ := hex_nibbles ch hch
    -- the two escaped shapes
    have plain : ∀ c, c ≠ 120 → escAt i ch = [92, c] → c = ch →
        (indexByte (p ++ escFrom i (ch :: rest)) 92 = none →
          p ++ escFrom i (ch :: rest) = p ++ ch :: rest) ∧
        (∀ n, indexByte (p ++ escFrom i (ch :: rest)) 92 = some n →
          unescapeIdentLoop fuel dst (p ++ escFrom i (ch :: rest)) n = dst ++ p ++ ch :: rest) := by
      intro c hc he hcc
      subst hcc
      have hidx := @indexByte_append_cons p 92 (c :: escFrom (i + 1) rest) hp
      simp only [escFrom, he, List.cons_append, List.nil_append] at hfuel ⊢
      rw [hidx]
      refine ⟨by simp, ?_⟩
      intro n hn
      obtain rfl : p.length = n := by simpa using hn
      obtain ⟨f, rfl⟩ : ∃ f, fuel = f + 1 := ⟨fuel - 1, by simp at hfuel; omega⟩
      rw [unescapeIdentLoop_plain _ _ _ _ _ hc]
      have := ih hrest (i + 1) f (dst ++ p ++ [c]) [] (by simp) (by simp at hfuel ⊢; omega)
      simp only [List.nil_append, List.append_nil] at this
      cases hi : indexByte (escFrom (i + 1) rest) 92 with
      | none => simp [this.1 hi]
      | some m =>
        have h2 := this.2 m hi
        simp only [List.append_assoc] at h2
        simp [h2]
    have hex : escAt i ch = [92, 120, toHex (ch >>> 4), toHex (ch &&& 15)] →
        (indexByte (p ++ escFrom i (ch :: rest)) 92 = none →
          p ++ escFrom i (ch :: rest) = p ++ ch :: rest) ∧
        (∀ n, indexByte (p ++ escFrom i (ch :: rest)) 92 = some n →
          unescapeIdentLoop fuel dst (p ++ escFrom i (ch :: rest)) n = dst ++ p ++ ch :: rest) := by
      intro he
      have hidx := @indexByte_append_cons p 92
        (120 :: toHex (ch >>> 4) :: toHex (ch &&& 15) :: escFrom (i + 1) rest) hp
      simp only [escFrom, he, List.cons_append, List.nil_append] at hfuel ⊢
      rw [hidx]
      refine ⟨by simp, ?_⟩
      intro n hn
      obtain rfl : p.length = n := by simpa using hn
      obtain ⟨f, rfl⟩ : ∃ f, fuel = f + 1 := ⟨fuel - 1, by simp at hfuel; omega⟩
      rw [unescapeIdentLoop_hex _ _ _ _ _ _ hx2 hx3, hx1]
      have := ih hrest (i + 1) f (dst ++ p ++ [ch]) [] (by simp) (by simp at hfuel ⊢; omega)
      simp only [List.nil_append, List.append_nil] at this
      cases hi : indexByte (escFrom (i + 1) rest) 92 with
      | none => simp [this.1 hi]
      | some m =>
        have h2 := this.2 m hi
        simp only [List.append_assoc] at h2
        simp [h2]
    by_cases hid : isIdentChar ch = true
    · by_cases hfirst : i = 0 ∧ isFirstIdentChar ch = false
      · exact hex (by simp [escAt, hid, hfirst])
      · have he : escAt i ch = [ch] := by simp only [escAt, hid, hfirst]; simp
        have hne : ch ≠ 92 := by
          rintro rfl
          simp [isIdentChar_backslash] at hid
        have hp' : ∀ b ∈ p ++ [ch], b ≠ 92 := by
          intro b hb
          rcases List.mem_append.1 hb with h | h
          · exact hp b h
          · simp at h; rw [h]; exact hne
        have := ih hrest (i + 1) fuel dst (p ++ [ch]) hp'
          (by simpa [escFrom, he] using hfuel)
        simpa [escFrom, he] using this
    · by_cases hpr : 32 ≤ ch ∧ ch < 127
      · have hne : ch ≠ 120 := by
          rintro rfl
          simp [isIdentChar_x] at hid
        exact plain ch hne (by simp [escAt, hid, hpr]) rfl
      · exact hex (by simp [escAt, hid, hpr])

/-- C1. Escape round-trip: for every byte string `s`,
`unescapeIdent(appendEscapedIdent(nil, s)) == s`. -/
theorem unescapeIdent_appendEscapedIdent (s : Str) (hs : IsBytes s) :
    unescapeIdent (appendEscapedIdent [] s) = s := by
  have h := unescapeIdentLoop_escFrom s hs 0 (escFrom 0 s).length [] [] (by simp) (by simp)
  simp only [List.nil_append] at h
  unfold unescapeIdent appendEscapedIdent
  rw [appendEscapedIdentFrom_eq]
  simp only [List.nil_append]
  cases hi : indexByte (escFrom 0 s) 92 with
  | none => exact h.1 hi
  | some n => exact h.2 n hi

/-- C1 at `"1a-b\\x c"`: a leading digit, a printable non-identifier byte, a
backslash and a blank. -/
theorem unescapeIdent_appendEscapedIdent_witness :
    IsBytes (bytes "1a-b\\x c") ∧
      unescapeIdent (appendEscapedIdent [] (bytes "1a-b\\x c")) = bytes "1a-b\\x c" :=
  ⟨by decide, unescapeIdent_appendEscapedIdent _ (by decide)⟩


/-! ## Longest operator match -/

theorem ToLower_length (s : Str) : (ToLower s).length = s.length := by
  simp [ToLower]

theorem ToLower_take (s : Str) (k : Nat) : ToLower (s.take k) = (ToLower s).take k := by
  simp [ToLower, List.map_take]

theorem binaryOps_keys_lower : ∀ op ∈ binaryOps.keys, ToLower op = op := by decide

theorem opMatches_iff {s op : Str} (hop : ToLower op = op) :
    opMatches s op ↔ IsCaseInsensitivePrefix op s := by
  unfold opMatches IsCaseInsensitivePrefix sliceTo
  rw [hop, ToLower_take]
  constructor
  · rintro ⟨_, h⟩
    rw [← h]
    exact List.take_prefix _ _
  · intro h
    have hl := h.length_le
    rw [ToLower_length] at hl
    exact ⟨hl, (List.prefix_iff_eq_take.1 h).symm⟩

theorem scanBinaryOpPrefixStep_eq (s : Str) (n : Nat) (op : Str) :
    scanBinaryOpPrefixStep s n op = if opMatches s op ∧ n < op.length then op.length else n := by
  unfold scanBinaryOpPrefixStep opMatches
  by_cases h1 : op.length > s.length
  · have : ¬ op.length ≤ s.length := by omega
    simp [h1, this]
  · have : op.length ≤ s.length := by omega
    simp [h1, this]

theorem foldl_scanBinaryOpPrefixStep (s : Str) (ops : List Str) :
    ∀ n0 : Nat,
      n0 ≤ ops.foldl (scanBinaryOpPrefixStep s) n0 ∧
      (∀ op ∈ ops, opMatches s op → op.length ≤ ops.foldl (scanBinaryOpPrefixStep s) n0) ∧
      (ops.foldl (scanBinaryOpPrefixStep s) n0 = n0 ∨
        ∃ op ∈ ops, opMatches s op ∧ ops.foldl (scanBinaryOpPrefixStep s) n0 = op.length) := by
  induction ops with
  | nil => intro n0; simp
  | cons op rest ih =>
    intro n0
    simp only [List.foldl_cons]
    obtain ⟨h1, h2, h3⟩ := ih (scanBinaryOpPrefixStep s n0 op)
    have hstep := scanBinaryOpPrefixStep_eq s n0 op
    by_cases hm : opMatches s op ∧ n0 < op.length
    · rw [if_pos hm] at hstep
      rw [hstep] at h1 h2 h3 ⊢
      refine ⟨by omega, ?_, ?_⟩
      · intro o ho hmo
        rcases List.mem_cons.1 ho with rfl | ho
        · exact h1
        · exact h2 o ho hmo
      · rcases h3 with h3 | ⟨o, ho, hmo, h3⟩
        · exact Or.inr ⟨op, by simp, hm.1, h3⟩
        · exact Or.inr ⟨o, by simp [ho], hmo, h3⟩
    · rw [if_neg hm] at hstep
      rw [hstep] at h1 h2 h3 ⊢
      refine ⟨h1, ?_, ?_⟩
      · intro o ho hmo
        rcases List.mem_cons.1 ho with rfl | ho
        · by_contra hlt
          exact hm ⟨hmo, by omega⟩
        · exact h2 o ho hmo
      · rcases h3 with h3 | ⟨o, ho, hmo, h3⟩
        · exact Or.inl h3
        · exact Or.inr ⟨o, by simp [ho], hmo, h3⟩

/-- The result of the loop is the same for two traversal orders with the same
operators. -/
theorem scanBinaryOpPrefixOver_perm (s : Str) {l1 l2 : List Str} (h : l1.Perm l2) :
    scanBinaryOpPrefixOver l1 s = scanBinaryOpPrefixOver l2 s := by
  have key : ∀ {a b : List Str}, (∀ x, x ∈ a → x ∈ b) →
      scanBinaryOpPrefixOver a s ≤ scanBinaryOpPrefixOver b s := by
    intro a b hab
    obtain ⟨_, _, ha⟩ := foldl_scanBinaryOpPrefixStep s a 0
    obtain ⟨_, hb, _⟩ := foldl_scanBinaryOpPrefixStep s b 0
    unfold scanBinaryOpPrefixOver
    rcases ha with ha | ⟨o, ho, hmo, ha⟩
    · omega
    · rw [ha]
      exact hb o (hab o ho) hmo
  exact Nat.le_antisymm (key fun x hx => h.subset hx) (key fun x hx => h.symm.subset hx)

theorem scanBinaryOpPrefix_ge_append (rest : Str) :
    scanBinaryOpPrefix (bytes ">=" ++ rest) = 2 := by
  obtain ⟨_, h2, h3⟩ := foldl_scanBinaryOpPrefixStep (bytes ">=" ++ rest) binaryOps.keys 0
  have hge : opMatches (bytes ">=" ++ rest) (bytes ">=") := by
    refine ⟨by simp [bytes], ?_⟩
    simp [bytes, sliceTo, ToLower, toLowerByte]
  have hlow := h2 (bytes ">=") (by decide) hge
  have hup : ∀ op ∈ binaryOps.keys, opMatches (bytes ">=" ++ rest) op → op.length ≤ 2 := by
    intro op hop hm
    have hm2 := hm.2
    simp only [binaryOps, GoMap.keys, List.map_cons, List.map_nil, List.mem_cons,
      List.mem_singleton, List.not_mem_nil, or_false] at hop
    rcases hop with h | h | h | h | h | h | h | h | h | h | h | h | h | h | h | h | h | h <;>
      subst h <;> first
        | (simp [bytes] ; done)
        | (exfalso; revert hm2; simp [bytes, sliceTo, ToLower, toLowerByte])
  unfold scanBinaryOpPrefix scanBinaryOpPrefixOver
  rcases h3 with h3 | ⟨o, ho, hmo, h3⟩
  · rw [h3] at hlow
    simp [bytes] at hlow
  · have := hup o ho hmo
    rw [h3] at hlow ⊢
    simp [bytes] at hlow
    omega

theorem scanBinaryOpPrefix_ge_cons (rest : Str) : scanBinaryOpPrefix (62 :: 61 :: rest) = 2 :=
  scanBinaryOpPrefix_ge_append rest

/-- The first `Next` on an input that begins with `>=`. -/
theorem Next_ge_append (lex : Lexer) (rest : Str) :
    (lex.Init (bytes ">=" ++ rest)).Next =
      some ({ Token := bytes ">=", prevTokens := [[]], nextTokens := [],
              sOrig := bytes ">=" ++ rest, sTail := rest, err := none }, none) := by
  have hb : bytes ">=" = [62, 61] := by decide
  simp [Lexer.Next, Lexer.Init, Lexer.next, Lexer.nextLoop, hb, isSpaceChar, isIdentPrefix,
    isStringPrefix, isFirstIdentChar, scanBinaryOpPrefix_ge_cons, Lexer.tokenFound, sliceFrom,
    sliceTo]

/-- C2. Longest match: `scanBinaryOpPrefix(s)` is the length of the longest
binary operator that is a case-insensitive prefix of `s`, and 0 when there is
none; the order in which the operator map is traversed does not matter; and the
first token of an input that begins with `>=` is `>=`. -/
theorem scanBinaryOpPrefix_longest_match (s rest : Str) (lex : Lexer) :
    (∀ order : List Str, order.Perm binaryOps.keys →
      scanBinaryOpPrefixOver order s = scanBinaryOpPrefix s) ∧
    (∀ op ∈ binaryOps.keys, IsCaseInsensitivePrefix op s → op.length ≤ scanBinaryOpPrefix s) ∧
    ((∃ op ∈ binaryOps.keys, IsCaseInsensitivePrefix op s ∧ scanBinaryOpPrefix s = op.length) ∨
      ((∀ op ∈ binaryOps.keys, ¬ IsCaseInsensitivePrefix op s) ∧ scanBinaryOpPrefix s = 0)) ∧
    (∃ lex', (lex.Init (bytes ">=" ++ rest)).Next = some (lex', none) ∧
      lex'.Token = bytes ">=" ∧ lex'.sTail = rest) := by
  obtain ⟨_, h2, h3⟩ := foldl_scanBinaryOpPrefixStep s binaryOps.keys 0
  refine ⟨fun order h => scanBinaryOpPrefixOver_perm s h, ?_, ?_, ?_⟩
  · intro op hop hpre
    exact h2 op hop ((opMatches_iff (binaryOps_keys_lower op hop)).2 hpre)
  · by_cases hex : ∃ op ∈ binaryOps.keys, opMatches s op
    · left
      obtain ⟨op, hop, hm⟩ := hex
      rcases h3 with h3 | ⟨o, ho, hmo, h3⟩
      · have hle := h2 op hop hm
        have hpos : 0 < op.length := by
          have : ∀ o ∈ binaryOps.keys, 0 < o.length := by decide
          exact this op hop
        rw [h3] at hle
        omega
      · exact ⟨o, ho, (opMatches_iff (binaryOps_keys_lower o ho)).1 hmo, h3⟩
    · right
      constructor
      · intro op hop hpre
        exact hex ⟨op, hop, (opMatches_iff (binaryOps_keys_lower op hop)).2 hpre⟩
      · rcases h3 with h3 | ⟨o, ho, hmo, _⟩
        · exact h3
        · exact absurd ⟨o, ho, hmo⟩ hex
  · exact ⟨_, Next_ge_append lex rest, rfl, rfl⟩

/-! ## Operator table -/

/-- C3 fails as stated: `AND` passes `isBinaryOp`, which lowers its argument,
and `binaryOpEval`, which does not, panics on it. -/
theorem binaryOpEval_upper_case_aborts :
    isBinaryOp (bytes "AND") = true ∧
      ∀ (F : Type) (fo : Float64Ops F) (left right : F) (isBool : Bool),
        binaryOpEval fo (bytes "AND") left right isBool = none := by
  refine ⟨by decide, ?_⟩
  intro F fo left right isBool
  have h1 : IsBinaryOpCmp (bytes "AND") = false := by decide
  simp only [binaryOpEval, h1]
  have hb : bytes "AND" = [65, 78, 68] := by decide
  simp [hb, bytes]

theorem GoMap.get_zero_of_not_mem {V : Type} {m : GoMap V} {k : Str} (zero : V)
    (h : k ∉ m.keys) : m.get k zero = zero := by
  induction m with
  | nil => rfl
  | cons e r ih =>
    obtain ⟨k', v⟩ := e
    have hk : ¬ k = k' := fun hk => h (by simp [GoMap.keys, hk])
    have hr : k ∉ GoMap.keys r := fun hr => h (by
      simp only [GoMap.keys, List.map_cons, List.mem_cons] at hr ⊢
      exact Or.inr hr)
    have := ih hr
    simp only [GoMap.get, List.lookup] at this ⊢
    have hbeq : (k == k') = false := by simpa using hk
    rw [hbeq]
    exact this

theorem isBinaryOp_lower_mem {op : Str} (h1 : isBinaryOp op = true) (h2 : ToLower op = op) :
    op ∈ binaryOps.keys := by
  by_contra hmem
  have := GoMap.get_zero_of_not_mem false hmem
  simp only [isBinaryOp, h2] at h1
  rw [this] at h1
  exact Bool.noConfusion h1

/-- C3, amended. For every operator name `op` with `isBinaryOp(op) == true`
that is written in lower case, and for all operands and every `isBool`,
`binaryOpEval` returns a value and does not reach a `panic`. -/
theorem binaryOpEval_returns (op : Str) (h1 : isBinaryOp op = true) (h2 : ToLower op = op) :
    ∀ (F : Type) (fo : Float64Ops F) (left right : F) (isBool : Bool),
      (binaryOpEval fo op left right isBool).isSome = true := by
  intro F fo left right isBool
  have hmem := isBinaryOp_lower_mem h1 h2
  simp only [binaryOps, GoMap.keys, List.map_cons, List.map_nil, List.mem_cons,
    List.mem_singleton, List.not_mem_nil, or_false] at hmem
  rcases hmem with h | h | h | h | h | h | h | h | h | h | h | h | h | h | h | h | h | h <;>
    subst h <;> simp [binaryOpEval, IsBinaryOpCmp, bytes]

/-- C3, amended, at the operator `and`. -/
theorem binaryOpEval_returns_witness :
    isBinaryOp (bytes "and") = true ∧ ToLower (bytes "and") = bytes "and" ∧
      ∀ (F : Type) (fo : Float64Ops F) (left right : F) (isBool : Bool),
        (binaryOpEval fo (bytes "and") left right isBool).isSome = true :=
  ⟨by decide, by decide, binaryOpEval_returns (bytes "and") (by decide) (by decide)⟩

theorem binaryOpPriorities_get (k : Str) : binaryOpPriorities.get k 0 = precedenceTable k := by
  by_cases hmem : k ∈ binaryOpPriorities.keys
  · have : ∀ k' ∈ binaryOpPriorities.keys, binaryOpPriorities.get k' 0 = precedenceTable k' := by
      decide
    exact this k hmem
  · rw [GoMap.get_zero_of_not_mem 0 hmem]
    simp only [binaryOpPriorities, GoMap.keys, List.map_cons, List.map_nil, List.mem_cons,
      List.mem_singleton, List.not_mem_nil, or_false, not_or] at hmem
    obtain ⟨h1, h2, h3, h4, h5, h6, h7, h8, h9, h10, h11, h12, h13, h14, h15, h16, h17, h18⟩ :=
      hmem
    simp [precedenceTable, h1, h2, h3, h4, h5, h6, h7, h8, h9, h10, h11, h12, h13, h14, h15,
      h16, h17, h18]

theorem binaryOpPriorities_keys_subset : ∀ k ∈ binaryOpPriorities.keys, k ∈ binaryOps.keys := by
  decide

theorem binaryOps_get_of_mem : ∀ k ∈ binaryOps.keys, binaryOps.get k false = true := by
  decide

/-- C4. Precedence table: `binaryOpPriority(name)` is a function of the
lower-cased name, namely -1 for `default`; 0 for `if`, `ifnot`; 1 for `or`; 2 for
`and`, `unless`; 3 for the six comparisons; 4 for `+`, `-`; 5 for `*`, `/`, `%`;
6 for `^`; and it is 0 for every name that is not a binary operator.  `AND`,
`and` and `And` are binary operators with priority 2. -/
theorem binaryOpPriority_table (name : Str) :
    binaryOpPriority name = precedenceTable (ToLower name) ∧
    binaryOpPriority name = binaryOpPriority (ToLower name) ∧
    (isBinaryOp name = true ∨ binaryOpPriority name = 0) ∧
    (isBinaryOp (bytes "AND") = true ∧ binaryOpPriority (bytes "AND") = 2) ∧
    (isBinaryOp (bytes "and") = true ∧ binaryOpPriority (bytes "and") = 2) ∧
    (isBinaryOp (bytes "And") = true ∧ binaryOpPriority (bytes "And") = 2) := by
  have hidem : ToLower (ToLower name) = ToLower name := by
    simp only [ToLower, List.map_map]
    apply List.map_congr_left
    intro c _
    simp only [Function.comp, toLowerByte]
    split_ifs <;> omega
  refine ⟨binaryOpPriorities_get _, ?_, ?_, by decide, by decide, by decide⟩
  · simp only [binaryOpPriority, hidem]
  · by_cases hmem : ToLower name ∈ binaryOps.keys
    · exact Or.inl (binaryOps_get_of_mem _ hmem)
    · right
      have : ToLower name ∉ binaryOpPriorities.keys :=
        fun h => hmem (binaryOpPriorities_keys_subset _ h)
      exact GoMap.get_zero_of_not_mem 0 this

/-! ## The token history: `Next` and `Prev` -/

theorem Next_of_err {lex : Lexer} {e : LexError} (h : lex.err = some e) :
    lex.Next = some (lex, some e) := by
  simp [Lexer.Next, h]

theorem Next_error_stored {lex lex' : Lexer} {e : LexError}
    (h : lex.Next = some (lex', some e)) : lex'.err = some e := by
  unfold Lexer.Next at h
  split at h
  · next e0 herr =>
    simp only [Option.some.injEq, Prod.mk.injEq] at h
    rw [← h.1, herr, h.2]
  · simp only at h
    split at h
    · simp at h
    · split at h
      · simp at h
      · simp only [Option.some.injEq, Prod.mk.injEq] at h
        rw [← h.1, ← h.2]
      · simp at h

theorem Prev_err {lex lex' : Lexer} (h : lex.Prev = some lex') : lex'.err = lex.err := by
  unfold Lexer.Prev at h
  cases hlast : lex.prevTokens.getLast? with
  | none => simp [hlast] at h
  | some last =>
    simp only [hlast, Option.some.injEq] at h
    rw [← h]

theorem run_keeps_error {e : LexError} (calls : List Call) :
    ∀ {lex lex' : Lexer}, lex.err = some e → lex.run calls = some lex' → lex'.err = some e := by
  induction calls with
  | nil =>
    intro lex lex' herr h
    simp only [Lexer.run, Option.some.injEq] at h
    rw [← h]; exact herr
  | cons c cs ih =>
    intro lex lex' herr h
    simp only [Lexer.run] at h
    cases hc : lex.call c with
    | none => simp [hc] at h
    | some mid =>
      simp only [hc, Option.some_bind] at h
      refine ih ?_ h
      cases c with
      | next =>
        simp only [Lexer.call, Next_of_err herr, Option.map_some', Option.some.injEq] at hc
        rw [← hc]; exact herr
      | prev =>
        simp only [Lexer.call] at hc
        rw [Prev_err hc]; exact herr

/-- C5. Sticky error: once a call of `Next` has returned an error `e`, then
after any further calls of `Next` and `Prev` (none of which panics) a call of
`Next` returns `e` again and changes nothing in the lexer: `Token`, both
stacks and the unconsumed tail stay as they are.  `Init` clears the error. -/
theorem Next_sticky_error (lex lex' : Lexer) (e : LexError)
    (h : lex.Next = some (lex', some e)) (calls : List Call) (later : Lexer)
    (hrun : lex'.run calls = some later) :
    later.Next = some (later, some e) ∧ ∀ s : Str, (later.Init s).err = none := by
  refine ⟨Next_of_err (run_keeps_error calls (Next_error_stored h) hrun), ?_⟩
  intro s
  rfl

/-- C5 on the input `$`, which no rule recognises: the first `Next` fails, and
after `Next`, `Prev`, `Next` the error is returned once more. -/
theorem Next_sticky_error_witness :
    (Lexer.zero.Init (bytes "$")).Next =
        some ({ Token := [], prevTokens := [[]], nextTokens := [], sOrig := bytes "$",
                sTail := bytes "$", err := some (.cannotRecognize (bytes "$")) },
              some (.cannotRecognize (bytes "$"))) ∧
      Lexer.run { Token := [], prevTokens := [[]], nextTokens := [], sOrig := bytes "$",
                  sTail := bytes "$", err := some (.cannotRecognize (bytes "$")) }
          [.next, .prev, .next] =
        some { Token := [], prevTokens := [], nextTokens := [[]], sOrig := bytes "$",
               sTail := bytes "$", err := some (.cannotRecognize (bytes "$")) } ∧
      (Lexer.Next { Token := [], prevTokens := [], nextTokens := [[]], sOrig := bytes "$",
                    sTail := bytes "$", err := some (.cannotRecognize (bytes "$")) } =
          some ({ Token := [], prevTokens := [], nextTokens := [[]], sOrig := bytes "$",
                  sTail := bytes "$", err := some (.cannotRecognize (bytes "$")) },
                some (.cannotRecognize (bytes "$"))) ∧
        ∀ s : Str,
          (Lexer.Init { Token := [], prevTokens := [], nextTokens := [[]], sOrig := bytes "$",
                        sTail := bytes "$", err := some (.cannotRecognize (bytes "$")) } s).err =
            none) :=
  ⟨by decide, by decide,
    Next_sticky_error (Lexer.zero.Init (bytes "$"))
      { Token := [], prevTokens := [[]], nextTokens := [], sOrig := bytes "$",
        sTail := bytes "$", err := some (.cannotRecognize (bytes "$")) }
      (.cannotRecognize (bytes "$")) (by decide) [.next, .prev, .next]
      { Token := [], prevTokens := [], nextTokens := [[]], sOrig := bytes "$",
        sTail := bytes "$", err := some (.cannotRecognize (bytes "$")) }
      (by decide)⟩

theorem getLast?_append_singleton {α : Type} (l : List α) (a : α) :
    (l ++ [a]).getLast? = some a := by
  simp

theorem Prev_of_append (lex : Lexer) (init : List Str) (last : Str)
    (h : lex.prevTokens = init ++ [last]) :
    lex.Prev = some { lex with Token := last, prevTokens := init,
                               nextTokens := lex.nextTokens ++ [lex.Token] } := by
  simp [Lexer.Prev, h]

theorem Prev_eq_none_iff (lex : Lexer) : lex.Prev = none ↔ lex.prevTokens = [] := by
  unfold Lexer.Prev
  constructor
  · intro h
    cases hl : lex.prevTokens.getLast? with
    | none => exact List.getLast?_eq_none_iff.1 hl
    | some last => simp [hl] at h
  · intro h
    simp [h]

/-- After a `Prev` that returns, `Next` takes the waiting token back and the
lexer is what it was. -/
theorem Next_Prev {lex back : Lexer} (herr : lex.err = none) (h : lex.Prev = some back) :
    back.Next = some (lex, none) := by
  unfold Lexer.Prev at h
  cases hl : lex.prevTokens.getLast? with
  | none => simp [hl] at h
  | some last =>
    simp only [hl, Option.some.injEq] at h
    have hne : lex.prevTokens ≠ [] := by
      intro hnil
      simp [hnil] at hl
    have hdl : lex.prevTokens.dropLast ++ [last] = lex.prevTokens := by
      have := List.dropLast_append_getLast? last (by simpa using hl)
      simpa using this
    subst h
    simp only [Lexer.Next, herr, getLast?_append_singleton, List.dropLast_concat, hdl]
    rw [← herr]


/-! ## What one scan consumes -/

theorem drop_takeWhile_length (p : Nat → Bool) (s : Str) :
    s.drop (s.takeWhile p).length = s.dropWhile p := by
  induction s with
  | nil => rfl
  | cons c r ih =>
    by_cases hc : p c = true
    · simp [List.takeWhile, List.dropWhile, hc, ih]
    · simp [List.takeWhile, List.dropWhile, hc]

theorem take_append_drop_take_length (s : Str) (k : Nat) :
    s.take k ++ s.drop (s.take k).length = s := by
  rw [List.length_take]
  by_cases h : k ≤ s.length
  · rw [Nat.min_eq_left h]; exact List.take_append_drop k s
  · have h' : s.length ≤ k := by omega
    rw [Nat.min_eq_right h', List.take_of_length_le h', List.drop_length, List.append_nil]

theorem separatorsFrom_spaces (ws w : Str) (h : ∀ c ∈ ws, isSpaceChar c = true) :
    separatorsFrom false (ws ++ w) = separatorsFrom false w := by
  induction ws with
  | nil => rfl
  | cons c r ih =>
    have hc : isSpaceChar c = true := h c (by simp)
    have hr : ∀ x ∈ r, isSpaceChar x = true := fun x hx => h x (by simp [hx])
    simp [separatorsFrom, hc, ih hr]

theorem separatorsFrom_comment (c w : Str) (h : ∀ x ∈ c, x ≠ 10) :
    separatorsFrom true (c ++ 10 :: w) = separatorsFrom false w := by
  induction c with
  | nil => simp [separatorsFrom]
  | cons x r ih =>
    have hx : x ≠ 10 := h x (by simp)
    have hr : ∀ y ∈ r, y ≠ 10 := fun y hy => h y (by simp [hy])
    simp [separatorsFrom, hx, ih hr]

theorem indexByte_some {s : Str} {c n : Nat} (h : indexByte s c = some n) :
    s = s.take n ++ c :: s.drop (n + 1) ∧ ∀ x ∈ s.take n, x ≠ c := by
  induction s generalizing n with
  | nil => simp [indexByte] at h
  | cons x r ih =>
    by_cases hx : x = c
    · simp only [indexByte, hx, if_true, Option.some.injEq] at h
      subst h
      simp [hx]
    · simp only [indexByte, hx, if_false, Option.map_eq_some'] at h
      obtain ⟨m, hm, rfl⟩ := h
      obtain ⟨h1, h2⟩ := ih hm
      refine ⟨by simpa using h1, ?_⟩
      intro y hy
      simp only [List.take_succ_cons, List.mem_cons] at hy
      rcases hy with rfl | hy
      · exact hx
      · exact h2 y hy

theorem scanStringLoop_is_take (fuel : Nat) (s : Str) (quote : Nat) :
    ∀ (i : Nat) (token : Str), scanStringLoop fuel s quote i = .ok token →
      ∃ k, token = s.take k := by
  induction fuel with
  | zero => intro i token h; simp [scanStringLoop] at h
  | succ f ih =>
    intro i token h
    simp only [scanStringLoop] at h
    split at h
    · simp at h
    · next n hn =>
      split at h
      · simp only [Except.ok.injEq] at h
        exact ⟨_, h.symm⟩
      · exact ih _ _ h

theorem scanString_is_take {s token : Str} (h : scanString s = .ok token) :
    ∃ k, token = s.take k := by
  unfold scanString at h
  split at h
  · simp at h
  · exact scanStringLoop_is_take _ _ _ _ _ h

theorem scanPositiveNumberExp_is_take {s token : Str} {i : Nat}
    (h : scanPositiveNumberExp s i = .ok token) : ∃ k, token = s.take k := by
  unfold scanPositiveNumberExp at h
  simp only at h
  split_ifs at h <;>
    first
      | exact Except.noConfusion h
      | exact ⟨_, (Except.ok.inj h).symm⟩

theorem scanPositiveNumber_is_take {s token : Str} (h : scanPositiveNumber s = .ok token) :
    ∃ k, token = s.take k := by
  unfold scanPositiveNumber at h
  simp only at h
  split_ifs at h <;>
    first
      | exact Except.noConfusion h
      | exact scanPositiveNumberExp_is_take h
      | exact ⟨_, (Except.ok.inj h).symm⟩
      | exact ⟨s.length, by rw [← Except.ok.inj h, List.take_length]⟩

theorem scanIdent_is_take {s token : Str} (h : scanIdent s = some token) :
    ∃ k, token = s.take k := by
  unfold scanIdent at h
  simp only at h
  split at h
  · simp at h
  · simp only [Option.some.injEq] at h
    exact ⟨_, h.symm⟩

theorem takeWhile_append_sliceFrom (s : Str) :
    s = s.takeWhile isSpaceChar ++ sliceFrom s (s.takeWhile isSpaceChar).length := by
  unfold sliceFrom
  rw [drop_takeWhile_length, List.takeWhile_append_dropWhile]

theorem isSeparators_spaces_append {ws w : Str} (h : ∀ c ∈ ws, isSpaceChar c = true)
    (hw : IsSeparators w) : IsSeparators (ws ++ w) := by
  unfold IsSeparators at hw ⊢
  rw [separatorsFrom_spaces ws w h, hw]

theorem isSeparators_takeWhile (s : Str) : IsSeparators (s.takeWhile isSpaceChar) := by
  have := @isSeparators_spaces_append (s.takeWhile isSpaceChar) []
    (fun c hc => (List.mem_takeWhile_imp hc)) (by decide)
  simpa using this

/-- What `lexer.next` does to the lexer: only `sTail` changes, and the old tail
is separators, then the returned token, then the new tail. -/
theorem nextLoop_spec (fuel : Nat) :
    ∀ (lex lex' : Lexer) (tok : Str) (e : Option LexError),
      Lexer.nextLoop fuel lex = some (lex', tok, e) →
      lex' = { lex with sTail := lex'.sTail } ∧
        ∃ w, IsSeparators w ∧ lex.sTail = w ++ (tok ++ lex'.sTail) := by
  induction fuel with
  | zero => intro lex lex' tok e h; simp [Lexer.nextLoop] at h
  | succ f ih =>
    intro lex lex' tok e h
    have hsplit := takeWhile_append_sliceFrom lex.sTail
    have hws := isSeparators_takeWhile lex.sTail
    simp only [Lexer.nextLoop] at h
    split at h
    · simp only [Option.some.injEq, Prod.mk.injEq] at h
      obtain ⟨rfl, rfl, rfl⟩ := h
      exact ⟨rfl, _, hws, by simpa only [List.nil_append] using hsplit⟩
    · next s0 rest hcons =>
      have hsplit' := hsplit
      rw [hcons] at hsplit'
      -- a result that leaves the tail at `s` and returns the empty token
      have stay : ∀ (l : Lexer) (e' : Option LexError),
          l = { lex with sTail := sliceFrom lex.sTail (lex.sTail.takeWhile isSpaceChar).length } →
          some (l, ([] : Str), e') = some (lex', tok, e) →
          lex' = { lex with sTail := lex'.sTail } ∧
            ∃ w, IsSeparators w ∧ lex.sTail = w ++ (tok ++ lex'.sTail) := by
        intro l e' hl h
        simp only [Option.some.injEq, Prod.mk.injEq] at h
        obtain ⟨rfl, rfl, rfl⟩ := h
        subst hl
        exact ⟨rfl, _, hws, by simpa only [List.nil_append] using hsplit⟩
      -- a result that goes through `tokenFoundLabel` with a prefix of `s`
      have found : ∀ (l : Lexer) (token : Str), (∃ k, token = (s0 :: rest).take k) →
          l = { lex with sTail := sliceFrom lex.sTail (lex.sTail.takeWhile isSpaceChar).length } →
          some (l.tokenFound (s0 :: rest) token) = some (lex', tok, e) →
          lex' = { lex with sTail := lex'.sTail } ∧
            ∃ w, IsSeparators w ∧ lex.sTail = w ++ (tok ++ lex'.sTail) := by
        rintro l token ⟨k, rfl⟩ hl h
        simp only [Lexer.tokenFound, Option.some.injEq, Prod.mk.injEq] at h
        obtain ⟨rfl, rfl, rfl⟩ := h
        subst hl
        refine ⟨rfl, _, hws, ?_⟩
        simp only [sliceFrom]
        rw [take_append_drop_take_length]
        exact hsplit'
      split_ifs at h with h35 hpunct hid hstr hbin htag hdur hnum
      · subst h35
        split at h
        · exact stay _ _ rfl h
        · next n hn =>
          obtain ⟨hl, w2, hw2, htail⟩ := ih _ _ _ _ h
          obtain ⟨hrest, hnonl⟩ := indexByte_some hn
          refine ⟨hl, lex.sTail.takeWhile isSpaceChar ++ 35 :: (rest.take n ++ 10 :: w2), ?_, ?_⟩
          · apply isSeparators_spaces_append (fun c hc => List.mem_takeWhile_imp hc)
            unfold IsSeparators at hw2 ⊢
            have h35 : isSpaceChar 35 = false := by decide
            simp only [separatorsFrom, h35, Bool.false_eq_true, if_false, if_true]
            rw [separatorsFrom_comment _ _ hnonl]
            exact hw2
          · simp only [sliceFrom] at htail
            refine hsplit'.trans ?_
            conv_lhs => rw [hrest, htail]
            simp only [List.append_assoc, List.cons_append]
      · exact found _ _ ⟨1, rfl⟩ rfl h
      · split at h
        · simp at h
        · next token htok => exact found _ _ (scanIdent_is_take htok) rfl h
      · split at h
        · exact stay _ _ rfl h
        · next token htok => exact found _ _ (scanString_is_take htok) rfl h
      · exact found _ _ ⟨_, rfl⟩ rfl h
      · exact found _ _ ⟨_, rfl⟩ rfl h
      · exact found _ _ ⟨_, rfl⟩ rfl h
      · split at h
        · exact stay _ _ rfl h
        · next token htok => exact found _ _ (scanPositiveNumber_is_take htok) rfl h
      · exact stay _ _ rfl h

theorem next_spec {lex lex' : Lexer} {tok : Str} {e : Option LexError}
    (h : lex.next = some (lex', tok, e)) :
    lex' = { lex with sTail := lex'.sTail } ∧
      ∃ w, IsSeparators w ∧ lex.sTail = w ++ (tok ++ lex'.sTail) :=
  nextLoop_spec _ _ _ _ _ h

theorem scanIdent_isSome {s : Str} (h : isIdentPrefix s = true) : (scanIdent s).isSome = true := by
  have hpos : scanIdentLoop s ≠ 0 := by
    match s, h with
    | [c], h =>
      simp only [isIdentPrefix] at h
      simp only [scanIdentLoop, isIdentChar]
      split_ifs at h ⊢ <;> simp_all
    | c :: d :: r, h =>
      simp only [isIdentPrefix] at h
      simp only [scanIdentLoop, isIdentChar]
      split_ifs at h ⊢ <;> simp_all
  simp [scanIdent, hpos]

/-- A budget above the length of the tail is enough: `lexer.next` returns. -/
theorem nextLoop_isSome (fuel : Nat) :
    ∀ lex : Lexer, lex.sTail.length < fuel → (Lexer.nextLoop fuel lex).isSome = true := by
  induction fuel with
  | zero => intro lex h; omega
  | succ f ih =>
    intro lex hlen
    have hsplit := takeWhile_append_sliceFrom lex.sTail
    simp only [Lexer.nextLoop]
    split
    · rfl
    · next s0 rest hcons =>
      rw [hcons] at hsplit
      have hrest : rest.length < lex.sTail.length := by
        rw [hsplit]
        simp
        omega
      split_ifs with h35 hpunct hid
      · split
        · rfl
        · apply ih
          simp only [sliceFrom, List.length_drop]
          omega
      · rfl
      · have := scanIdent_isSome hid
        cases hs : scanIdent (s0 :: rest) with
        | none => simp [hs] at this
        | some token => rfl
      · split <;> rfl
      · rfl
      · rfl
      · rfl
      · split <;> rfl
      · rfl

/-- The call `lexer.next` returns. -/
theorem next_isSome (lex : Lexer) : lex.next.isSome = true :=
  nextLoop_isSome _ lex (Nat.lt_succ_self _)

/-- The call `lexer.Next` returns. -/
theorem Next_isSome (lex : Lexer) : lex.Next.isSome = true := by
  unfold Lexer.Next
  split
  · rfl
  · simp only
    split
    · rfl
    · have := next_isSome { lex with prevTokens := lex.prevTokens ++ [lex.Token] }
      split
      · next hn => simp [hn] at this
      · rfl
      · rfl

/-- What a `Next` that returns without error does to the history. -/
theorem Next_ok_spec {lex lex' : Lexer} (h : lex.Next = some (lex', none)) :
    lex.err = none ∧ lex'.err = none ∧ lex'.prevTokens = lex.prevTokens ++ [lex.Token] ∧
      lex'.sOrig = lex.sOrig := by
  unfold Lexer.Next at h
  split at h
  · simp at h
  · next herr =>
    simp only at h
    split at h
    · simp only [Option.some.injEq, Prod.mk.injEq, and_true] at h
      subst h
      exact ⟨herr, herr, rfl, rfl⟩
    · split at h
      · simp at h
      · simp at h
      · next l2 tok hnext =>
        simp only [Option.some.injEq, Prod.mk.injEq, and_true] at h
        subst h
        obtain ⟨hl, _⟩ := next_spec hnext
        rw [hl]
        exact ⟨herr, herr, rfl, rfl⟩

/-! ## Retreat and advance -/

theorem NextN_succ_last (n : Nat) :
    ∀ lex : Lexer, lex.NextN (n + 1) = (lex.NextN n).bind fun mid => mid.NextN 1 := by
  induction n with
  | zero => intro lex; simp [Lexer.NextN]
  | succ k ih =>
    intro lex
    rw [Lexer.NextN]
    cases hN : lex.Next with
    | none => simp [Lexer.NextN, hN]
    | some r =>
      obtain ⟨l1, e⟩ := r
      cases e with
      | none =>
        simp only []
        rw [ih l1]
        conv_rhs => rw [Lexer.NextN, hN]
      | some e1 => simp [Lexer.NextN, hN]

theorem NextN_reach (n : Nat) :
    ∀ {a b : Lexer}, a.NextN n = some b → a.err = none →
      b.err = none ∧ b.prevTokens.length = a.prevTokens.length + n := by
  induction n with
  | zero =>
    intro a b h herr
    simp only [Lexer.NextN, Option.some.injEq] at h
    subst h
    exact ⟨herr, rfl⟩
  | succ k ih =>
    intro a b h _
    rw [Lexer.NextN] at h
    cases hN : a.Next with
    | none => simp [hN] at h
    | some r =>
      obtain ⟨l1, e⟩ := r
      cases e with
      | some e1 => simp [hN] at h
      | none =>
        simp only [hN] at h
        obtain ⟨_, h1, h2, _⟩ := Next_ok_spec hN
        obtain ⟨h3, h4⟩ := ih h h1
        refine ⟨h3, ?_⟩
        rw [h4, h2]
        simp
        omega

theorem Prev_spec {lex back : Lexer} (h : lex.Prev = some back) :
    back.nextTokens = lex.nextTokens ++ [lex.Token] ∧ back.sTail = lex.sTail ∧
      back.prevTokens.length + 1 = lex.prevTokens.length := by
  unfold Lexer.Prev at h
  cases hl : lex.prevTokens.getLast? with
  | none => simp [hl] at h
  | some last =>
    simp only [hl, Option.some.injEq] at h
    subst h
    refine ⟨rfl, rfl, ?_⟩
    have hne : lex.prevTokens ≠ [] := by
      intro hnil
      simp [hnil] at hl
    simp only [List.length_dropLast]
    have := List.length_pos.2 hne
    omega

theorem PrevN_isSome (j : Nat) :
    ∀ lex : Lexer, j ≤ lex.prevTokens.length → ∃ back, lex.PrevN j = some back := by
  induction j with
  | zero => intro lex _; exact ⟨lex, rfl⟩
  | succ k ih =>
    intro lex hj
    cases hP : lex.Prev with
    | none =>
      have := (Prev_eq_none_iff lex).1 hP
      simp [this] at hj
    | some m1 =>
      obtain ⟨_, _, hlen⟩ := Prev_spec hP
      obtain ⟨back, hback⟩ := ih m1 (by omega)
      exact ⟨back, by simp [Lexer.PrevN, hP, hback]⟩

theorem PrevN_spec (j : Nat) :
    ∀ {lex back : Lexer}, lex.PrevN j = some back →
      back.nextTokens.length = lex.nextTokens.length + j ∧ back.sTail = lex.sTail ∧
        back.err = lex.err := by
  induction j with
  | zero =>
    intro lex back h
    simp only [Lexer.PrevN, Option.some.injEq] at h
    subst h
    exact ⟨rfl, rfl, rfl⟩
  | succ k ih =>
    intro lex back h
    rw [Lexer.PrevN] at h
    cases hP : lex.Prev with
    | none => simp [hP] at h
    | some m1 =>
      simp only [hP, Option.some_bind] at h
      obtain ⟨h1, h2, _⟩ := Prev_spec hP
      obtain ⟨h3, h4, h5⟩ := ih h
      refine ⟨?_, by rw [h4, h2], by rw [h5, Prev_err hP]⟩
      rw [h3, h1]
      simp
      omega

/-- As many `Next` calls as there were `Prev` calls lead back to the lexer the
`Prev` calls started from. -/
theorem NextN_PrevN (i : Nat) :
    ∀ {mid back : Lexer}, mid.err = none → mid.PrevN i = some back →
      back.NextN i = some mid := by
  induction i with
  | zero =>
    intro mid back _ h
    simp only [Lexer.PrevN, Option.some.injEq] at h
    subst h
    rfl
  | succ k ih =>
    intro mid back herr h
    rw [Lexer.PrevN] at h
    cases hP : mid.Prev with
    | none => simp [hP] at h
    | some m1 =>
      simp only [hP, Option.some_bind] at h
      have h1 : m1.err = none := by rw [Prev_err hP]; exact herr
      rw [NextN_succ_last, ih h1 h]
      simp [Lexer.NextN, Next_Prev herr hP]

theorem PrevN_add (a : Nat) :
    ∀ (b : Nat) (lex : Lexer), lex.PrevN (a + b) = (lex.PrevN a).bind fun mid => mid.PrevN b := by
  induction a with
  | zero => intro b lex; simp [Lexer.PrevN]
  | succ k ih =>
    intro b lex
    rw [show k + 1 + b = (k + b) + 1 by omega, Lexer.PrevN, Lexer.PrevN]
    cases hP : lex.Prev with
    | none => simp
    | some m1 => simp [ih]

/-- C6. Retreat/advance restores the state: in a lexer reached from `Init` by
`n` calls of `Next` that returned no error, `j ≤ n` calls of `Prev` all return,
and `j` calls of `Next` after them return no error and give back exactly the
lexer that was there before the `Prev` calls (`Token`, both stacks, the
unconsumed tail); none of these `Next` calls scans new text; and after
`Next; Prev; Next` the token is the one of the first `Next`. -/
theorem retreat_advance_restores (lex0 : Lexer) (s : Str) (n j : Nat) (lex : Lexer)
    (hreach : (lex0.Init s).NextN n = some lex) (hj : j ≤ n) :
    (∃ back, lex.PrevN j = some back ∧ back.NextN j = some lex ∧
      ∀ i, i < j → ∃ mid, back.NextN i = some mid ∧ mid.scansNewText = false) ∧
    (∀ a b : Lexer, a.Next = some (b, none) →
      ∃ c d, b.Prev = some c ∧ c.Next = some (d, none) ∧ d.Token = b.Token) := by
  obtain ⟨herr, hlen⟩ := NextN_reach n hreach rfl
  constructor
  · obtain ⟨back, hback⟩ := PrevN_isSome j lex (by rw [hlen]; omega)
    refine ⟨back, hback, NextN_PrevN j herr hback, ?_⟩
    intro i hi
    have hsplit := PrevN_add (j - i) i lex
    rw [show j - i + i = j by omega, hback] at hsplit
    cases hmid : lex.PrevN (j - i) with
    | none => simp [hmid] at hsplit
    | some mid =>
      simp only [hmid, Option.some_bind] at hsplit
      obtain ⟨hnt, _, hmerr⟩ := PrevN_spec (j - i) hmid
      refine ⟨mid, NextN_PrevN i (by rw [hmerr]; exact herr) hsplit.symm, ?_⟩
      have hne : mid.nextTokens ≠ [] := by
        intro hnil
        rw [hnil] at hnt
        simp at hnt
        omega
      simp [Lexer.scansNewText, hne]
  · intro a b hab
    obtain ⟨_, hberr, hbprev, _⟩ := Next_ok_spec hab
    have hP := Prev_of_append b a.prevTokens a.Token hbprev
    exact ⟨_, b, hP, Next_Prev hberr hP, rfl⟩

/-- C6 on the input `( x`: two `Next` calls, then two `Prev` and two `Next`. -/
theorem retreat_advance_restores_witness :
    (Lexer.zero.Init (bytes "( x")).NextN 2 =
        some { Token := bytes "x", prevTokens := [[], bytes "("], nextTokens := [],
               sOrig := bytes "( x", sTail := [], err := none } ∧
      2 ≤ 2 ∧
      ((∃ back,
          Lexer.PrevN { Token := bytes "x", prevTokens := [[], bytes "("], nextTokens := [],
                        sOrig := bytes "( x", sTail := [], err := none } 2 = some back ∧
          back.NextN 2 =
            some { Token := bytes "x", prevTokens := [[], bytes "("], nextTokens := [],
                   sOrig := bytes "( x", sTail := [], err := none } ∧
          ∀ i, i < 2 → ∃ mid, back.NextN i = some mid ∧ mid.scansNewText = false) ∧
        (∀ a b : Lexer, a.Next = some (b, none) →
          ∃ c d, b.Prev = some c ∧ c.Next = some (d, none) ∧ d.Token = b.Token)) :=
  ⟨by decide, by decide,
    retreat_advance_restores Lexer.zero (bytes "( x") 2 2
      { Token := bytes "x", prevTokens := [[], bytes "("], nextTokens := [],
        sOrig := bytes "( x", sTail := [], err := none }
      (by decide) (by decide)⟩

/-- C7. Retreat without history: `Prev` panics exactly when `prevTokens` is
empty, as it is right after `Init`; on a history `init ++ [last]` it returns,
pushes `Token` on `nextTokens`, makes `last` the `Token`, leaves `init` as the
history and does not touch the unconsumed tail. -/
theorem Prev_fails_iff_no_history (lex : Lexer) (s : Str) (init : List Str) (last : Str) :
    (lex.Prev = none ↔ lex.prevTokens = []) ∧
    (lex.Init s).Prev = none ∧
    Lexer.Prev { lex with prevTokens := init ++ [last] } =
      some { Token := last, prevTokens := init, nextTokens := lex.nextTokens ++ [lex.Token],
             sOrig := lex.sOrig, sTail := lex.sTail, err := lex.err } := by
  refine ⟨Prev_eq_none_iff lex, ?_, ?_⟩
  · exact (Prev_eq_none_iff _).2 rfl
  · exact Prev_of_append _ init last rfl

/-! ## The unconsumed tail -/

theorem Next_tail {lex lex' : Lexer} {e : Option LexError} (h : lex.Next = some (lex', e)) :
    lex'.sTail <:+ lex.sTail := by
  unfold Lexer.Next at h
  split at h
  · simp only [Option.some.injEq, Prod.mk.injEq] at h
    rw [← h.1]
  · simp only at h
    split at h
    · simp only [Option.some.injEq, Prod.mk.injEq] at h
      rw [← h.1]
    · split at h
      · simp at h
      · next l2 tok err hnext =>
        simp only [Option.some.injEq, Prod.mk.injEq] at h
        obtain ⟨_, w, _, htail⟩ := next_spec hnext
        simp only at htail
        rw [← h.1]
        exact ⟨w ++ tok, by simp only [htail, List.append_assoc]⟩
      · next l2 tok hnext =>
        simp only [Option.some.injEq, Prod.mk.injEq] at h
        obtain ⟨_, w, _, htail⟩ := next_spec hnext
        simp only at htail
        rw [← h.1]
        exact ⟨w ++ tok, by simp only [htail, List.append_assoc]⟩

theorem Next_scan {lex lex' : Lexer} (hscan : lex.scansNewText = true)
    (h : lex.Next = some (lex', none)) :
    ∃ w, IsSeparators w ∧ lex.sTail = w ++ lex'.Token ++ lex'.sTail := by
  simp only [Lexer.scansNewText, Bool.and_eq_true, Option.isNone_iff_eq_none,
    List.isEmpty_iff] at hscan
  obtain ⟨herr, hnt⟩ := hscan
  simp only [Lexer.Next, herr, hnt, List.getLast?_nil] at h
  split at h
  · simp at h
  · simp at h
  · next l2 tok hnext =>
    simp only [Option.some.injEq, Prod.mk.injEq, and_true] at h
    obtain ⟨_, w, hw, htail⟩ := next_spec hnext
    simp only at htail
    rw [← h]
    exact ⟨w, hw, by simp only [htail, List.append_assoc]⟩

theorem run_tail (calls : List Call) :
    ∀ {lex lex' : Lexer}, lex.run calls = some lex' → lex'.sTail <:+ lex.sTail := by
  induction calls with
  | nil =>
    intro lex lex' h
    simp only [Lexer.run, Option.some.injEq] at h
    rw [← h]
  | cons c cs ih =>
    intro lex lex' h
    simp only [Lexer.run] at h
    cases hc : lex.call c with
    | none => simp [hc] at h
    | some mid =>
      simp only [hc, Option.some_bind] at h
      refine (ih h).trans ?_
      cases c with
      | next =>
        simp only [Lexer.call, Option.map_eq_some', Prod.exists, exists_and_right,
          exists_eq_right] at hc
        obtain ⟨e, he⟩ := hc
        exact Next_tail he
      | prev =>
        simp only [Lexer.call] at hc
        rw [(Prev_spec hc).2.1]

/-- C8. Tail invariant: after `Init(s)` and any calls of `Next` and `Prev` the
unconsumed tail is a suffix of `s`; and a `Next` that scans new text and
returns no error takes the tail from `w ++ t ++ r` to `r`, where `t` is the new
`Token` and `w` consists of whitespace bytes and `#`-comments only. -/
theorem tail_invariant (lex0 : Lexer) (s : Str) (calls : List Call) (lex : Lexer)
    (hrun : (lex0.Init s).run calls = some lex) :
    lex.sTail <:+ s ∧
      ∀ lex' : Lexer, lex.scansNewText = true → lex.Next = some (lex', none) →
        ∃ w, IsSeparators w ∧ lex.sTail = w ++ lex'.Token ++ lex'.sTail :=
  ⟨run_tail calls hrun, fun _ hscan h => Next_scan hscan h⟩

/-- C8 on the input ` # c\n( x` after `Next`, `Prev`, `Next`: the tail is ` x`. -/
theorem tail_invariant_witness :
    (Lexer.zero.Init (bytes " # c\n( x")).run [.next, .prev, .next] =
        some { Token := bytes "(", prevTokens := [[]], nextTokens := [],
               sOrig := bytes " # c\n( x", sTail := bytes " x", err := none } ∧
      (bytes " x" <:+ bytes " # c\n( x" ∧
        ∀ lex' : Lexer,
          Lexer.scansNewText { Token := bytes "(", prevTokens := [[]], nextTokens := [],
                               sOrig := bytes " # c\n( x", sTail := bytes " x",
                               err := none } = true →
          Lexer.Next { Token := bytes "(", prevTokens := [[]], nextTokens := [],
                       sOrig := bytes " # c\n( x", sTail := bytes " x",
                       err := none } = some (lex', none) →
          ∃ w, IsSeparators w ∧ bytes " x" = w ++ lex'.Token ++ lex'.sTail) :=
  ⟨by decide,
    tail_invariant Lexer.zero (bytes " # c\n( x") [.next, .prev, .next]
      { Token := bytes "(", prevTokens := [[]], nextTokens := [],
        sOrig := bytes " # c\n( x", sTail := bytes " x", err := none }
      (by decide)⟩

/-! ## Duration values -/

theorem roundHalfEven_intCast (i : Int) : roundHalfEven (i : ℚ) = i := by
  simp [roundHalfEven]

theorem ulpExp_intCast {z : Int} (hlt : z.natAbs < 2 ^ 53) :
    F64.ulpExp (z : ℚ) = (Nat.log 2 z.natAbs : Int) - 52 := by
  have habs : |(z : ℚ)| = ((z.natAbs : Nat) : ℚ) := by
    rw [Nat.cast_natAbs, Int.cast_abs]
  have hlog : Nat.log 2 z.natAbs < 53 := by
    by_cases h0 : z.natAbs = 0
    · simp [h0]
    · exact Nat.log_lt_of_lt_pow h0 hlt
  unfold F64.ulpExp
  rw [habs, Int.log_natCast]
  omega

/-- An integer below `2^53` in absolute value is a `float64`: rounding keeps it. -/
theorem ofRat_intCast {z : Int} (hlt : z.natAbs < 2 ^ 53) : F64.ofRat (z : ℚ) = .finite z := by
  by_cases hz : z = 0
  · subst hz; simp [F64.ofRat]
  have hzq : (z : ℚ) ≠ 0 := by exact_mod_cast hz
  have hlog : Nat.log 2 z.natAbs ≤ 52 := by
    have h0 : z.natAbs ≠ 0 := by simpa using hz
    have := Nat.log_lt_of_lt_pow h0 hlt
    omega
  obtain ⟨m, hm⟩ : ∃ m : Nat, (Nat.log 2 z.natAbs : Int) - 52 = -(m : Int) :=
    ⟨52 - Nat.log 2 z.natAbs, by omega⟩
  have hscale : (z : ℚ) / (2 : ℚ) ^ (-(m : Int)) = ((z * 2 ^ m : Int) : ℚ) := by
    rw [zpow_neg, zpow_natCast, div_inv_eq_mul]
    push_cast
    ring
  have hback : ((z * 2 ^ m : Int) : ℚ) * (2 : ℚ) ^ (-(m : Int)) = z := by
    rw [zpow_neg, zpow_natCast]
    push_cast
    field_simp
  have hsmall : ¬ (2 : ℚ) ^ (1024 : Nat) ≤ |(z : ℚ)| := by
    rw [not_le, ← Int.cast_abs, Int.abs_eq_natAbs]
    have h1 : ((z.natAbs : Int) : ℚ) < (2 : ℚ) ^ (53 : Nat) := by exact_mod_cast hlt
    have h2 : (2 : ℚ) ^ (53 : Nat) ≤ (2 : ℚ) ^ (1024 : Nat) :=
      pow_le_pow_right₀ (by norm_num) (by norm_num)
    exact lt_of_lt_of_le h1 h2
  simp only [F64.ofRat, hzq, if_false, ulpExp_intCast hlt, hm, hscale, roundHalfEven_intCast,
    hback, hsmall]

/-- C9 at the input `1.s`: `scanDuration` accepts the three bytes although no
digit follows the `.`, and no prefix of `1.s` is a duration literal of the
specification; `Next` emits `1.s` as one token.  The test `i == j` that should
reject the empty fraction compares `i` with the index of the `.` itself and so
never holds. -/
theorem scanDuration_accepts_empty_fraction :
    scanDuration (bytes "1.s") false = 3 ∧
      (∀ p ∈ (bytes "1.s").inits, isDurationLiteral p = false) ∧
      (Lexer.zero.Init (bytes "1.s")).Next =
        some ({ Token := bytes "1.s", prevTokens := [[]], nextTokens := [],
                sOrig := bytes "1.s", sTail := [], err := none }, none) := by
  decide

theorem takeWhile_digits_append (d : Str) (u : Nat) (t : Str)
    (hd : ∀ c ∈ d, isDecimalChar c = true) (hu : isDecimalChar u = false) :
    (d ++ u :: t).takeWhile isDecimalChar = d := by
  induction d with
  | nil => simp [List.takeWhile, hu]
  | cons c r ih =>
    have hc : isDecimalChar c = true := hd c (by simp)
    have hr : ∀ x ∈ r, isDecimalChar x = true := fun x hx => hd x (by simp [hx])
    simp [List.takeWhile, hc, ih hr]

theorem skipDecimalChars_digits (p d : Str) (u : Nat) (t : Str)
    (hd : ∀ c ∈ d, isDecimalChar c = true) (hu : isDecimalChar u = false) :
    skipDecimalChars (p ++ (d ++ u :: t)) p.length = p.length + d.length := by
  unfold skipDecimalChars sliceFrom
  rw [List.drop_left, takeWhile_digits_append d u t hd hu]

theorem unitSeconds_some {u k : Nat} (h : unitSeconds u = some k) :
    (u = 115 ∧ k = 1) ∨ (u = 109 ∧ k = 60) ∨ (u = 104 ∧ k = 3600) ∨ (u = 100 ∧ k = 86400) ∨
      (u = 119 ∧ k = 604800) ∨ (u = 121 ∧ k = 31536000) := by
  unfold unitSeconds at h
  split_ifs at h <;> simp_all

theorem scanDurationUnit_unit (s : Str) (i : Nat) {u k : Nat} (h : unitSeconds u = some k)
    (hs : s.getD i 0 = u) : scanDurationUnit s i = ((i + 1 : Nat) : Int) := by
  unfold scanDurationUnit
  rw [hs]
  rcases unitSeconds_some h with h | h | h | h | h | h <;> simp [h.1]

/-- A digit string followed by a unit byte passes `scanDuration`, with or
without a leading `-`. -/
theorem scanDuration_digits_unit (d : Str) {u k : Nat} (hne : d ≠ [])
    (hd : ∀ c ∈ d, isDecimalChar c = true) (h : unitSeconds u = some k) :
    scanDuration (d ++ [u]) true = ((d ++ [u]).length : Int) ∧
      scanDuration (45 :: (d ++ [u])) true = ((45 :: (d ++ [u])).length : Int) := by
  have hu : isDecimalChar u = false := by
    rcases unitSeconds_some h with h | h | h | h | h | h <;> rw [h.1] <;> decide
  have hu46 : u ≠ 46 := by
    rcases unitSeconds_some h with h | h | h | h | h | h <;> rw [h.1] <;> decide
  have hlen : 0 < d.length := List.length_pos.2 hne
  constructor
  · have hskip := skipDecimalChars_digits [] d u [] hd hu
    simp only [List.nil_append, List.length_nil, Nat.zero_add] at hskip
    have h0 : (d ++ [u]).getD 0 0 ≠ 45 := by
      obtain ⟨c, r, rfl⟩ := List.exists_cons_of_ne_nil hne
      have hc : isDecimalChar c = true := hd c (by simp)
      intro h45
      simp only [List.cons_append, List.getD_cons_zero] at h45
      rw [h45] at hc
      exact absurd hc (by decide)
    have hget : (d ++ [u]).getD d.length 0 = u := by
      simp [List.getD_eq_getElem?_getD]
    unfold scanDuration
    simp only [h0, false_and, if_false, hskip, hget, hu46]
    have h1 : ¬ (d ++ [u]).length = 0 := by simp
    have h2 : ¬ (d.length = 0 ∨ d.length = (d ++ [u]).length) := by
      simp only [List.length_append, List.length_singleton]
      omega
    simp only [h1, h2, if_false]
    rw [scanDurationUnit_unit _ _ h hget]
    simp
  · have hskip := skipDecimalChars_digits [45] d u [] hd hu
    simp only [List.singleton_append, List.length_singleton] at hskip
    have hget : (45 :: (d ++ [u])).getD (1 + d.length) 0 = u := by
      rw [Nat.add_comm]
      simp [List.getD_eq_getElem?_getD]
    unfold scanDuration
    simp only [List.getD_cons_zero, true_and, if_true, hskip, hget, hu46]
    have h1 : ¬ (45 :: (d ++ [u])).length = 0 := by simp
    have h2 : ¬ (1 + d.length = 0 ∨ 1 + d.length = (45 :: (d ++ [u])).length) := by
      simp only [List.length_cons, List.length_append, List.length_singleton]
      omega
    simp only [h1, h2, if_false]
    rw [scanDurationUnit_unit _ _ h hget]
    simp
    omega

theorem takeWhile_digits_all (d : Str) (hd : ∀ c ∈ d, isDecimalChar c = true) :
    d.takeWhile isDecimalChar = d := by
  induction d with
  | nil => rfl
  | cons c r ih =>
    have hc : isDecimalChar c = true := hd c (by simp)
    have hr : ∀ x ∈ r, isDecimalChar x = true := fun x hx => hd x (by simp [hx])
    simp [List.takeWhile, hc, ih hr]

theorem parseDecimal_digits (d : Str) (hne : d ≠ []) (hd : ∀ c ∈ d, isDecimalChar c = true) :
    parseDecimal d = some (decimalValue d : ℚ) := by
  unfold parseDecimal
  simp only [takeWhile_digits_all d hd, List.drop_length, hne, if_false]

/-- Go `strconv.ParseFloat` on a digit string whose value is below `2^53`, with
or without a leading `-`. -/
theorem ParseFloat_digits (d : Str) (hne : d ≠ []) (hd : ∀ c ∈ d, isDecimalChar c = true)
    (hlt : decimalValue d < 2 ^ 53) :
    ParseFloat d = some (.finite ((decimalValue d : Int) : ℚ)) ∧
      ParseFloat (45 :: d) = some (.finite ((-(decimalValue d : Int) : Int) : ℚ)) := by
  have hpos : F64.ofRat ((decimalValue d : Int) : ℚ) = .finite ((decimalValue d : Int) : ℚ) :=
    ofRat_intCast (by simpa using hlt)
  have hneg : F64.ofRat ((-(decimalValue d : Int) : Int) : ℚ) =
      .finite ((-(decimalValue d : Int) : Int) : ℚ) :=
    ofRat_intCast (by simpa using hlt)
  constructor
  · obtain ⟨c, r, rfl⟩ := List.exists_cons_of_ne_nil hne
    have hc : isDecimalChar c = true := hd c (by simp)
    have h45 : c ≠ 45 := by rintro rfl; exact absurd hc (by decide)
    have h43 : c ≠ 43 := by rintro rfl; exact absurd hc (by decide)
    simp only [ParseFloat, h45, h43, if_false, parseDecimal_digits _ hne hd, Bool.false_eq_true]
    rw [show ((decimalValue (c :: r) : Nat) : ℚ) = ((decimalValue (c :: r) : Int) : ℚ) by simp,
      hpos]
  · simp only [ParseFloat, if_true, parseDecimal_digits _ hne hd]
    rw [show (-((decimalValue d : Nat) : ℚ)) = ((-(decimalValue d : Int) : Int) : ℚ) by simp,
      hneg]

theorem mul_intCast (a b : Int) (h : (a * b).natAbs < 2 ^ 53) :
    F64.mul (.finite (a : ℚ)) (.finite (b : ℚ)) = .finite ((a * b : Int) : ℚ) := by
  simp only [F64.mul]
  rw [show (a : ℚ) * (b : ℚ) = ((a * b : Int) : ℚ) by push_cast; ring]
  exact ofRat_intCast h

theorem toInt64_intCast (z : Int) (h : z.natAbs < 2 ^ 53) : F64.toInt64 (.finite (z : ℚ)) = z := by
  have hfloor : (if (0 : ℚ) ≤ (z : ℚ) then ⌊(z : ℚ)⌋ else ⌈(z : ℚ)⌉) = z := by
    split_ifs <;> simp
  simp only [F64.toInt64, hfloor]
  have : -(2 : Int) ^ 63 ≤ z ∧ z < (2 : Int) ^ 63 := by
    constructor <;> omega
  rw [if_pos this]

/-- The arithmetic of `DurationValue` on an integral literal: the literal has
passed `scanDuration` and `ParseFloat` has returned the integer `z`. -/
theorem DurationValue_of_parsed (body : Str) (u k : Nat) (z step : Int)
    (hscan : scanDuration (body ++ [u]) true = ((body ++ [u]).length : Int))
    (hparse : ParseFloat body = some (.finite (z : ℚ)))
    (hu : unitSeconds u = some k) (hlt : (z * k * 1000).natAbs < 2 ^ 53) :
    DurationValue (body ++ [u]) step = .ok (z * k * 1000) := by
  have hslice : sliceTo (body ++ [u]) ((body ++ [u]).length - 1) = body := by
    simp [sliceTo]
  have hget : (body ++ [u]).getD ((body ++ [u]).length - 1) 0 = u := by
    simp [List.getD_eq_getElem?_getD]
  have hk : 0 < k := by
    rcases unitSeconds_some hu with h | h | h | h | h | h <;> omega
  have hzk : ((k : Int) * z).natAbs < 2 ^ 53 := by
    have h1 : (z * k * 1000).natAbs = z.natAbs * k * 1000 := by
      simp [Int.natAbs_mul]
    have h2 : ((k : Int) * z).natAbs = k * z.natAbs := by
      simp [Int.natAbs_mul]
    rw [h1] at hlt
    rw [h2]
    nlinarith
  have hmp : ∀ mp : Int, mp = (k : Int) →
      F64.toInt64 (F64.mul (F64.mul (.finite (mp : ℚ)) (.finite (z : ℚ))) (.finite 1000)) =
        z * k * 1000 := by
    intro mp hmp
    subst hmp
    rw [mul_intCast _ _ hzk]
    rw [show (F64.finite 1000) = F64.finite ((1000 : Int) : ℚ) by norm_num]
    have hlt' : ((k : Int) * z * 1000).natAbs < 2 ^ 53 := by
      rw [show (k : Int) * z * 1000 = z * k * 1000 by ring]
      exact hlt
    rw [mul_intCast _ _ hlt', toInt64_intCast _ hlt']
    ring
  unfold DurationValue
  simp only [hscan, ne_eq, not_true_eq_false, if_false, hslice, hparse, hget]
  rcases unitSeconds_some hu with h | h | h | h | h | h <;> obtain ⟨rfl, rfl⟩ := h
  · simp only [if_true]
    rw [← hmp 1 (by norm_num)]
    norm_num
  · simp only [if_true, show ¬ (109 = 115) by decide, if_false]
    rw [← hmp 60 (by norm_num)]
    norm_num
  · simp only [if_true, show ¬ (104 = 115) by decide, show ¬ (104 = 109) by decide, if_false]
    rw [← hmp 3600 (by norm_num)]
    norm_num
  · simp only [if_true, show ¬ (100 = 115) by decide, show ¬ (100 = 109) by decide,
      show ¬ (100 = 104) by decide, if_false]
    rw [← hmp 86400 (by norm_num)]
    norm_num
  · simp only [if_true, show ¬ (119 = 115) by decide, show ¬ (119 = 109) by decide,
      show ¬ (119 = 104) by decide, show ¬ (119 = 100) by decide, if_false]
    rw [← hmp 604800 (by norm_num)]
    norm_num
  · simp only [if_true, show ¬ (121 = 115) by decide, show ¬ (121 = 109) by decide,
      show ¬ (121 = 104) by decide, show ¬ (121 = 100) by decide, show ¬ (121 = 119) by decide,
      if_false]
    rw [← hmp 31536000 (by norm_num)]
    norm_num

theorem DurationValue_digits_unit (d : Str) (u k : Nat) (step : Int) (hne : d ≠ [])
    (hd : ∀ c ∈ d, isDecimalChar c = true) (hu : unitSeconds u = some k)
    (hlt : decimalValue d * k * 1000 < 2 ^ 53) :
    DurationValue (d ++ [u]) step = .ok ((decimalValue d * k * 1000 : Nat) : Int) ∧
      DurationValue (bytes "-" ++ d ++ [u]) step =
        .ok (-((decimalValue d * k * 1000 : Nat) : Int)) := by
  have hk : 0 < k := by
    rcases unitSeconds_some hu with h | h | h | h | h | h <;> omega
  have hn : decimalValue d < 2 ^ 53 := by nlinarith
  obtain ⟨hs1, hs2⟩ := scanDuration_digits_unit d hne hd hu
  obtain ⟨hp1, hp2⟩ := ParseFloat_digits d hne hd hn
  constructor
  · have := DurationValue_of_parsed d u k (decimalValue d : Int) step hs1 hp1 hu (by
      rw [show ((decimalValue d : Int) * k * 1000) = ((decimalValue d * k * 1000 : Nat) : Int) by
        push_cast; ring]
      simpa using hlt)
    rw [this]
    push_cast
    ring_nf
  · have hb : bytes "-" ++ d ++ [u] = (45 :: d) ++ [u] := by
      have : bytes "-" = [45] := by decide
      rw [this]
      rfl
    rw [hb]
    have := DurationValue_of_parsed (45 :: d) u k (-(decimalValue d : Int)) step hs2 hp2 hu (by
      rw [show (-(decimalValue d : Int) * k * 1000) =
        -((decimalValue d * k * 1000 : Nat) : Int) by push_cast; ring]
      simpa using hlt)
    rw [this]
    push_cast
    ring_nf

/-- C10. Duration conversion: for a non-empty string `d` of decimal digits that
denotes `n`, a unit `u` among `s`, `m`, `h`, `d`, `w`, `y` with multiplier `k`,
and `n*k*1000 < 2^53`, `DurationValue(d ++ u, step)` returns `n*k*1000` and
`DurationValue("-" ++ d ++ u, step)` returns `-n*k*1000`, for every `step`;
`DurationValue("90m", 0) = 5400000` and `DurationValue("-5m", 0) = -300000`. -/
theorem DurationValue_integral (d : Str) (u k : Nat) (step : Int) (hne : d ≠ [])
    (hd : ∀ c ∈ d, isDecimalChar c = true) (hu : unitSeconds u = some k)
    (hlt : decimalValue d * k * 1000 < 2 ^ 53) :
    (DurationValue (d ++ [u]) step = .ok ((decimalValue d * k * 1000 : Nat) : Int) ∧
      DurationValue (bytes "-" ++ d ++ [u]) step =
        .ok (-((decimalValue d * k * 1000 : Nat) : Int))) ∧
    DurationValue (bytes "90m") 0 = .ok 5400000 ∧
    DurationValue (bytes "-5m") 0 = .ok (-300000) := by
  refine ⟨DurationValue_digits_unit d u k step hne hd hu hlt, ?_, ?_⟩
  · have h := (DurationValue_digits_unit (bytes "90") 109 60 0 (by decide) (by decide)
      (by decide) (by norm_num [show decimalValue (bytes "90") = 90 by decide])).1
    rw [show decimalValue (bytes "90") = 90 by decide] at h
    exact h
  · have h := (DurationValue_digits_unit (bytes "5") 109 60 0 (by decide) (by decide)
      (by decide) (by norm_num [show decimalValue (bytes "5") = 5 by decide])).2
    rw [show decimalValue (bytes "5") = 5 by decide] at h
    exact h

/-- C10 at `3h`: `DurationValue("3h", 7) = 10800000` and
`DurationValue("-3h", 7) = -10800000`. -/
theorem DurationValue_integral_witness :
    bytes "3" ≠ [] ∧ (∀ c ∈ bytes "3", isDecimalChar c = true) ∧ unitSeconds 104 = some 3600 ∧
      decimalValue (bytes "3") * 3600 * 1000 < 2 ^ 53 ∧
      ((DurationValue (bytes "3" ++ [104]) 7 =
          .ok ((decimalValue (bytes "3") * 3600 * 1000 : Nat) : Int) ∧
        DurationValue (bytes "-" ++ bytes "3" ++ [104]) 7 =
          .ok (-((decimalValue (bytes "3") * 3600 * 1000 : Nat) : Int))) ∧
      DurationValue (bytes "90m") 0 = .ok 5400000 ∧
      DurationValue (bytes "-5m") 0 = .ok (-300000)) :=
  ⟨by decide, by decide, by decide,
    by norm_num [show decimalValue (bytes "3") = 3 by decide],
    DurationValue_integral (bytes "3") 104 3600 7 (by decide) (by decide) (by decide)
      (by norm_num [show decimalValue (bytes "3") = 3 by decide])⟩

/-! ## Rejected duration literals -/

theorem takeWhile_append_of_short (p : Nat → Bool) (x y : Str)
    (h : (x.takeWhile p).length < x.length) : (x ++ y).takeWhile p = x.takeWhile p := by
  induction x with
  | nil => simp at h
  | cons c r ih =>
    by_cases hc : p c = true
    · simp only [List.cons_append, List.takeWhile_cons, hc, if_true, List.length_cons] at h ⊢
      rw [ih (by omega)]
    · simp [List.takeWhile_cons, hc]

theorem skipDecimalChars_ge (s : Str) (i : Nat) : i ≤ skipDecimalChars s i := by
  unfold skipDecimalChars
  omega

/-- A digit run that ends inside `a` ends at the same index in `a ++ b`. -/
theorem skipDecimalChars_append (a b : Str) (i : Nat) (h : skipDecimalChars a i < a.length) :
    skipDecimalChars (a ++ b) i = skipDecimalChars a i := by
  have hi : i ≤ a.length := by
    have := skipDecimalChars_ge a i
    omega
  unfold skipDecimalChars sliceFrom at h ⊢
  rw [List.drop_append_of_le_length hi, takeWhile_append_of_short]
  rw [List.length_drop]
  omega

theorem getD_append_left (a b : Str) (k : Nat) (h : k < a.length) :
    (a ++ b).getD k 0 = a.getD k 0 := by
  simp [List.getD_eq_getElem?_getD, List.getElem?_append_left h]

theorem scanDurationUnit_append (a b : Str) (i : Nat) (h : i < a.length) :
    scanDurationUnit (a ++ b) i = scanDurationUnit a i := by
  unfold scanDurationUnit
  rw [getD_append_left a b i h]

theorem scanDurationUnit_le (s : Str) (i : Nat) : scanDurationUnit s i ≤ ((i + 1 : Nat) : Int) := by
  unfold scanDurationUnit
  simp only
  split_ifs
  · exact le_refl _
  · omega

theorem scanDurationUnit_of_ge (s : Str) (i : Nat) (h : s.length ≤ i) :
    scanDurationUnit s i = -1 := by
  have hget : s.getD i 0 = 0 := by
    simp [List.getD_eq_getElem?_getD, List.getElem?_eq_none h]
  unfold scanDurationUnit
  simp only [hget]
  rw [if_neg (by decide)]

/-- A string that `scanDuration` accepts to its end is scanned in the same way
when more text follows it. -/
theorem scanDuration_append (a b : Str) (neg : Bool)
    (h : scanDuration a neg = (a.length : Int)) : scanDuration (a ++ b) neg = (a.length : Int) := by
  have hne : a.length ≠ 0 := by
    intro h0
    simp [scanDuration, h0] at h
  have h0lt : 0 < a.length := Nat.pos_of_ne_zero hne
  have hab : (a ++ b).length ≠ 0 := by rw [List.length_append]; omega
  unfold scanDuration at h ⊢
  simp only [hne, hab, if_false] at h ⊢
  rw [getD_append_left a b 0 h0lt]
  generalize hi0 : (if a.getD 0 0 = 45 ∧ neg = true then 1 else 0) = i0 at h ⊢
  by_cases h1 : skipDecimalChars a i0 = 0 ∨ skipDecimalChars a i0 = a.length
  · rw [if_pos h1] at h
    omega
  have h1lt : skipDecimalChars a i0 < a.length := by
    by_contra hge
    have hge' : a.length ≤ skipDecimalChars a i0 := by omega
    -- beyond the end nothing is read: the scan cannot return `len(a)`
    rw [if_neg h1] at h
    have hu := scanDurationUnit_of_ge a _ hge'
    have hget : a.getD (skipDecimalChars a i0) 0 ≠ 46 := by
      simp [List.getD_eq_getElem?_getD, List.getElem?_eq_none hge']
    rw [if_neg hget, hu] at h
    omega
  have hskip := skipDecimalChars_append a b i0 h1lt
  rw [hskip]
  have h1' : ¬ (skipDecimalChars a i0 = 0 ∨ skipDecimalChars a i0 = (a ++ b).length) := by
    simp only [List.length_append]
    omega
  rw [if_neg h1] at h
  rw [if_neg h1', getD_append_left a b _ h1lt]
  by_cases hdot : a.getD (skipDecimalChars a i0) 0 = 46
  · rw [if_pos hdot] at h ⊢
    by_cases h2 : skipDecimalChars a (skipDecimalChars a i0 + 1) = skipDecimalChars a i0 ∨
        skipDecimalChars a (skipDecimalChars a i0 + 1) = a.length
    · rw [if_pos h2] at h
      omega
    rw [if_neg h2] at h
    have h2lt : skipDecimalChars a (skipDecimalChars a i0 + 1) < a.length := by
      by_contra hge
      rw [scanDurationUnit_of_ge a _ (Nat.le_of_not_lt hge)] at h
      omega
    have hskip2 := skipDecimalChars_append a b _ h2lt
    rw [hskip2]
    have h2' : ¬ (skipDecimalChars a (skipDecimalChars a i0 + 1) = skipDecimalChars a i0 ∨
        skipDecimalChars a (skipDecimalChars a i0 + 1) = (a ++ b).length) := by
      simp only [List.length_append]
      have := skipDecimalChars_ge a (skipDecimalChars a i0 + 1)
      omega
    rw [if_neg h2', scanDurationUnit_append a b _ h2lt]
    exact h
  · rw [if_neg hdot] at h ⊢
    rw [scanDurationUnit_append a b _ h1lt]
    exact h

theorem DurationValue_of_incomplete (s : Str) (step : Int)
    (h : scanDuration s true ≠ (s.length : Int)) :
    DurationValue s step = .error (.cannotParseDuration s) := by
  unfold DurationValue
  simp only [ne_eq, h, not_false_eq_true, if_true]

/-- C11. Multi-unit and trailing content are rejected: `DurationValue(s, step)`
returns the error `cannot parse duration` whenever `scanDuration(s, true)` is
not `len(s)`; and when `a` and `b` are each scanned to their end as an
optionally signed duration literal, `DurationValue(a ++ b, step)` returns that
error, as for `1h30m`. -/
theorem DurationValue_rejects_incomplete (s a b : Str) (step : Int)
    (ha : scanDuration a true = (a.length : Int)) (hb : scanDuration b true = (b.length : Int)) :
    (scanDuration s true = (s.length : Int) ∨
      DurationValue s step = .error (.cannotParseDuration s)) ∧
    DurationValue (a ++ b) step = .error (.cannotParseDuration (a ++ b)) ∧
    DurationValue (bytes "1h30m") step = .error (.cannotParseDuration (bytes "1h30m")) := by
  refine ⟨?_, ?_, ?_⟩
  · by_cases h : scanDuration s true = (s.length : Int)
    · exact Or.inl h
    · exact Or.inr (DurationValue_of_incomplete s step h)
  · apply DurationValue_of_incomplete
    rw [scanDuration_append a b true ha]
    have hbne : b.length ≠ 0 := by
      intro h0
      simp [scanDuration, h0] at hb
    rw [List.length_append]
    omega
  · exact DurationValue_of_incomplete _ step (by decide)

/-- C11 at `a = "1h"` and `b = "30m"`. -/
theorem DurationValue_rejects_incomplete_witness :
    scanDuration (bytes "1h") true = ((bytes "1h").length : Int) ∧
      scanDuration (bytes "30m") true = ((bytes "30m").length : Int) ∧
      ((scanDuration (bytes "5x") true = ((bytes "5x").length : Int) ∨
          DurationValue (bytes "5x") 0 = .error (.cannotParseDuration (bytes "5x"))) ∧
        DurationValue (bytes "1h" ++ bytes "30m") 0 =
          .error (.cannotParseDuration (bytes "1h" ++ bytes "30m")) ∧
        DurationValue (bytes "1h30m") 0 = .error (.cannotParseDuration (bytes "1h30m"))) :=
  ⟨by decide, by decide,
    DurationValue_rejects_incomplete (bytes "5x") (bytes "1h") (bytes "30m") 0 (by decide)
      (by decide)⟩

/-! ## Non-negative durations -/

/-- C12. `PositiveDurationValue` refines `DurationValue`: it returns the value
`d` exactly when `DurationValue` returns a value `d ≥ 0`; it returns the error
of `DurationValue` when that fails, and the error `duration cannot be negative`
when `d < 0`, as for `-5m`.  (An error result stands for the Go return
`0, err`.) -/
theorem PositiveDurationValue_refines (s : Str) (step : Int) (d : Int) (e : LexError) :
    (PositiveDurationValue s step = .ok d ↔ DurationValue s step = .ok d ∧ 0 ≤ d) ∧
    (PositiveDurationValue s step = .error e ↔
      DurationValue s step = .error e ∨
        ∃ d', DurationValue s step = .ok d' ∧ d' < 0 ∧ e = .durationCannotBeNegative s) ∧
    PositiveDurationValue (bytes "-5m") step =
      .error (.durationCannotBeNegative (bytes "-5m")) := by
  refine ⟨?_, ?_, ?_⟩
  · unfold PositiveDurationValue
    cases hD : DurationValue s step with
    | error e' => simp
    | ok d' =>
      by_cases hneg : d' < 0
      · simp only [hneg, if_true, Except.ok.injEq]
        constructor
        · intro h; exact Except.noConfusion h
        · rintro ⟨rfl, h⟩; omega
      · simp only [hneg, if_false, Except.ok.injEq]
        constructor
        · rintro rfl; exact ⟨rfl, by omega⟩
        · rintro ⟨h, _⟩; exact h
  · unfold PositiveDurationValue
    cases hD : DurationValue s step with
    | error e' => simp
    | ok d' =>
      by_cases hneg : d' < 0
      · simp only [hneg, if_true, Except.error.injEq]
        constructor
        · intro h; exact Or.inr ⟨d', rfl, hneg, h.symm⟩
        · rintro (h | ⟨_, _, _, h⟩)
          · exact Except.noConfusion h
          · exact h.symm
      · simp only [hneg, if_false]
        constructor
        · intro h; exact Except.noConfusion h
        · rintro (h | ⟨d2, h1, h2, _⟩)
          · exact Except.noConfusion h
          · rw [Except.ok.inj h1] at hneg
            exact absurd h2 hneg
  · have h5 := (DurationValue_digits_unit (bytes "5") 109 60 step (by decide) (by decide)
      (by decide) (by norm_num [show decimalValue (bytes "5") = 5 by decide])).2
    have hb : bytes "-" ++ bytes "5" ++ [109] = bytes "-5m" := by decide
    rw [hb, show decimalValue (bytes "5") = 5 by decide] at h5
    unfold PositiveDurationValue
    rw [h5]
    simp

/-! ## Quoted strings -/

theorem getD_drop (s : Str) (i j : Nat) : (s.drop i).getD j 0 = s.getD (i + j) 0 := by
  simp [List.getD_eq_getElem?_getD, List.getElem?_drop]

theorem indexByte_some_getD {t : Str} {c n : Nat} (h : indexByte t c = some n) :
    n < t.length ∧ t.getD n 0 = c ∧ ∀ j, j < n → t.getD j 0 ≠ c := by
  induction t generalizing n with
  | nil => simp [indexByte] at h
  | cons x r ih =>
    by_cases hx : x = c
    · simp only [indexByte, hx, if_true, Option.some.injEq] at h
      subst h
      simp [hx]
    · simp only [indexByte, hx, if_false, Option.map_eq_some'] at h
      obtain ⟨m, hm, rfl⟩ := h
      obtain ⟨h1, h2, h3⟩ := ih hm
      refine ⟨by simp; omega, by simpa using h2, ?_⟩
      intro j hj
      cases j with
      | zero => simpa using hx
      | succ k => simpa using h3 k (by omega)

theorem indexByte_none_getD {t : Str} {c : Nat} (h : indexByte t c = none) :
    ∀ j, j < t.length → t.getD j 0 ≠ c := by
  induction t with
  | nil => intro j hj; simp at hj
  | cons x r ih =>
    by_cases hx : x = c
    · simp [indexByte, hx] at h
    · simp only [indexByte, hx, if_false, Option.map_eq_none'] at h
      intro j hj
      cases j with
      | zero => simpa using hx
      | succ k => simpa using ih h k (by simpa using hj)

/-- The loop of `scanString` from index `i` on: it returns the string up to the
first closing quote at or after `i`, and the error when there is none.  The
budget is enough as soon as `len(s) + 1 ≤ fuel + i`. -/
theorem scanStringLoop_spec (s : Str) (fuel : Nat) :
    ∀ i : Nat, 1 ≤ i → s.length + 1 ≤ fuel + i →
      (∀ k, i ≤ k → IsClosingQuote s k → (∀ j, i ≤ j → j < k → ¬ IsClosingQuote s j) →
        scanStringLoop fuel s (s.getD 0 0) i = .ok (sliceTo s (k + 1))) ∧
      ((∀ k, i ≤ k → ¬ IsClosingQuote s k) →
        scanStringLoop fuel s (s.getD 0 0) i = .error (.cannotFindClosingQuote (s.getD 0 0) s)) := by
  induction fuel with
  | zero =>
    intro i _ hfuel
    constructor
    · intro k hk hclose _
      have := hclose.2.1
      omega
    · intro _
      rfl
  | succ f ih =>
    intro i hi hfuel
    cases hidx : indexByte (sliceFrom s i) (s.getD 0 0) with
    | none =>
      have hnone := indexByte_none_getD hidx
      simp only [sliceFrom] at hnone
      have hall : ∀ k, i ≤ k → ¬ IsClosingQuote s k := by
        intro k hk hclose
        obtain ⟨_, hlt, hq, _⟩ := hclose
        have := hnone (k - i) (by rw [List.length_drop]; omega)
        rw [getD_drop, show i + (k - i) = k by omega] at this
        exact this hq
      constructor
      · intro k hk hclose _
        exact absurd hclose (hall k hk)
      · intro _
        simp only [scanStringLoop, hidx]
    | some n =>
      obtain ⟨hlt, hq, hbefore⟩ := indexByte_some_getD hidx
      simp only [sliceFrom] at hlt hq hbefore
      rw [List.length_drop] at hlt
      rw [getD_drop] at hq
      have hfirst : ∀ j, i ≤ j → j < i + n → s.getD j 0 ≠ s.getD 0 0 := by
        intro j hj1 hj2
        have := hbefore (j - i) (by omega)
        rw [getD_drop, show i + (j - i) = j by omega] at this
        exact this
      simp only [scanStringLoop, hidx]
      by_cases hev : countBackslashesBefore s (i + n) % 2 = 0
      · have hclose : IsClosingQuote s (i + n) := ⟨by omega, by omega, hq, hev⟩
        simp only [hev, if_true]
        constructor
        · intro k hk hk_close hmin
          have h1 : ¬ k < i + n := fun hlt' => hfirst k hk hlt' hk_close.2.2.1
          have h2 : ¬ i + n < k := fun hlt' => hmin (i + n) (by omega) hlt' hclose
          have : k = i + n := by omega
          rw [this]
        · intro hnone
          exact absurd hclose (hnone (i + n) (by omega))
      · simp only [hev, if_false]
        obtain ⟨ih1, ih2⟩ := ih (i + n + 1) (by omega) (by omega)
        have hnot : ∀ j, i ≤ j → j < i + n + 1 → ¬ IsClosingQuote s j := by
          intro j hj1 hj2 hclose
          by_cases hjn : j = i + n
          · rw [hjn] at hclose
            exact hev hclose.2.2.2
          · exact hfirst j hj1 (by omega) hclose.2.2.1
        constructor
        · intro k hk hk_close hmin
          have hk' : i + n + 1 ≤ k := by
            by_contra hlt'
            exact hnot k hk (by omega) hk_close
          exact ih1 k hk' hk_close (fun j hj1 hj2 => hmin j (by omega) hj2)
        · intro hnone
          exact ih2 (fun k hk => hnone k (by omega))

theorem scanString_of_closing {s : Str} {k : Nat} (hclose : IsClosingQuote s k)
    (hmin : ∀ j, j < k → ¬ IsClosingQuote s j) : scanString s = .ok (sliceTo s (k + 1)) := by
  have hlen : ¬ s.length < 2 := by
    have := hclose.1
    have := hclose.2.1
    omega
  unfold scanString
  rw [if_neg hlen]
  exact (scanStringLoop_spec s s.length 1 (le_refl 1) (le_refl _)).1 k hclose.1 hclose
    (fun j _ hj => hmin j hj)

theorem scanString_of_no_closing {s : Str} (hnone : ∀ k, ¬ IsClosingQuote s k) :
    ∃ e, scanString s = .error e ∧ e.isUnterminated = true := by
  unfold scanString
  by_cases hlen : s.length < 2
  · rw [if_pos hlen]
    exact ⟨_, rfl, rfl⟩
  · rw [if_neg hlen]
    exact ⟨_, (scanStringLoop_spec s s.length 1 (le_refl 1) (le_refl _)).2 (fun k _ => hnone k),
      rfl⟩

/-- C13. Quoted-string scanning: for `s` that begins with a quote character,
`scanString(s)` succeeds exactly when some index `k ≥ 1` holds the same quote
with an even number of consecutive backslashes immediately before it; it then
returns `s[0..k]` for the smallest such `k`, a token that begins and ends with
the quote; otherwise it fails with an unterminated-string error, as for `"abc`. -/
theorem scanString_closing_quote (s : Str) (h : isStringPrefix s = true) (k : Nat) :
    ((∃ tok, scanString s = .ok tok) ↔ ∃ k', IsClosingQuote s k') ∧
    (IsClosingQuote s k → (∀ j, j < k → ¬ IsClosingQuote s j) →
      scanString s = .ok (sliceTo s (k + 1)) ∧ (sliceTo s (k + 1)).length = k + 1 ∧
        isStringPrefix (sliceTo s (k + 1)) = true ∧
        (sliceTo s (k + 1)).getD 0 0 = s.getD 0 0 ∧
        (sliceTo s (k + 1)).getD k 0 = s.getD 0 0) ∧
    ((∀ k', ¬ IsClosingQuote s k') → ∃ e, scanString s = .error e ∧ e.isUnterminated = true) ∧
    (∃ e, scanString (bytes "\"abc") = .error e ∧ e.isUnterminated = true) := by
  refine ⟨?_, ?_, fun hnone => scanString_of_no_closing hnone, ?_⟩
  · constructor
    · rintro ⟨tok, htok⟩
      by_contra hnone
      obtain ⟨e, he, _⟩ := scanString_of_no_closing (fun k' hk' => hnone ⟨k', hk'⟩)
      rw [he] at htok
      exact Except.noConfusion htok
    · intro hex
      exact ⟨_, scanString_of_closing (Nat.find_spec hex) (fun j hj => Nat.find_min hex hj)⟩
  · intro hclose hmin
    obtain ⟨h1, h2, h3, _⟩ := hclose
    refine ⟨scanString_of_closing ⟨h1, h2, h3, by assumption⟩ hmin, ?_, ?_, ?_, ?_⟩
    · simp only [sliceTo, List.length_take]
      omega
    · obtain ⟨c, r, rfl⟩ := List.exists_cons_of_ne_nil (List.length_pos.1 (by omega : 0 < s.length))
      simpa [sliceTo, isStringPrefix] using h
    · simp only [sliceTo, List.getD_eq_getElem?_getD]
      rw [List.getElem?_take_of_lt (by omega)]
    · simp only [sliceTo, List.getD_eq_getElem?_getD]
      rw [List.getElem?_take_of_lt (by omega)]
      simpa only [List.getD_eq_getElem?_getD] using h3
  · exact scanString_of_no_closing (by
      intro k' hk'
      obtain ⟨h1, h2, h3, _⟩ := hk'
      have hlen : (bytes "\"abc").length = 4 := by decide
      rw [hlen] at h2
      interval_cases k' <;> revert h3 <;> decide)

/-- C13 on the input `"a\"b" c`: the quote at index 3 is escaped, the one at
index 5 closes the string, and the token is `"a\"b"`. -/
theorem scanString_closing_quote_witness :
    isStringPrefix (bytes "\"a\\\"b\" c") = true ∧
      IsClosingQuote (bytes "\"a\\\"b\" c") 5 ∧
      (∀ j, j < 5 → ¬ IsClosingQuote (bytes "\"a\\\"b\" c") j) ∧
      (scanString (bytes "\"a\\\"b\" c") = .ok (sliceTo (bytes "\"a\\\"b\" c") (5 + 1)) ∧
        (sliceTo (bytes "\"a\\\"b\" c") (5 + 1)).length = 5 + 1 ∧
        isStringPrefix (sliceTo (bytes "\"a\\\"b\" c") (5 + 1)) = true ∧
        (sliceTo (bytes "\"a\\\"b\" c") (5 + 1)).getD 0 0 = (bytes "\"a\\\"b\" c").getD 0 0 ∧
        (sliceTo (bytes "\"a\\\"b\" c") (5 + 1)).getD 5 0 = (bytes "\"a\\\"b\" c").getD 0 0) :=
  ⟨by decide, by decide, by decide,
    (scanString_closing_quote (bytes "\"a\\\"b\" c") (by decide) 5).2.1 (by decide)
      (by decide)⟩

/-! ## Separators -/

/-- Any two budgets above the length of the tail give the same result. -/
theorem nextLoop_fuel (f1 : Nat) :
    ∀ (f2 : Nat) (lex : Lexer), lex.sTail.length < f1 → lex.sTail.length < f2 →
      Lexer.nextLoop f1 lex = Lexer.nextLoop f2 lex := by
  induction f1 with
  | zero => intro f2 lex h; omega
  | succ g ih =>
    intro f2 lex h1 h2
    obtain ⟨g2, rfl⟩ : ∃ g2, f2 = g2 + 1 := ⟨f2 - 1, by omega⟩
    have hsplit := takeWhile_append_sliceFrom lex.sTail
    simp only [Lexer.nextLoop]
    split
    · rfl
    · next s0 rest hcons =>
      rw [hcons] at hsplit
      have hrest : rest.length < lex.sTail.length := by
        rw [hsplit]
        simp
        omega
      split_ifs
      · split
        · rfl
        · apply ih
          · simp only [sliceFrom, List.length_drop]; omega
          · simp only [sliceFrom, List.length_drop]; omega
      all_goals rfl

/-- The part of a result of `lexer.next` that does not depend on the other
fields of the lexer: the new tail, the token and the error. -/
theorem nextLoop_tail_only (fuel : Nat) :
    ∀ (lex1 lex2 : Lexer), lex1.sTail = lex2.sTail →
      (Lexer.nextLoop fuel lex1).map (fun r => (r.1.sTail, r.2.1, r.2.2)) =
        (Lexer.nextLoop fuel lex2).map (fun r => (r.1.sTail, r.2.1, r.2.2)) := by
  induction fuel with
  | zero => intro lex1 lex2 _; rfl
  | succ f ih =>
    intro lex1 lex2 h
    simp only [Lexer.nextLoop, h]
    split
    · rfl
    · split_ifs
      · split
        · rfl
        · exact ih _ _ rfl
      · rfl
      · split <;> rfl
      · split <;> rfl
      · rfl
      · rfl
      · rfl
      · split <;> rfl
      · rfl

theorem takeWhile_append_stop (p : Nat → Bool) (d : Str) (u : Nat) (t : Str)
    (hd : ∀ c ∈ d, p c = true) (hu : p u = false) : (d ++ u :: t).takeWhile p = d := by
  induction d with
  | nil => simp [List.takeWhile_cons, hu]
  | cons c r ih =>
    have hc : p c = true := hd c (by simp)
    have hr : ∀ x ∈ r, p x = true := fun x hx => hd x (by simp [hx])
    simp [List.takeWhile_cons, hc, ih hr]

/-- One pass of `lexer.next` over whitespace and a comment that ends in a
newline: the scan starts again on the text after the newline. -/
theorem nextLoop_comment (f : Nat) (lex : Lexer) (w c rest : Str)
    (hw : ∀ x ∈ w, isSpaceChar x = true) (hc : ∀ x ∈ c, x ≠ 10)
    (htail : lex.sTail = w ++ 35 :: (c ++ 10 :: rest)) :
    Lexer.nextLoop (f + 1) lex = Lexer.nextLoop f { lex with sTail := rest } := by
  have htw : lex.sTail.takeWhile isSpaceChar = w := by
    rw [htail]
    exact takeWhile_append_stop isSpaceChar w 35 _ hw (by decide)
  have hs : sliceFrom lex.sTail (lex.sTail.takeWhile isSpaceChar).length =
      35 :: (c ++ 10 :: rest) := by
    rw [htw, htail]
    simp [sliceFrom]
  have hidx : indexByte (c ++ 10 :: rest) 10 = some c.length := indexByte_append_cons rest hc
  simp only [Lexer.nextLoop, hs, if_true, hidx]
  simp [sliceFrom]

theorem NextOutcome_of_next {a b : Lexer} (ha : a.scansNewText = true)
    (hb : b.scansNewText = true) (htok : a.Token = b.Token)
    (h : (Lexer.next { a with prevTokens := a.prevTokens ++ [a.Token] }).map
          (fun r => (r.1.sTail, r.2.1, r.2.2)) =
        (Lexer.next { b with prevTokens := b.prevTokens ++ [b.Token] }).map
          (fun r => (r.1.sTail, r.2.1, r.2.2))) :
    a.NextOutcome = b.NextOutcome := by
  obtain ⟨tokA, prevA, nextA, origA, tailA, errA⟩ := a
  obtain ⟨tokB, prevB, nextB, origB, tailB, errB⟩ := b
  simp only [Lexer.scansNewText, Bool.and_eq_true, Option.isNone_iff_eq_none,
    List.isEmpty_iff] at ha hb
  obtain ⟨rfl, rfl⟩ := ha
  obtain ⟨rfl, rfl⟩ := hb
  simp only at htok h
  subst htok
  simp only [Lexer.NextOutcome, Lexer.Next, List.getLast?_nil]
  generalize hna : Lexer.next (Lexer.mk tokA (prevA ++ [tokA]) [] origA tailA none) = ra at h ⊢
  generalize hnb : Lexer.next (Lexer.mk tokA (prevB ++ [tokA]) [] origB tailB none) = rb at h ⊢
  cases ra with
  | none =>
    cases rb with
    | none => rfl
    | some rb => simp at h
  | some ra =>
    cases rb with
    | none => simp at h
    | some rb =>
      obtain ⟨la, ta, ea⟩ := ra
      obtain ⟨lb, tb, eb⟩ := rb
      simp only [Option.map_some', Option.some.injEq, Prod.mk.injEq] at h
      obtain ⟨h1, h2, h3⟩ := h
      have hla := (next_spec hna).1
      have hlb := (next_spec hnb).1
      subst h2 h3
      cases ea with
      | none =>
        simp only [Option.map_some', Option.some.injEq, Prod.mk.injEq, true_and]
        exact h1
      | some e =>
        simp only [Option.map_some', Option.some.injEq, Prod.mk.injEq, true_and, and_true]
        refine ⟨?_, h1⟩
        rw [hla, hlb]

/-- C14. Separators are never emitted: for whitespace `w`, a comment text `c`
without newline and any `rest`, the first `Next` of a lexer initialised with
`w ++ "#" ++ c ++ "\n" ++ rest` gives the same token, the same error and the
same unconsumed tail as the first `Next` of a lexer initialised with `rest`;
and `# comment\n123` gives the token `123` and then end of input. -/
theorem separators_not_emitted (lex0 : Lexer) (w c rest : Str)
    (hw : ∀ x ∈ w, isSpaceChar x = true) (hc : ∀ x ∈ c, x ≠ 10) :
    (lex0.Init (w ++ bytes "#" ++ c ++ bytes "\n" ++ rest)).NextOutcome =
        (lex0.Init rest).NextOutcome ∧
      (Lexer.zero.Init (bytes "# comment\n123")).NextOutcome = some (bytes "123", none, []) ∧
      ((Lexer.zero.Init (bytes "# comment\n123")).NextN 2).map
          (fun l => (l.Token, l.sTail, l.prevTokens)) =
        some ([], [], [[], bytes "123"]) := by
  refine ⟨?_, by decide, by decide⟩
  refine NextOutcome_of_next (by rfl) (by rfl) (by rfl) ?_
  have hX : w ++ bytes "#" ++ c ++ bytes "\n" ++ rest = w ++ 35 :: (c ++ 10 :: rest) := by
    have h1 : bytes "#" = [35] := by decide
    have h2 : bytes "\n" = [10] := by decide
    rw [h1, h2]
    simp
  rw [hX]
  simp only [Lexer.next, Lexer.Init]
  rw [nextLoop_comment _ _ w c rest hw hc rfl]
  rw [nextLoop_fuel _ (rest.length + 1) _ (by simp; omega) (by simp)]
  exact nextLoop_tail_only _ _ _ rfl

/-- C14 with the whitespace ` \t`, the comment text ` c` and the rest `x y`. -/
theorem separators_not_emitted_witness :
    (∀ x ∈ bytes " \t", isSpaceChar x = true) ∧ (∀ x ∈ bytes " c", x ≠ 10) ∧
      ((Lexer.zero.Init (bytes " \t" ++ bytes "#" ++ bytes " c" ++ bytes "\n" ++
            bytes "x y")).NextOutcome =
          (Lexer.zero.Init (bytes "x y")).NextOutcome ∧
        (Lexer.zero.Init (bytes "# comment\n123")).NextOutcome = some (bytes "123", none, []) ∧
        ((Lexer.zero.Init (bytes "# comment\n123")).NextN 2).map
            (fun l => (l.Token, l.sTail, l.prevTokens)) =
          some ([], [], [[], bytes "123"])) :=
  ⟨by decide, by decide,
    separators_not_emitted Lexer.zero (bytes " \t") (bytes " c") (bytes "x y") (by decide)
      (by decide)⟩

/-! ## Termination and progress -/

/-- A `Next` that scans new text and returns no error leaves a lexer whose
next `Next` scans new text again. -/
theorem Next_scan_state {lex lex' : Lexer} (hscan : lex.scansNewText = true)
    (h : lex.Next = some (lex', none)) : lex'.scansNewText = true := by
  obtain ⟨tok, prev, nxt, orig, tail, err⟩ := lex
  simp only [Lexer.scansNewText, Bool.and_eq_true, Option.isNone_iff_eq_none,
    List.isEmpty_iff] at hscan
  obtain ⟨rfl, rfl⟩ := hscan
  simp only [Lexer.Next, List.getLast?_nil] at h
  split at h
  · simp at h
  · simp at h
  · next l2 t2 hnext =>
    simp only [Option.some.injEq, Prod.mk.injEq, and_true] at h
    have hl := (next_spec hnext).1
    rw [← h, hl]
    rfl

theorem Next_scan_progress {lex lex' : Lexer} (hscan : lex.scansNewText = true)
    (h : lex.Next = some (lex', none)) (htok : lex'.Token ≠ []) :
    lex'.sTail.length < lex.sTail.length := by
  obtain ⟨w, _, htail⟩ := Next_scan hscan h
  rw [htail]
  have := List.length_pos.2 htok
  simp only [List.length_append]
  omega

/-- From a lexer that scans new text, at most `len(sTail) + 1` calls of `Next`
are needed to meet an error or the empty token. -/
theorem NextN_reaches_end (m : Nat) :
    ∀ lex : Lexer, lex.scansNewText = true → lex.sTail.length ≤ m →
      ∃ n, n ≤ m ∧ ∃ (mid last : Lexer) (e : Option LexError),
        lex.NextN n = some mid ∧ mid.Next = some (last, e) ∧
          (e.isSome = true ∨ last.Token = []) := by
  induction m with
  | zero =>
    intro lex hscan hlen
    have hsome := Next_isSome lex
    cases hN : lex.Next with
    | none => simp [hN] at hsome
    | some r =>
      obtain ⟨last, e⟩ := r
      refine ⟨0, le_refl 0, lex, last, e, rfl, hN, ?_⟩
      cases e with
      | some e1 => exact Or.inl rfl
      | none =>
        right
        by_contra htok
        have := Next_scan_progress hscan hN htok
        omega
  | succ k ih =>
    intro lex hscan hlen
    have hsome := Next_isSome lex
    cases hN : lex.Next with
    | none => simp [hN] at hsome
    | some r =>
      obtain ⟨last, e⟩ := r
      cases e with
      | some e1 => exact ⟨0, Nat.zero_le _, lex, last, some e1, rfl, hN, Or.inl rfl⟩
      | none =>
        by_cases htok : last.Token = []
        · exact ⟨0, Nat.zero_le _, lex, last, none, rfl, hN, Or.inr htok⟩
        · have hprog := Next_scan_progress hscan hN htok
          obtain ⟨n, hn, mid, last', e', h1, h2, h3⟩ :=
            ih last (Next_scan_state hscan hN) (by omega)
          refine ⟨n + 1, by omega, mid, last', e', ?_, h2, h3⟩
          simp only [Lexer.NextN, hN]
          exact h1

/-- The budget `len(s)` of the loop of `scanString` is never used up: a larger
one gives the same result. -/
theorem scanStringLoop_fuel (s : Str) (extra : Nat) :
    scanStringLoop (s.length + extra) s (s.getD 0 0) 1 =
      scanStringLoop s.length s (s.getD 0 0) 1 := by
  obtain ⟨a1, a2⟩ := scanStringLoop_spec s (s.length + extra) 1 (le_refl 1) (by omega)
  obtain ⟨b1, b2⟩ := scanStringLoop_spec s s.length 1 (le_refl 1) (le_refl _)
  by_cases hex : ∃ k, IsClosingQuote s k
  · have hk := Nat.find_spec hex
    have hmin : ∀ j, 1 ≤ j → j < Nat.find hex → ¬ IsClosingQuote s j :=
      fun j _ hj => Nat.find_min hex hj
    rw [a1 _ hk.1 hk hmin, b1 _ hk.1 hk hmin]
  · have hnone : ∀ k, 1 ≤ k → ¬ IsClosingQuote s k := fun k _ hk => hex ⟨k, hk⟩
    rw [a2 hnone, b2 hnone]

/-- C15. Scanning terminates with progress: every call of `Next` returns; the
budgets of the comment loop of `lexer.next` and of the loop of `scanString` are
never used up (a larger budget changes nothing); a `Next` that scans new text
and returns a non-empty token without error leaves a strictly shorter tail; and
after `Init(s)` one of the first `len(s) + 1` calls of `Next` returns an error or
the empty end-of-input token. -/
theorem Next_terminates_with_progress (lex0 lex : Lexer) (s : Str) (extra : Nat) :
    lex.Next.isSome = true ∧
    Lexer.nextLoop (lex.sTail.length + 1 + extra) lex = lex.next ∧
    scanStringLoop (s.length + extra) s (s.getD 0 0) 1 =
      scanStringLoop s.length s (s.getD 0 0) 1 ∧
    (∀ lex' : Lexer, lex.scansNewText = true → lex.Next = some (lex', none) →
      lex'.Token ≠ [] → lex'.sTail.length < lex.sTail.length) ∧
    (∃ n, n ≤ s.length ∧ ∃ (mid last : Lexer) (e : Option LexError),
      (lex0.Init s).NextN n = some mid ∧ mid.Next = some (last, e) ∧
        (e.isSome = true ∨ last.Token = [])) :=
  ⟨Next_isSome lex, nextLoop_fuel _ _ lex (by omega) (by omega), scanStringLoop_fuel s extra,
    fun _ hscan h htok => Next_scan_progress hscan h htok,
    NextN_reaches_end s.length (lex0.Init s) rfl (le_refl _)⟩

/-! ## Evaluation of comparisons -/

theorem evalCmp_eq_comparisonResult {F : Type} (fo : Float64Ops F) (left right : F)
    (isBool : Bool) (cf : F → F → Bool) :
    evalCmp fo left right isBool cf = comparisonResult fo (cf left right) left isBool := rfl

/-- C16. Comparison evaluation: for each of `==`, `!=`, `>`, `<`, `>=`, `<=`,
`binaryOpEval` returns, with `isBool`, 1 when the comparison of `left` and
`right` holds and 0 when not, and without `isBool`, `left` when it holds and NaN
when not.  With the comparisons of `float64`: `==` on 3 and 3 without `isBool`
gives 3, on 3 and 4 it gives NaN, and on 3 and 4 with `isBool` it gives 0. -/
theorem binaryOpEval_comparison {F : Type} (fo : Float64Ops F) (left right : F) (isBool : Bool)
    (other : Float64Ops F64) :
    binaryOpEval fo (bytes "==") left right isBool =
      some (comparisonResult fo (fo.Eq left right) left isBool) ∧
    binaryOpEval fo (bytes "!=") left right isBool =
      some (comparisonResult fo (fo.Neq left right) left isBool) ∧
    binaryOpEval fo (bytes ">") left right isBool =
      some (comparisonResult fo (fo.Gt left right) left isBool) ∧
    binaryOpEval fo (bytes "<") left right isBool =
      some (comparisonResult fo (fo.Lt left right) left isBool) ∧
    binaryOpEval fo (bytes ">=") left right isBool =
      some (comparisonResult fo (fo.Gte left right) left isBool) ∧
    binaryOpEval fo (bytes "<=") left right isBool =
      some (comparisonResult fo (fo.Lte left right) left isBool) ∧
    binaryOpEval (binaryopModel other) (bytes "==") (.finite 3) (.finite 3) false =
      some (.finite 3) ∧
    binaryOpEval (binaryopModel other) (bytes "==") (.finite 3) (.finite 4) false = some .nan ∧
    binaryOpEval (binaryopModel other) (bytes "==") (.finite 3) (.finite 4) true =
      some (.finite 0) := by
  have e1 : bytes "==" = [61, 61] := by decide
  have e2 : bytes "!=" = [33, 61] := by decide
  have e3 : bytes ">" = [62] := by decide
  have e4 : bytes "<" = [60] := by decide
  have e5 : bytes ">=" = [62, 61] := by decide
  have e6 : bytes "<=" = [60, 61] := by decide
  have h33 : F64.eq (.finite 3) (.finite 3) = true := by simp [F64.eq]
  have h34 : F64.eq (.finite 3) (.finite 4) = false := by
    simp only [F64.eq, decide_eq_false_iff_not]
    norm_num
  refine ⟨?_, ?_, ?_, ?_, ?_, ?_, ?_, ?_, ?_⟩
  · simp [binaryOpEval, IsBinaryOpCmp, e1, e2, e3, e4, e5, e6, evalCmp_eq_comparisonResult]
  · simp [binaryOpEval, IsBinaryOpCmp, e1, e2, e3, e4, e5, e6, evalCmp_eq_comparisonResult]
  · simp [binaryOpEval, IsBinaryOpCmp, e1, e2, e3, e4, e5, e6, evalCmp_eq_comparisonResult]
  · simp [binaryOpEval, IsBinaryOpCmp, e1, e2, e3, e4, e5, e6, evalCmp_eq_comparisonResult]
  · simp [binaryOpEval, IsBinaryOpCmp, e1, e2, e3, e4, e5, e6, evalCmp_eq_comparisonResult]
  · simp [binaryOpEval, IsBinaryOpCmp, e1, e2, e3, e4, e5, e6, evalCmp_eq_comparisonResult]
  · simp [binaryOpEval, IsBinaryOpCmp, e1, evalCmp, binaryopModel, h33]
  · simp [binaryOpEval, IsBinaryOpCmp, e1, evalCmp, binaryopModel, h34]
  · simp [binaryOpEval, IsBinaryOpCmp, e1, evalCmp, binaryopModel, h34]

/-! ## Number literals -/

theorem takeWhile_eq_take (p : Nat → Bool) (l : Str) :
    l.takeWhile p = l.take (l.takeWhile p).length := by
  induction l with
  | nil => rfl
  | cons c r ih =>
    by_cases hc : p c = true
    · simp only [List.takeWhile_cons, hc, if_true, List.length_cons, List.take_succ_cons]
      rw [← ih]
    · simp [List.takeWhile_cons, hc]

theorem getD_of_drop {s : Str} {m c : Nat} {r : Str} (h : s.drop m = c :: r) :
    s.getD m 0 = c := by
  have := getD_drop s m 0
  rw [h] at this
  simpa using this.symm

theorem drop_succ_of_drop {s : Str} {m c : Nat} {r : Str} (h : s.drop m = c :: r) :
    s.drop (m + 1) = r := by
  rw [← List.drop_drop, h]
  rfl

theorem drop_add_of_drop {s : Str} {m : Nat} {a r : Str} (h : s.drop m = a ++ r) :
    s.drop (m + a.length) = r := by
  rw [← List.drop_drop, h]
  simp

theorem take_add_of_drop {s : Str} {m : Nat} {a r : Str} (h : s.drop m = a ++ r) :
    s.take (m + a.length) = s.take m ++ a := by
  rw [List.take_add, h]
  simp

theorem lt_length_of_drop {s : Str} {m c : Nat} {r : Str} (h : s.drop m = c :: r) :
    m < s.length := by
  by_contra hge
  rw [List.drop_of_length_le (by omega)] at h
  exact List.noConfusion h

theorem length_of_drop {s : Str} {m : Nat} {r : Str} (h : s.drop m = r) (hm : m ≤ s.length) :
    s.length = m + r.length := by
  rw [← h, List.length_drop]
  omega

/-- The exponent part of `scanPositiveNumber`, entered after a mantissa of
`m < len(s)` bytes, against the exponent of the specification. -/
theorem scanPositiveNumberExp_eq (s : Str) (m : Nat) (hm : m < s.length) :
    scanPositiveNumberExp s m =
      match exponentPart (s.drop m) with
      | none => .error (.missingExponentPart s)
      | some ex => .ok (s.take m ++ ex) := by
  obtain ⟨c, r', hdrop⟩ : ∃ c r', s.drop m = c :: r' := by
    cases hd : s.drop m with
    | nil =>
      have := List.drop_eq_nil_iff.1 hd
      omega
    | cons c r' => exact ⟨c, r', rfl⟩
  have hget := getD_of_drop hdrop
  have hdrop1 := drop_succ_of_drop hdrop
  unfold scanPositiveNumberExp
  rw [hdrop, hget]
  by_cases hmark : c = 101 ∨ c = 69
  · have hnot : ¬ (c ≠ 101 ∧ c ≠ 69) := by
      rcases hmark with h | h <;> simp [h]
    simp only [hnot, if_false, exponentPart, hmark, if_true]
    cases r' with
    | nil =>
      have hlen : m + 1 = s.length := by
        have := length_of_drop hdrop (by omega)
        simp at this
        omega
      simp [hlen]
    | cons g r'' =>
      have hlen : ¬ m + 1 = s.length := by
        have := length_of_drop hdrop (by omega)
        simp at this
        omega
      have hget1 : s.getD (m + 1) 0 = g := getD_of_drop hdrop1
      simp only [hlen, if_false, hget1]
      by_cases hsign : g = 45 ∨ g = 43
      · simp only [hsign, if_true, List.length_singleton, List.drop_succ_cons, List.drop_zero]
        have hdrop2 : s.drop (m + 1 + 1) = r'' := drop_succ_of_drop hdrop1
        have hskip : skipDecimalChars s (m + 1 + 1) =
            m + 1 + 1 + (r''.takeWhile isDecimalChar).length := by
          simp only [skipDecimalChars, sliceFrom, hdrop2]
        rw [hskip]
        by_cases hds : r''.takeWhile isDecimalChar = []
        · simp [hds]
        · have hpos : 0 < (r''.takeWhile isDecimalChar).length := List.length_pos.2 hds
          have hne : ¬ (m + 1 + 1 + (r''.takeWhile isDecimalChar).length = m + 1 + 1) := by omega
          simp only [hne, if_false, hds, sliceTo]
          have hsplit : s.drop m = (c :: g :: r''.takeWhile isDecimalChar) ++
              r''.drop (r''.takeWhile isDecimalChar).length := by
            rw [hdrop]
            simp only [List.cons_append, List.cons.injEq, true_and]
            conv_lhs => rw [← List.take_append_drop (r''.takeWhile isDecimalChar).length r'']
            rw [← takeWhile_eq_take]
          have := take_add_of_drop hsplit
          simp only [List.length_cons] at this
          rw [show m + 1 + 1 + (r''.takeWhile isDecimalChar).length =
            m + ((r''.takeWhile isDecimalChar).length + 1 + 1) by omega, this]
          simp
      · simp only [hsign, if_false, List.length_nil, List.drop_zero]
        have hskip : skipDecimalChars s (m + 1) =
            m + 1 + ((g :: r'').takeWhile isDecimalChar).length := by
          simp only [skipDecimalChars, sliceFrom, hdrop1]
        rw [hskip]
        by_cases hds : (g :: r'').takeWhile isDecimalChar = []
        · simp [hds]
        · have hpos : 0 < ((g :: r'').takeWhile isDecimalChar).length := List.length_pos.2 hds
          have hne : ¬ (m + 1 + ((g :: r'').takeWhile isDecimalChar).length = m + 1) := by omega
          simp only [hne, if_false, hds, sliceTo]
          have hsplit : s.drop m = (c :: (g :: r'').takeWhile isDecimalChar) ++
              (g :: r'').drop ((g :: r'').takeWhile isDecimalChar).length := by
            rw [hdrop]
            simp only [List.cons_append, List.cons.injEq, true_and]
            conv_lhs =>
              rw [← List.take_append_drop ((g :: r'').takeWhile isDecimalChar).length (g :: r'')]
            rw [← takeWhile_eq_take]
          have := take_add_of_drop hsplit
          simp only [List.length_cons] at this
          rw [show m + 1 + ((g :: r'').takeWhile isDecimalChar).length =
            m + (((g :: r'').takeWhile isDecimalChar).length + 1) by omega, this]
          simp
  · have hyes : c ≠ 101 ∧ c ≠ 69 := by
      constructor
      · intro h; exact hmark (Or.inl h)
      · intro h; exact hmark (Or.inr h)
    simp [hyes, exponentPart, hmark, sliceTo]

/-- Function `scanPositiveNumber` against the number literal of the
specification, on a non-empty string. -/
theorem scanPositiveNumber_eq (s : Str) (hne : s ≠ []) :
    scanPositiveNumber s =
      if hasDotWithoutDigit s = true then .error (.missingFractionalPart s)
      else
        match exponentPart (s.drop (numberMantissa s).length) with
        | none => .error (.missingExponentPart s)
        | some ex => .ok (numberMantissa s ++ ex) := by
  have hskip0 : skipDecimalChars s 0 = (s.takeWhile isDecimalChar).length := by
    simp [skipDecimalChars, sliceFrom]
  have hdrop0 := drop_takeWhile_length isDecimalChar s
  have hip : s.take (s.takeWhile isDecimalChar).length = s.takeWhile isDecimalChar :=
    (takeWhile_eq_take isDecimalChar s).symm
  have hlen0 : 0 < s.length := List.length_pos.2 hne
  unfold scanPositiveNumber
  simp only [hskip0]
  cases hr1 : s.dropWhile isDecimalChar with
  | nil =>
    rw [hr1] at hdrop0
    have hlen : (s.takeWhile isDecimalChar).length = s.length := by
      have := List.drop_eq_nil_iff.1 hdrop0
      have := (List.takeWhile_sublist isDecimalChar : List.Sublist (s.takeWhile isDecimalChar) s).length_le
      omega
    have hi0 : ¬ (s.takeWhile isDecimalChar).length = 0 := by omega
    have hall : s.takeWhile isDecimalChar = s := by
      rw [← hip, hlen, List.take_length]
    simp only [hlen, if_true, hasDotWithoutDigit, hr1, numberMantissa, numberIntPart,
      Bool.false_eq_true, if_false, List.drop_length, exponentPart, List.append_nil, hall]
    rw [if_neg (by omega)]
  | cons c r =>
    rw [hr1] at hdrop0
    have hlt := lt_length_of_drop hdrop0
    have hget := getD_of_drop hdrop0
    have hlen : ¬ (s.takeWhile isDecimalChar).length = s.length := by omega
    simp only [hlen, if_false, hget]
    by_cases hdot : c = 46
    · subst hdot
      have hdrop1 := drop_succ_of_drop hdrop0
      have hskip1 : skipDecimalChars s ((s.takeWhile isDecimalChar).length + 1) =
          (s.takeWhile isDecimalChar).length + 1 + (r.takeWhile isDecimalChar).length := by
        simp only [skipDecimalChars, sliceFrom, hdrop1]
      simp only [show ¬ ((46 : Nat) ≠ 46 ∧ (46 : Nat) ≠ 101 ∧ (46 : Nat) ≠ 69) by decide,
        if_false, if_true, hskip1, hasDotWithoutDigit, hr1, decide_True, Bool.true_and,
        List.isEmpty_iff]
      by_cases hfp : r.takeWhile isDecimalChar = []
      · simp [hfp]
      · have hpos : 0 < (r.takeWhile isDecimalChar).length := List.length_pos.2 hfp
        have hne1 : ¬ ((s.takeWhile isDecimalChar).length + 1 + (r.takeWhile isDecimalChar).length =
            (s.takeWhile isDecimalChar).length + 1) := by omega
        have hmant : numberMantissa s =
            s.takeWhile isDecimalChar ++ 46 :: r.takeWhile isDecimalChar := by
          simp [numberMantissa, numberIntPart, hr1]
        have hmlen : (numberMantissa s).length =
            (s.takeWhile isDecimalChar).length + 1 + (r.takeWhile isDecimalChar).length := by
          rw [hmant]
          simp
          omega
        have hsplit : s.drop (s.takeWhile isDecimalChar).length =
            (46 :: r.takeWhile isDecimalChar) ++ r.drop (r.takeWhile isDecimalChar).length := by
          rw [hdrop0]
          simp only [List.cons_append, List.cons.injEq, true_and]
          conv_lhs => rw [← List.take_append_drop (r.takeWhile isDecimalChar).length r]
          rw [← takeWhile_eq_take]
        have htake := take_add_of_drop hsplit
        simp only [List.length_cons, hip] at htake
        have htake' : s.take (numberMantissa s).length = numberMantissa s := by
          rw [hmlen, hmant, show (s.takeWhile isDecimalChar).length + 1 +
            (r.takeWhile isDecimalChar).length = (s.takeWhile isDecimalChar).length +
              ((r.takeWhile isDecimalChar).length + 1) by omega, htake]
        simp only [hne1, hfp, if_false]
        rw [← hmlen]
        by_cases hend : (numberMantissa s).length = s.length
        · have hnil : s.drop (numberMantissa s).length = [] := by
            rw [hend, List.drop_length]
          have hs : numberMantissa s = s := by
            rw [← htake', hend, List.take_length]
          simp only [hend, if_true, List.drop_length, exponentPart, List.append_nil]
          rw [hs]
        · have hlt' : (numberMantissa s).length < s.length := by
            have : (numberMantissa s).length ≤ s.length := by
              rw [← htake', List.length_take]
              omega
            omega
          simp only [hend, if_false]
          rw [scanPositiveNumberExp_eq s _ hlt', htake']
    · have hmant : numberMantissa s = s.takeWhile isDecimalChar := by
        simp [numberMantissa, numberIntPart, hr1, hdot]
      have hdotF : hasDotWithoutDigit s = false := by
        simp [hasDotWithoutDigit, hr1, hdot]
      simp only [hdotF, Bool.false_eq_true, if_false, hmant, hdrop0]
      by_cases hmark : c = 101 ∨ c = 69
      · have hnot : ¬ (c ≠ 46 ∧ c ≠ 101 ∧ c ≠ 69) := by
          rcases hmark with h | h <;> simp [h]
        simp only [hnot, if_false, hdot]
        rw [scanPositiveNumberExp_eq s _ hlt, hdrop0, hip]
      · have hyes : c ≠ 46 ∧ c ≠ 101 ∧ c ≠ 69 :=
          ⟨hdot, fun h => hmark (Or.inl h), fun h => hmark (Or.inr h)⟩
        simp [hyes, exponentPart, hmark, sliceTo, hip]

theorem numberMantissa_ne_nil {s : Str} (h : isPositiveNumberPrefix s = true) :
    numberMantissa s ≠ [] := by
  cases s with
  | nil => simp [isPositiveNumberPrefix] at h
  | cons c r =>
    by_cases hc : isDecimalChar c = true
    · have hip : numberIntPart (c :: r) ≠ [] := by
        simp [numberIntPart, List.takeWhile_cons, hc]
      unfold numberMantissa
      split
      · split_ifs
        · simp
        · exact hip
      · exact hip
    · have hc46 : c = 46 := by
        by_contra h46
        simp [isPositiveNumberPrefix, hc, h46] at h
      subst hc46
      simp [numberMantissa, List.dropWhile_cons, show isDecimalChar 46 = false by decide]

/-- C17. Positive-number scanning: for `s` that starts with a decimal digit, or
with `.` and a decimal digit, `scanPositiveNumber(s)` fails exactly when the
integer digits are followed by `.` with no digit after it, or the mantissa is
followed by `e` or `E` without an optional sign and at least one digit;
otherwise it returns the number literal with which `s` begins, each digit run
taken maximally: a non-empty prefix of `s`, whose integer part is empty only if
a fractional part follows. -/
theorem scanPositiveNumber_grammar (s : Str) (h : isPositiveNumberPrefix s = true) :
    ((∃ e, scanPositiveNumber s = .error e) ↔
      (hasDotWithoutDigit s = true ∨ hasBadExponent s = true)) ∧
    (∀ tok, scanPositiveNumber s = .ok tok ↔ numberToken s = some tok) ∧
    (∀ tok, numberToken s = some tok → tok ≠ [] ∧ tok <+: s) ∧
    (numberIntPart s = [] →
      ∃ d r, s = 46 :: d :: r ∧ isDecimalChar d = true ∧
        numberMantissa s = 46 :: (d :: r).takeWhile isDecimalChar) := by
  have hne : s ≠ [] := by
    rintro rfl
    simp [isPositiveNumberPrefix] at h
  have heq := scanPositiveNumber_eq s hne
  have htok : ∀ tok, scanPositiveNumber s = .ok tok ↔ numberToken s = some tok := by
    intro tok
    rw [heq]
    unfold numberToken
    by_cases hdot : hasDotWithoutDigit s = true
    · simp [hdot]
    · simp only [hdot, if_false]
      cases exponentPart (s.drop (numberMantissa s).length) with
      | none => simp
      | some ex => simp
  refine ⟨?_, htok, ?_, ?_⟩
  · rw [heq]
    unfold hasBadExponent
    by_cases hdot : hasDotWithoutDigit s = true
    · simp [hdot]
    · simp only [hdot, if_false]
      cases exponentPart (s.drop (numberMantissa s).length) with
      | none => simp
      | some ex => simp
  · intro tok hnum
    have hok := (htok tok).2 hnum
    obtain ⟨k, hk⟩ := scanPositiveNumber_is_take hok
    refine ⟨?_, ?_⟩
    · unfold numberToken at hnum
      split_ifs at hnum
      simp only [Option.map_eq_some'] at hnum
      obtain ⟨ex, _, rfl⟩ := hnum
      intro hnil
      exact numberMantissa_ne_nil h (List.append_eq_nil.1 hnil).1
    · rw [hk]
      exact List.take_prefix _ _
  · intro hip
    cases s with
    | nil => exact absurd rfl hne
    | cons c r =>
      have hc : isDecimalChar c = false := by
        by_contra hc
        simp [numberIntPart, List.takeWhile_cons, hc] at hip
      have hc46 : c = 46 := by
        by_contra h46
        simp [isPositiveNumberPrefix, hc, h46] at h
      subst hc46
      cases r with
      | nil =>
        simp [isPositiveNumberPrefix] at h
        rw [h] at hc
        exact Bool.noConfusion hc
      | cons d r' =>
        refine ⟨d, r', rfl, ?_, ?_⟩
        · simpa [isPositiveNumberPrefix, hc] using h
        · simp [numberMantissa, numberIntPart, List.dropWhile_cons, List.takeWhile_cons, hc]

/-- C17 on the input `1.5e-3x`, whose number literal is `1.5e-3`. -/
theorem scanPositiveNumber_grammar_witness :
    isPositiveNumberPrefix (bytes "1.5e-3x") = true ∧
      numberToken (bytes "1.5e-3x") = some (bytes "1.5e-3") ∧
      (((∃ e, scanPositiveNumber (bytes "1.5e-3x") = .error e) ↔
          (hasDotWithoutDigit (bytes "1.5e-3x") = true ∨
            hasBadExponent (bytes "1.5e-3x") = true)) ∧
        (∀ tok, scanPositiveNumber (bytes "1.5e-3x") = .ok tok ↔
          numberToken (bytes "1.5e-3x") = some tok) ∧
        (∀ tok, numberToken (bytes "1.5e-3x") = some tok →
          tok ≠ [] ∧ tok <+: bytes "1.5e-3x") ∧
        (numberIntPart (bytes "1.5e-3x") = [] →
          ∃ d r, bytes "1.5e-3x" = 46 :: d :: r ∧ isDecimalChar d = true ∧
            numberMantissa (bytes "1.5e-3x") = 46 :: (d :: r).takeWhile isDecimalChar)) :=
  ⟨by decide, by decide, scanPositiveNumber_grammar (bytes "1.5e-3x") (by decide)⟩

/-! ## A comment at the end of the input -/

/-- C18 at the inputs ` # c` and `#`: `Next` returns the empty token and no
error, but the unconsumed tail still holds the comment, from the `#` on, and
`Context()` returns it.  The return for a comment without newline comes before
the assignment to `sTail` that the branch for a comment with newline makes. -/
theorem Next_trailing_comment_keeps_tail :
    (Lexer.zero.Init (bytes " # c")).Next =
        some ({ Token := [], prevTokens := [[]], nextTokens := [], sOrig := bytes " # c",
                sTail := bytes "# c", err := none }, none) ∧
      Lexer.Context { Token := [], prevTokens := [[]], nextTokens := [], sOrig := bytes " # c",
                      sTail := bytes "# c", err := none } = bytes "# c" ∧
      (Lexer.zero.Init (bytes "#")).Next =
        some ({ Token := [], prevTokens := [[]], nextTokens := [], sOrig := bytes "#",
                sTail := bytes "#", err := none }, none) ∧
      (Lexer.zero.Init (bytes " # c\n")).Next =
        some ({ Token := [], prevTokens := [[]], nextTokens := [], sOrig := bytes " # c\n",
                sTail := [], err := none }, none) := by
  decide

/-! ## An escaped identifier is one token -/

theorem scanIdentLoop_cons (c : Nat) (r : Str) :
    scanIdentLoop (c :: r) =
      if isIdentChar c then 1 + scanIdentLoop r
      else if c ≠ 92 then 0
      else
        match r with
        | [] => 1
        | _ :: r' => 2 + scanIdentLoop r' := by
  cases r with
  | nil => simp [scanIdentLoop]
  | cons d r' => simp [scanIdentLoop]

set_option maxRecDepth 100000 in
theorem toHex_isIdentChar : ∀ b, b < 256 →
    isIdentChar (toHex (b >>> 4)) = true ∧ isIdentChar (toHex (b &&& 15)) = true := by
  decide

theorem scanIdentLoop_escFrom (s : Str) (hs : IsBytes s) :
    ∀ i : Nat, scanIdentLoop (escFrom i s) = (escFrom i s).length := by
  induction s with
  | nil => intro i; rfl
  | cons ch rest ih =>
    intro i
    have hrest : IsBytes rest := fun b hb => hs b (by simp [hb])
    obtain ⟨hx1, hx2⟩ := toHex_isIdentChar ch (hs ch (by simp))
    have hhex : scanIdentLoop ([92, 120, toHex (ch >>> 4), toHex (ch &&& 15)] ++
        escFrom (i + 1) rest) =
        ([92, 120, toHex (ch >>> 4), toHex (ch &&& 15)] ++ escFrom (i + 1) rest).length := by
      simp only [List.cons_append, List.nil_append, scanIdentLoop_cons, isIdentChar_backslash,
        Bool.false_eq_true, if_false, ne_eq, not_true_eq_false, hx1, hx2, if_true, ih hrest,
        List.length_cons]
      omega
    simp only [escFrom, escAt]
    split_ifs with hid hfirst hpr
    · exact hhex
    · simp only [List.cons_append, List.nil_append, scanIdentLoop_cons, hid, if_true, ih hrest,
        List.length_cons]
      omega
    · simp only [List.cons_append, List.nil_append, scanIdentLoop_cons, isIdentChar_backslash,
        Bool.false_eq_true, if_false, ne_eq, not_true_eq_false, ih hrest, List.length_cons]
      omega
    · exact hhex

theorem isIdentPrefix_escFrom (s : Str) (hne : s ≠ []) : isIdentPrefix (escFrom 0 s) = true := by
  obtain ⟨ch, rest, rfl⟩ := List.exists_cons_of_ne_nil hne
  simp only [escFrom, escAt]
  split_ifs with hid hfirst hpr
  · rfl
  · have hf : isFirstIdentChar ch = true := by
      simpa using hfirst
    by_cases h92 : ch = 92
    · simp [isIdentPrefix, h92]
    · simp [isIdentPrefix, h92, hf]
  · rfl
  · rfl

theorem scanIdent_escFrom (s : Str) (hne : s ≠ []) (hs : IsBytes s) :
    scanIdent (escFrom 0 s) = some (escFrom 0 s) := by
  have hsome := scanIdent_isSome (isIdentPrefix_escFrom s hne)
  unfold scanIdent at hsome ⊢
  simp only [scanIdentLoop_escFrom s hs 0] at hsome ⊢
  split_ifs at hsome ⊢ with h0
  · simp at hsome
  · simp [sliceTo]

/-- A byte with which an identifier may begin is neither whitespace, nor `#`,
nor a punctuation byte. -/
theorem identStart_class (c : Nat) (h : c = 92 ∨ isFirstIdentChar c = true) :
    isSpaceChar c = false ∧ c ≠ 35 ∧
      ¬ (c = 123 ∨ c = 125 ∨ c = 91 ∨ c = 93 ∨ c = 40 ∨ c = 41 ∨ c = 44) := by
  have hrange : c = 92 ∨ (97 ≤ c ∧ c ≤ 122) ∨ (65 ≤ c ∧ c ≤ 90) ∨ c = 95 ∨ c = 58 := by
    rcases h with h | h
    · exact Or.inl h
    · right
      unfold isFirstIdentChar at h
      split_ifs at h with h1
      · simp only [Bool.or_eq_true, Bool.and_eq_true, decide_eq_true_eq] at h1
        rcases h1 with h1 | h1
        · exact Or.inl h1
        · exact Or.inr (Or.inl h1)
      · simp only [Bool.or_eq_true, decide_eq_true_eq] at h
        rcases h with h | h
        · exact Or.inr (Or.inr (Or.inl h))
        · exact Or.inr (Or.inr (Or.inr h))
  refine ⟨?_, by omega, by omega⟩
  simp only [isSpaceChar, Bool.or_eq_false_iff, decide_eq_false_iff_not]
  omega

/-- The first step of `lexer.next` on a tail that begins an identifier. -/
theorem nextLoop_ident (f : Nat) (lex : Lexer) (h : isIdentPrefix lex.sTail = true) :
    Lexer.nextLoop (f + 1) lex =
      (scanIdent lex.sTail).map fun token => lex.tokenFound lex.sTail token := by
  obtain ⟨tok, prev, nxt, orig, tail, err⟩ := lex
  cases tail with
  | nil => simp [isIdentPrefix] at h
  | cons c r =>
    have hc : c = 92 ∨ isFirstIdentChar c = true := by
      by_cases h92 : c = 92
      · exact Or.inl h92
      · right
        simpa [isIdentPrefix, h92] using h
    obtain ⟨hsp, h35, hpunct⟩ := identStart_class c hc
    simp only at h
    simp only [Lexer.nextLoop, List.takeWhile_cons, hsp, Bool.false_eq_true, if_false,
      List.length_nil, sliceFrom, List.drop_zero, h35, hpunct, h, if_true]
    cases scanIdent (c :: r) <;> rfl

theorem appendEscapedIdent_nil (s : Str) : appendEscapedIdent [] s = escFrom 0 s := by
  unfold appendEscapedIdent
  rw [appendEscapedIdentFrom_eq]
  rfl

/-- C19. An escaped identifier lexes back as one token: for a non-empty byte
string `s` and `e = appendEscapedIdent(nil, s)`, `isIdentPrefix(e)` holds and
`scanIdent(e) == e`; the first `Next` of a lexer initialised with `e` returns
the token `e` without error and leaves an empty tail, and the `Next` after it
returns the empty end-of-input token. -/
theorem escaped_ident_is_one_token (lex0 : Lexer) (s : Str) (hne : s ≠ []) (hs : IsBytes s) :
    isIdentPrefix (appendEscapedIdent [] s) = true ∧
    scanIdent (appendEscapedIdent [] s) = some (appendEscapedIdent [] s) ∧
    (lex0.Init (appendEscapedIdent [] s)).Next =
      some ({ Token := appendEscapedIdent [] s, prevTokens := [[]], nextTokens := [],
              sOrig := appendEscapedIdent [] s, sTail := [], err := none }, none) ∧
    Lexer.Next { Token := appendEscapedIdent [] s, prevTokens := [[]], nextTokens := [],
                 sOrig := appendEscapedIdent [] s, sTail := [], err := none } =
      some ({ Token := [], prevTokens := [[], appendEscapedIdent [] s], nextTokens := [],
              sOrig := appendEscapedIdent [] s, sTail := [], err := none }, none) := by
  rw [appendEscapedIdent_nil]
  have hpre := isIdentPrefix_escFrom s hne
  have hscan := scanIdent_escFrom s hne hs
  refine ⟨hpre, hscan, ?_, ?_⟩
  · simp only [Lexer.Next, Lexer.Init, List.getLast?_nil, Lexer.next]
    rw [nextLoop_ident _ _ hpre]
    simp [hscan, Lexer.tokenFound, sliceFrom]
  · simp [Lexer.Next, Lexer.next, Lexer.nextLoop, sliceFrom]

/-- C19 at the string `1 a`, whose escaped form is `\x31\ a`. -/
theorem escaped_ident_is_one_token_witness :
    bytes "1 a" ≠ [] ∧ IsBytes (bytes "1 a") ∧
      appendEscapedIdent [] (bytes "1 a") = bytes "\\x31\\ a" ∧
      (isIdentPrefix (appendEscapedIdent [] (bytes "1 a")) = true ∧
        scanIdent (appendEscapedIdent [] (bytes "1 a")) =
          some (appendEscapedIdent [] (bytes "1 a")) ∧
        (Lexer.zero.Init (appendEscapedIdent [] (bytes "1 a"))).Next =
          some ({ Token := appendEscapedIdent [] (bytes "1 a"), prevTokens := [[]],
                  nextTokens := [], sOrig := appendEscapedIdent [] (bytes "1 a"), sTail := [],
                  err := none }, none) ∧
        Lexer.Next { Token := appendEscapedIdent [] (bytes "1 a"), prevTokens := [[]],
                     nextTokens := [], sOrig := appendEscapedIdent [] (bytes "1 a"),
                     sTail := [], err := none } =
          some ({ Token := [], prevTokens := [[], appendEscapedIdent [] (bytes "1 a")],
                  nextTokens := [], sOrig := appendEscapedIdent [] (bytes "1 a"), sTail := [],
                  err := none }, none)) :=
  ⟨by decide, by decide, by decide,
    escaped_ident_is_one_token Lexer.zero (bytes "1 a") (by decide) (by decide)⟩

/-! ## The empty token -/

theorem dropWhile_head_false (p : Nat → Bool) {l : Str} {c : Nat} {r : Str}
    (h : l.dropWhile p = c :: r) : p c = false := by
  induction l with
  | nil => simp at h
  | cons x t ih =>
    by_cases hx : p x = true
    · simp only [List.dropWhile_cons, hx, if_true] at h
      exact ih h
    · simp only [List.dropWhile_cons, hx, Bool.false_eq_true, if_false, List.cons.injEq] at h
      rw [← h.1]
      simpa using hx

theorem blankFrom_spaces (ws w : Str) (h : ∀ c ∈ ws, isSpaceChar c = true) :
    blankFrom false (ws ++ w) = blankFrom false w := by
  induction ws with
  | nil => rfl
  | cons c r ih =>
    have hc : isSpaceChar c = true := h c (by simp)
    have hr : ∀ x ∈ r, isSpaceChar x = true := fun x hx => h x (by simp [hx])
    simp [blankFrom, hc, ih hr]

theorem blankFrom_comment (c w : Str) (h : ∀ x ∈ c, x ≠ 10) :
    blankFrom true (c ++ 10 :: w) = blankFrom false w := by
  induction c with
  | nil => simp [blankFrom]
  | cons x r ih =>
    have hx : x ≠ 10 := h x (by simp)
    have hr : ∀ y ∈ r, y ≠ 10 := fun y hy => h y (by simp [hy])
    simp [blankFrom, hx, ih hr]

theorem blankFrom_comment_open (c : Str) (h : ∀ x ∈ c, x ≠ 10) : blankFrom true c = true := by
  induction c with
  | nil => rfl
  | cons x r ih =>
    have hx : x ≠ 10 := h x (by simp)
    have hr : ∀ y ∈ r, y ≠ 10 := fun y hy => h y (by simp [hy])
    simp [blankFrom, hx, ih hr]

theorem indexByte_none_not_mem {s : Str} {c : Nat} (h : indexByte s c = none) :
    ∀ x ∈ s, x ≠ c := by
  induction s with
  | nil => intro x hx; simp at hx
  | cons y r ih =>
    by_cases hy : y = c
    · simp [indexByte, hy] at h
    · simp only [indexByte, hy, if_false, Option.map_eq_none'] at h
      intro x hx
      rcases List.mem_cons.1 hx with rfl | hx
      · exact hy
      · exact ih h x hx

theorem scanStringLoop_ne_nil (fuel : Nat) (s : Str) (quote : Nat) (hs : s ≠ []) :
    ∀ (i : Nat) (token : Str), scanStringLoop fuel s quote i = .ok token → token ≠ [] := by
  induction fuel with
  | zero => intro i token h; simp [scanStringLoop] at h
  | succ f ih =>
    intro i token h
    simp only [scanStringLoop] at h
    split at h
    · simp at h
    · split at h
      · simp only [Except.ok.injEq] at h
        rw [← h]
        obtain ⟨c, r, rfl⟩ := List.exists_cons_of_ne_nil hs
        simp [sliceTo]
      · exact ih _ _ h

theorem scanString_ne_nil {s token : Str} (h : scanString s = .ok token) : token ≠ [] := by
  unfold scanString at h
  split at h
  · simp at h
  · next hlen =>
    exact scanStringLoop_ne_nil _ s _ (by rintro rfl; simp at hlen) _ _ h

theorem scanIdent_ne_nil {s token : Str} (h : scanIdent s = some token) : token ≠ [] := by
  unfold scanIdent at h
  simp only at h
  split_ifs at h with h0
  simp only [Option.some.injEq] at h
  rw [← h]
  cases s with
  | nil => exact absurd rfl h0
  | cons c r =>
    obtain ⟨n, hn⟩ : ∃ n, scanIdentLoop (c :: r) = n + 1 :=
      ⟨scanIdentLoop (c :: r) - 1, by omega⟩
    simp [sliceTo, hn]

theorem scanPositiveNumber_ne_nil {s token : Str} (hp : isPositiveNumberPrefix s = true)
    (h : scanPositiveNumber s = .ok token) : token ≠ [] := by
  have hne : s ≠ [] := by
    rintro rfl
    simp [isPositiveNumberPrefix] at hp
  rw [scanPositiveNumber_eq s hne] at h
  split_ifs at h
  split at h
  · exact Except.noConfusion h
  · simp only [Except.ok.injEq] at h
    rw [← h]
    intro hnil
    exact numberMantissa_ne_nil hp (List.append_eq_nil.1 hnil).1

theorem sliceTo_ne_nil {s : Str} {n : Nat} (hs : s ≠ []) (hn : 0 < n) : sliceTo s n ≠ [] := by
  obtain ⟨c, r, rfl⟩ := List.exists_cons_of_ne_nil hs
  obtain ⟨m, rfl⟩ : ∃ m, n = m + 1 := ⟨n - 1, by omega⟩
  simp [sliceTo]

theorem scanBinaryOpPrefix_pos {s : Str} (h : 0 < scanBinaryOpPrefix s) : s ≠ [] := by
  rintro rfl
  obtain ⟨_, _, h3⟩ := foldl_scanBinaryOpPrefixStep [] binaryOps.keys 0
  unfold scanBinaryOpPrefix scanBinaryOpPrefixOver at h
  rcases h3 with h3 | ⟨op, _, hm, h3⟩
  · omega
  · have := hm.1
    simp only [List.length_nil] at this
    omega

theorem scanTagFilterOpPrefix_pos {s : Str} (h : 0 < scanTagFilterOpPrefix s) :
    s ≠ [] ∧ 0 < (scanTagFilterOpPrefix s).toNat := by
  constructor
  · rintro rfl
    simp [scanTagFilterOpPrefix] at h
  · omega

theorem scanDuration_pos {s : Str} {neg : Bool} (h : 0 < scanDuration s neg) :
    s ≠ [] ∧ 0 < (scanDuration s neg).toNat := by
  constructor
  · rintro rfl
    simp [scanDuration] at h
  · omega

/-- A result of `lexer.next` is the empty token without error exactly when the
tail was blank. -/
theorem nextLoop_empty_iff (fuel : Nat) :
    ∀ (lex lex' : Lexer) (tok : Str) (e : Option LexError),
      Lexer.nextLoop fuel lex = some (lex', tok, e) →
      ((tok = [] ∧ e = none) ↔ IsBlank lex.sTail) := by
  induction fuel with
  | zero => intro lex lex' tok e h; simp [Lexer.nextLoop] at h
  | succ f ih =>
    intro lex lex' tok e h
    have hsplit := takeWhile_append_sliceFrom lex.sTail
    have hws : ∀ c ∈ lex.sTail.takeWhile isSpaceChar, isSpaceChar c = true :=
      fun c hc => List.mem_takeWhile_imp hc
    have hblank : IsBlank lex.sTail ↔
        blankFrom false
          (sliceFrom lex.sTail (lex.sTail.takeWhile isSpaceChar).length) = true := by
      unfold IsBlank
      conv_lhs => rw [hsplit, blankFrom_spaces _ _ hws]
    rw [hblank]
    simp only [Lexer.nextLoop] at h
    split at h
    · next hnil =>
      simp only [Option.some.injEq, Prod.mk.injEq] at h
      obtain ⟨_, rfl, rfl⟩ := h
      rw [hnil]
      simp [blankFrom]
    · next s0 rest hcons =>
      have hnsp : isSpaceChar s0 = false := by
        have hd := drop_takeWhile_length isSpaceChar lex.sTail
        unfold sliceFrom at hcons
        rw [hcons] at hd
        exact dropWhile_head_false isSpaceChar hd.symm
      rw [hcons]
      have hnot : s0 ≠ 35 → ¬ (blankFrom false (s0 :: rest) = true) := by
        intro h35
        simp [blankFrom, hnsp, h35]
      -- an error result
      have failed : ∀ (l : Lexer) (err : LexError), s0 ≠ 35 →
          some (l, ([] : Str), some err) = some (lex', tok, e) →
          ((tok = [] ∧ e = none) ↔ blankFrom false (s0 :: rest) = true) := by
        intro l err h35 h
        simp only [Option.some.injEq, Prod.mk.injEq] at h
        obtain ⟨_, _, rfl⟩ := h
        constructor
        · rintro ⟨_, h2⟩
          exact Option.noConfusion h2
        · intro hb
          exact absurd hb (hnot h35)
      -- a result that goes through `tokenFoundLabel` with a non-empty token
      have found : ∀ (l : Lexer) (token : Str), token ≠ [] → s0 ≠ 35 →
          some (l.tokenFound (s0 :: rest) token) = some (lex', tok, e) →
          ((tok = [] ∧ e = none) ↔ blankFrom false (s0 :: rest) = true) := by
        intro l token hne h35 h
        simp only [Lexer.tokenFound, Option.some.injEq, Prod.mk.injEq] at h
        obtain ⟨_, rfl, _⟩ := h
        constructor
        · rintro ⟨h1, _⟩
          exact absurd h1 hne
        · intro hb
          exact absurd hb (hnot h35)
      have hs : (s0 :: rest) ≠ [] := List.cons_ne_nil _ _
      split_ifs at h with h35 hpunct hid hstr hbin htag hdur hnum
      · subst h35
        have hb35 : blankFrom false (35 :: rest) = blankFrom true rest := by
          simp [blankFrom, hnsp]
        rw [hb35]
        split at h
        · next hn =>
          simp only [Option.some.injEq, Prod.mk.injEq] at h
          obtain ⟨_, rfl, rfl⟩ := h
          simp [blankFrom_comment_open rest (indexByte_none_not_mem hn)]
        · next n hn =>
          obtain ⟨hrest, hnonl⟩ := indexByte_some hn
          have := ih _ _ _ _ h
          simp only [IsBlank, sliceFrom] at this
          rw [this]
          conv_rhs => rw [hrest, blankFrom_comment _ _ hnonl]
      · exact found _ _ (sliceTo_ne_nil hs (by omega)) h35 h
      · split at h
        · simp at h
        · next token htok => exact found _ _ (scanIdent_ne_nil htok) h35 h
      · split at h
        · exact failed _ _ h35 h
        · next token htok => exact found _ _ (scanString_ne_nil htok) h35 h
      · exact found _ _ (sliceTo_ne_nil hs hbin) h35 h
      · exact found _ _ (sliceTo_ne_nil hs (scanTagFilterOpPrefix_pos htag).2) h35 h
      · exact found _ _ (sliceTo_ne_nil hs (scanDuration_pos hdur).2) h35 h
      · split at h
        · exact failed _ _ h35 h
        · next token htok => exact found _ _ (scanPositiveNumber_ne_nil hnum htok) h35 h
      · exact failed _ _ h35 h

theorem Next_empty_token_iff (lex : Lexer) (hscan : lex.scansNewText = true) :
    (∃ lex', lex.Next = some (lex', none) ∧ lex'.Token = []) ↔ IsBlank lex.sTail := by
  obtain ⟨tok, prev, nxt, orig, tail, err⟩ := lex
  simp only [Lexer.scansNewText, Bool.and_eq_true, Option.isNone_iff_eq_none,
    List.isEmpty_iff] at hscan
  obtain ⟨rfl, rfl⟩ := hscan
  have hsome := next_isSome (Lexer.mk tok (prev ++ [tok]) [] orig tail none)
  simp only [Lexer.Next, List.getLast?_nil]
  cases hn : Lexer.next (Lexer.mk tok (prev ++ [tok]) [] orig tail none) with
  | none => simp [hn] at hsome
  | some r =>
    obtain ⟨l2, t2, e2⟩ := r
    have hiff := nextLoop_empty_iff _ _ _ _ _ hn
    simp only at hiff
    rw [← hiff]
    cases e2 with
    | some e3 => simp
    | none =>
      constructor
      · rintro ⟨lex', h1, h2⟩
        simp only [Option.some.injEq, Prod.mk.injEq, and_true] at h1
        rw [← h1] at h2
        exact ⟨h2, rfl⟩
      · rintro ⟨h1, _⟩
        exact ⟨_, rfl, h1⟩

/-- C20. The empty token means end-of-input and nothing else: a `Next` that
scans new text returns the empty token without error exactly when the
unconsumed tail consists solely of whitespace and `#`-comments; the tokens of
the punctuation, identifier, string, operator, tag-filter, duration and number
rules are non-empty; and `scanIdent` does not panic behind `isIdentPrefix`, so
`Next` returns. -/
theorem empty_token_iff_end_of_input (lex : Lexer) (hscan : lex.scansNewText = true)
    (s tok : Str) :
    ((∃ lex', lex.Next = some (lex', none) ∧ lex'.Token = []) ↔ IsBlank lex.sTail) ∧
    (s ≠ [] → sliceTo s 1 ≠ []) ∧
    (scanIdent s = some tok → tok ≠ []) ∧
    (scanString s = .ok tok → tok ≠ []) ∧
    (0 < scanBinaryOpPrefix s → sliceTo s (scanBinaryOpPrefix s) ≠ []) ∧
    (0 < scanTagFilterOpPrefix s → sliceTo s (scanTagFilterOpPrefix s).toNat ≠ []) ∧
    (0 < scanDuration s false → sliceTo s (scanDuration s false).toNat ≠ []) ∧
    (isPositiveNumberPrefix s = true → scanPositiveNumber s = .ok tok → tok ≠ []) ∧
    (isIdentPrefix s = true → (scanIdent s).isSome = true) ∧
    lex.Next.isSome = true :=
  ⟨Next_empty_token_iff lex hscan,
    fun hs => sliceTo_ne_nil hs (by omega),
    fun h => scanIdent_ne_nil h,
    fun h => scanString_ne_nil h,
    fun h => sliceTo_ne_nil (scanBinaryOpPrefix_pos h) h,
    fun h => sliceTo_ne_nil (scanTagFilterOpPrefix_pos h).1 (scanTagFilterOpPrefix_pos h).2,
    fun h => sliceTo_ne_nil (scanDuration_pos h).1 (scanDuration_pos h).2,
    fun hp h => scanPositiveNumber_ne_nil hp h,
    fun h => scanIdent_isSome h,
    Next_isSome lex⟩

/-- C20 on a lexer whose tail is ` # c\n\t# d`, two comments of which the
second has no newline, and on the string `5m`. -/
theorem empty_token_iff_end_of_input_witness :
    Lexer.scansNewText (Lexer.zero.Init (bytes " # c\n\t# d")) = true ∧
      IsBlank (bytes " # c\n\t# d") ∧
      (((∃ lex', (Lexer.zero.Init (bytes " # c\n\t# d")).Next = some (lex', none) ∧
            lex'.Token = []) ↔
          IsBlank (Lexer.zero.Init (bytes " # c\n\t# d")).sTail) ∧
        (bytes "5m" ≠ [] → sliceTo (bytes "5m") 1 ≠ []) ∧
        (scanIdent (bytes "5m") = some (bytes "5m") → bytes "5m" ≠ []) ∧
        (scanString (bytes "5m") = .ok (bytes "5m") → bytes "5m" ≠ []) ∧
        (0 < scanBinaryOpPrefix (bytes "5m") →
          sliceTo (bytes "5m") (scanBinaryOpPrefix (bytes "5m")) ≠ []) ∧
        (0 < scanTagFilterOpPrefix (bytes "5m") →
          sliceTo (bytes "5m") (scanTagFilterOpPrefix (bytes "5m")).toNat ≠ []) ∧
        (0 < scanDuration (bytes "5m") false →
          sliceTo (bytes "5m") (scanDuration (bytes "5m") false).toNat ≠ []) ∧
        (isPositiveNumberPrefix (bytes "5m") = true →
          scanPositiveNumber (bytes "5m") = .ok (bytes "5m") → bytes "5m" ≠ []) ∧
        (isIdentPrefix (bytes "5m") = true → (scanIdent (bytes "5m")).isSome = true) ∧
        (Lexer.zero.Init (bytes " # c\n\t# d")).Next.isSome = true) :=
  ⟨by decide, by decide,
    empty_token_iff_end_of_input (Lexer.zero.Init (bytes " # c\n\t# d")) (by decide)
      (bytes "5m") (bytes "5m")⟩
end MetricsQL
